import Mathlib

/-!
# aether-proxy: error domain, request targets, WebSocket manager, utilities

A shallow embedding of

* `src/aether/proxy/error/exceptions.hpp` (the macro-generated error codes
  `errc_t`, the category predicates `is_*_error`, `error_code::message` and
  the generated exception classes),
* `src/aether/proxy/tcp/http/message/url.cpp` (the request-target parser
  `url::parse_target` and the serialiser `operator<<`),
* `src/aether/proxy/tcp/websocket/protocol/websocket_manager.cpp`
  (`websocket_manager::parse` and `process_close_frame`),
* `src/aether/proxy/connection/connection_flow.cpp` (`set_server`), and
* `src/aether/util/string.cpp` (`util::string::trim`, both `split`s, `split_trim`,
  `lowercase`, `iequals_fn`, `iless`, `iequals`, `ihash` and
  `parse_hexadecimal`).

Conventions of the embedding.

* A `std::string` / `std::string_view` is a `List Char` (`Str`).
* `std::size_t` is a `Nat`; `std::string::npos` is `2^64 - 1`.  Every real
  string is shorter than `npos`, which theorems that depend on it state as
  the hypothesis `str.length < npos`.
* A function that can throw, or whose behaviour can be undefined, returns
  `Except fault _`.  `std::string_view::operator[]` at an index that is not
  smaller than `size()` is undefined behaviour; the embedding reports it as
  `fault.undefined_read` and stops, so every `Except.ok` result is the result
  of an execution with defined behaviour only.
* A `while` loop is a recursion on a bound of iterations; running into the
  bound is `fault.loop_bound`, which is no outcome of the program, so an
  `Except.ok` result is the result of a run that ended.
-/

namespace proxy

/-! ## Error codes (`exceptions.hpp`) -/

namespace errc

/-- One `X(num, name, msg, other)` row of a `*_EXCEPTIONS` table. -/
structure exception_row where
  num : Nat
  name : String
  msg : String
deriving DecidableEq, Repr

/-- One `X(num, name, MACRO_NAME, msg, nested, other)` row of
`EXCEPTION_CATEGORIES`; `table` is the `MACRO_NAME##_EXCEPTIONS` table. -/
structure category_row where
  num : Nat
  name : String
  msg : String
  nested : Bool
  table : List exception_row
deriving DecidableEq, Repr

def PROXY_EXCEPTIONS : List exception_row :=
  [ ⟨1, "invalid_option", "Invalid option"⟩,
    ⟨2, "ipv6_error", "IPv6 error"⟩,
    ⟨3, "invalid_operation", "Invalid operation"⟩,
    ⟨4, "acceptor_error", "Acceptor error"⟩,
    ⟨5, "parser_error", "Parser error"⟩,
    ⟨6, "server_not_connected", "Server is not connected"⟩,
    ⟨7, "asio_error", "ASIO error"⟩,
    ⟨8, "self_connect", "Proxy cannot connect to itself"⟩ ]

def HTTP_EXCEPTIONS : List exception_row :=
  [ ⟨1, "invalid_method", "Invalid HTTP method"⟩,
    ⟨2, "invalid_status", "Invalid HTTP status"⟩,
    ⟨3, "invalid_version", "Invalid HTTP version"⟩,
    ⟨4, "invalid_target_host", "Invalid target host"⟩,
    ⟨5, "invalid_target_port", "Invalid target port"⟩,
    ⟨6, "invalid_request_line", "Invalid HTTP request line"⟩,
    ⟨7, "invalid_header", "Invalid HTTP header"⟩,
    ⟨8, "header_not_found", "Header was not found"⟩,
    ⟨9, "invalid_body_size", "Invalid HTTP body size"⟩,
    ⟨10, "body_size_too_large", "Given body size exceeds limit"⟩,
    ⟨11, "invalid_chunked_body", "Malformed chunked-encoding body"⟩,
    ⟨12, "no_response", "HTTP exchange has no response"⟩,
    ⟨13, "invalid_response_line", "Invalid HTTP response line"⟩,
    ⟨14, "malformed_response_body", "Malformed response body"⟩ ]

def TLS_EXCEPTIONS : List exception_row :=
  [ ⟨1, "invalid_client_hello", "Invalid Client Hello message"⟩,
    ⟨2, "read_access_violation", "Read access violation (not enough data)"⟩,
    ⟨3, "tls_service_error", "Exception in TLS service"⟩,
    ⟨4, "invalid_ssl_method", "Invalid SSL version"⟩,
    ⟨5, "invalid_cipher_suite", "Invalid cipher suite"⟩,
    ⟨6, "invalid_trusted_certificates_file", "Invalid verify file"⟩,
    ⟨7, "invalid_cipher_suite_list", "Invalid cipher suite list"⟩,
    ⟨8, "invalid_alpn_protos_list", "Invalid ALPN protocol list"⟩,
    ⟨9, "ssl_context_error", "Failed to create and configure SSL context"⟩,
    ⟨10, "ssl_server_store_creation_error",
      "An error occurred when creating the SSL server's certificate store"⟩,
    ⟨11, "certificate_creation_error", "An error occurred when generating an SSL certificate"⟩,
    ⟨12, "certificate_issuer_not_found", "Certificate issuer could not be found"⟩,
    ⟨13, "certificate_subject_not_found", "Certificate subject could not be found"⟩,
    ⟨14, "certificate_name_entry_error", "Error accessing certificate name entry"⟩,
    ⟨15, "alpn_not_found", "Negotiated ALPN could not be found"⟩,
    ⟨16, "upstream_handshake_failed", "Upstream handshake failed"⟩,
    ⟨17, "downstream_handshake_failed", "Downstream handshake failed"⟩,
    ⟨18, "upstream_connect_error", "Could not connect to upstream server"⟩ ]

def WEBSOCKET_EXCEPTIONS : List exception_row :=
  [ ⟨1, "invalid_opcode", "Invalid WebSocket opcode"⟩,
    ⟨2, "extension_param_not_found", "Extension parameter was not found"⟩,
    ⟨3, "invalid_extension_string", "Invalid extension string"⟩,
    ⟨4, "invalid_frame", "Invalid frame"⟩,
    ⟨5, "unexpected_opcode", "Unexpected opcode"⟩,
    ⟨6, "serialization_error", "Frame serialization error"⟩,
    ⟨7, "zlib_error", "zlib error"⟩ ]

def EXCEPTION_CATEGORIES : List category_row :=
  [ ⟨0, "proxy", "Proxy error", false, PROXY_EXCEPTIONS⟩,
    ⟨1, "http", "HTTP error", true, HTTP_EXCEPTIONS⟩,
    ⟨2, "tls", "TLS error", true, TLS_EXCEPTIONS⟩,
    ⟨3, "websocket", "WebSocket error", true, WEBSOCKET_EXCEPTIONS⟩ ]

def CATEGORY_BITSIZE : Nat := 5

/-- The value of an `errc_t` enumerator.  Every enumerator is non-negative and
below `2^31`, so the `std::int32_t` value is the natural number itself. -/
abbrev errc_t := Nat

def success : errc_t := 0

/-- `CREATE_CATEGORY_CODES`:
`name##_error = ((1 << CATEGORY_BITSIZE) - 1) << (num * CATEGORY_BITSIZE)`. -/
def CREATE_CATEGORY_CODES (num : Nat) : errc_t :=
  ((1 <<< CATEGORY_BITSIZE) - 1) <<< (num * CATEGORY_BITSIZE)

/-- `CREATE_ERROR_CODES`: `name = num << (offset * CATEGORY_BITSIZE)`. -/
def CREATE_ERROR_CODES (num offset : Nat) : errc_t :=
  num <<< (offset * CATEGORY_BITSIZE)

def proxy_error : errc_t := CREATE_CATEGORY_CODES 0
def http_error : errc_t := CREATE_CATEGORY_CODES 1
def tls_error : errc_t := CREATE_CATEGORY_CODES 2
def websocket_error : errc_t := CREATE_CATEGORY_CODES 3

/-- The enumerator `invalid_target_port` (row 5 of `HTTP_EXCEPTIONS`, category 1). -/
def invalid_target_port : errc_t := CREATE_ERROR_CODES 5 1

/-- `CATEGORY_CHECK_FUNCTION`: `return code & name##_error;` converted to `bool`. -/
def is_proxy_error (code : errc_t) : Bool := (code &&& proxy_error) != 0
def is_http_error (code : errc_t) : Bool := (code &&& http_error) != 0
def is_tls_error (code : errc_t) : Bool := (code &&& tls_error) != 0
def is_websocket_error (code : errc_t) : Bool := (code &&& websocket_error) != 0

/-- The enumerators one category row generates: its mask code `name##_error`
followed by the codes of its table, in declaration order. -/
def category_codes (c : category_row) : List errc_t :=
  CREATE_CATEGORY_CODES c.num :: c.table.map (fun r => CREATE_ERROR_CODES r.num c.num)

/-- All enumerators of `errc_t` other than `success`, in declaration order. -/
def all_codes : List errc_t :=
  EXCEPTION_CATEGORIES.flatMap category_codes

end errc

/-! ## Strings (`std::string_view`) -/

/-- The characters of a `std::string` or `std::string_view`. -/
abbrev Str := List Char

/-- `std::string::npos`, the largest `std::size_t` (64-bit). -/
def npos : Nat := 2 ^ 64 - 1

/-- What a call can end in other than a returned value. -/
inductive fault where
  /-- An exception derived from `error::base_exception`: its error code and the
  message passed to its constructor. -/
  | exception (code : errc.errc_t) (msg : String)
  /-- `std::out_of_range`, thrown by `substr` when `pos > size()`. -/
  | out_of_range
  /-- Undefined behaviour: `operator[]` at an index `>= size()`. -/
  | undefined_read
  /-- `std::bad_cast`. -/
  | bad_cast
  /-- Not an outcome of the program: a loop of the embedding was cut off at
  its bound on the number of iterations. -/
  | loop_bound
deriving DecidableEq, Repr

/-- `str[i]` (`std::string_view::operator[]`). -/
def sv_at (str : Str) (i : Nat) : Except fault Char :=
  match str.get? i with
  | some c => .ok c
  | none => .error .undefined_read

/-- Index of the first character of `str` satisfying `p`, if any. -/
def first_index (p : Char → Bool) : Str → Option Nat
  | [] => none
  | c :: cs => if p c then some 0 else (first_index p cs).map (· + 1)

/-- `str.find(c, pos)`: the first index `>= pos` holding `c`, else `npos`. -/
def sv_find (str : Str) (c : Char) (pos : Nat) : Nat :=
  match first_index (· == c) (str.drop pos) with
  | some i => pos + i
  | none => npos

/-- `str.find_first_of(chars, pos)`: the first index `>= pos` holding a
character of `chars`, else `npos`. -/
def sv_find_first_of (str : Str) (chars : Str) (pos : Nat) : Nat :=
  match first_index (fun c => chars.contains c) (str.drop pos) with
  | some i => pos + i
  | none => npos

/-- `str.substr(pos, count)`: throws `std::out_of_range` when `pos > size()`,
else the `min(count, size() - pos)` characters from `pos` on. -/
def sv_substr (str : Str) (pos count : Nat) : Except fault Str :=
  if pos > str.length then .error .out_of_range
  else .ok ((str.drop pos).take count)

namespace util.string

/-- Modelled from the spec: `util::string::substring(src, start, end)` is
declared in `string.hpp`, which is not among the sources.  The spec names no
such helper; `url.cpp` uses it as the piece of `src` from index `start` up to,
not including, index `end` (the rest of `src` when `end` is omitted, that is
`npos`).  Modelled as `src.substr(start, end - start)` with the subtraction
in `std::size_t`. -/
def substring (src : Str) (start finish : Nat) : Except fault Str :=
  sv_substr src start ((finish + 2 ^ 64 - start) % 2 ^ 64)

end util.string

/-! ## `boost::lexical_cast<std::size_t>` -/

/-- The value of a decimal digit character. -/
def digit_value (c : Char) : Option Nat :=
  if '0' ≤ c ∧ c ≤ '9' then some (c.toNat - '0'.toNat) else none

/-- Reads the digits of `cs` after the value `acc` read so far; `none` when a
character is not a decimal digit. -/
def digits_value (acc : Nat) : Str → Option Nat
  | [] => some acc
  | c :: cs =>
    match digit_value c with
    | some d => digits_value (10 * acc + d) cs
    | none => none

/-- `boost::lexical_cast<std::size_t>(str)` (a library function, modelled from
its documented behaviour): an optional single sign `+` or `-`, then one or more
decimal digits and nothing else; the digits must denote a value that fits
`std::size_t`; with a `-` sign the value is negated in `std::size_t`
(`lexical_cast<unsigned>("-1")` is the largest value).  `none` stands for
`boost::bad_lexical_cast`. -/
def lexical_cast_size_t (str : Str) : Option Nat :=
  let conv (body : Str) : Option Nat :=
    match body with
    | [] => none
    | _ :: _ =>
      match digits_value 0 body with
      | some v => if v ≤ npos then some v else none
      | none => none
  match str with
  | '-' :: body => (conv body).map (fun v => (2 ^ 64 - v) % 2 ^ 64)
  | '+' :: body => conv body
  | _ => conv str

namespace tcp.http

/-! ## `url` (`url.cpp`; the declarations of `url.hpp` are not among the sources) -/

/-- Modelled from the spec: the request methods (`method`, declared in a header
that is not among the sources): "GET, POST, ..., CONNECT, OPTIONS, TRACE,
PATCH". -/
inductive method where
  | GET | HEAD | POST | PUT | DELETE | CONNECT | OPTIONS | TRACE | PATCH
deriving DecidableEq, Repr

/-- Modelled from the spec: "`form ∈ {asterisk, authority, absolute, origin}`". -/
inductive target_form where
  | asterisk | authority | absolute | origin
deriving DecidableEq, Repr

/-- Modelled from the spec: "`netloc {username, password, host, port?}`". -/
structure network_location where
  username : Str
  password : Str
  host : Str
  port : Option Nat
deriving DecidableEq, Repr

/-- Modelled from the spec: "Fields: `scheme`, `netloc`, `path`, `search`",
tagged by `form`. -/
structure url where
  form : target_form
  scheme : Str
  netloc : network_location
  path : Str
  search : Str
deriving DecidableEq, Repr

/-- A value-initialised `network_location` (`{ }`). -/
def network_location.init : network_location := ⟨[], [], [], none⟩

/-- Modelled from the spec: `url::search_delims` (declared in `url.hpp`):
"leading delimiter (`;`, `?`, or `#`)". -/
def search_delims : Str := [';', '?', '#']

/-- Modelled from the spec: `std::numeric_limits<port_t>::max()`; `port_t`
(declared outside the sources) is a 16-bit unsigned port number. -/
def port_max : Nat := 65535

namespace url

/-- `url::make_authority_form`. -/
def make_authority_form (host : Str) (port : Nat) : url :=
  ⟨.authority, [], ⟨[], [], host, some port⟩, [], []⟩

/-- `url::make_origin_form`. -/
def make_origin_form (path search : Str) : url :=
  ⟨.origin, [], network_location.init, path, search⟩

/-- `url::parse_port`.  A `bad_lexical_cast` is caught and rethrown as
`invalid_target_port_exception`; the out-of-range exception is not caught. -/
def parse_port (str : Str) : Except fault Nat :=
  match lexical_cast_size_t str with
  | none => .error (.exception errc.invalid_target_port "Target port invalid")
  | some port_long =>
    if port_long > port_max then
      .error (.exception errc.invalid_target_port "Target port out of range")
    else .ok port_long

/-- `url::parse_authority_form`. -/
def parse_authority_form (str : Str) : Except fault url := do
  let port_pos := sv_find str ':' 0
  if port_pos == npos then
    throw (.exception errc.invalid_target_port "Missing port for authority form")
  let port ← parse_port (← sv_substr str (port_pos + 1) npos)
  return make_authority_form (← sv_substr str 0 port_pos) port

/-- `url::parse_origin_form`. -/
def parse_origin_form (str : Str) : Except fault url := do
  let earliest_delim := sv_find_first_of str search_delims 0
  if earliest_delim != npos then
    return make_origin_form (← sv_substr str 0 earliest_delim)
      (← sv_substr str earliest_delim npos)
  else
    return make_origin_form str []

/-- The condition `str[i] == '/' && str[j] == '/'`: the second character is
read only when the first comparison holds. -/
def both_slash (str : Str) (i j : Nat) : Except fault Bool := do
  if (← sv_at str i) == '/' then
    return (← sv_at str j) == '/'
  else
    return false

/-- `url::parse_netloc`. -/
def parse_netloc (str : Str) : Except fault network_location := do
  let start0 := if (← both_slash str 0 1) then 2 else 0
  let user_end := sv_find str '@' start0
  let (username, password, start) ←
    (if user_end != npos then do
      let password_start := sv_find str ':' start0
      let password ←
        (if password_start < user_end then
          util.string.substring str (password_start + 1) user_end
        else pure [])
      let username ← util.string.substring str start0 user_end
      pure (username, password, user_end)
    else pure ([], [], start0) : Except fault (Str × Str × Nat))
  let port_start := sv_find str ':' start
  if port_start != npos then
    let port ← parse_port (← util.string.substring str (port_start + 1) npos)
    let host ← util.string.substring str start port_start
    return ⟨username, password, host, some port⟩
  else
    let host ← util.string.substring str start npos
    return ⟨username, password, host, none⟩

/-- `url::parse_absolute_form`.  `netloc_start` is the index of the first `:`,
or 0 when there is none or the string begins with `//`.  In the netloc branch
the source tests `first_slash != npos` a second time in an `else if` that is
reached only when it holds; it is the plain `else` here. -/
def parse_absolute_form (str : Str) : Except fault url := do
  let colon := sv_find str ':' 0
  let no_scheme ← (if colon == npos then pure true else both_slash str 0 1)
  let netloc_start := if no_scheme then 0 else colon
  let scheme ← (if no_scheme then pure [] else util.string.substring str 0 colon)
  if (← both_slash str (netloc_start + 1) (netloc_start + 2)) then
    let netloc_start := netloc_start + 3
    let earliest_nonslash_delim := sv_find_first_of str search_delims netloc_start
    let first_slash := sv_find str '/' netloc_start
    let earliest_delim := min earliest_nonslash_delim first_slash
    let netloc ← parse_netloc (← util.string.substring str netloc_start earliest_delim)
    if first_slash != npos then
      if earliest_nonslash_delim != npos && earliest_nonslash_delim > first_slash then
        let path ← util.string.substring str first_slash earliest_nonslash_delim
        let search ← util.string.substring str earliest_nonslash_delim npos
        return ⟨.absolute, scheme, netloc, path, search⟩
      else
        let path ← util.string.substring str first_slash npos
        return ⟨.absolute, scheme, netloc, path, []⟩
    else if earliest_nonslash_delim != npos then
      let search ← util.string.substring str earliest_nonslash_delim npos
      return ⟨.absolute, scheme, netloc, [], search⟩
    else
      return ⟨.absolute, scheme, netloc, [], []⟩
  else if (← sv_at str (netloc_start + 1)) == '/' then
    let netloc_start := netloc_start + 2
    let earliest_nonslash_delim := sv_find_first_of str search_delims netloc_start
    if earliest_nonslash_delim != npos then
      let path ← util.string.substring str netloc_start earliest_nonslash_delim
      let search ← util.string.substring str earliest_nonslash_delim npos
      return ⟨.absolute, scheme, network_location.init, path, search⟩
    else
      let path ← util.string.substring str netloc_start npos
      return ⟨.absolute, scheme, network_location.init, path, []⟩
  else
    let search ← util.string.substring str (netloc_start + 1) npos
    return ⟨.absolute, scheme, network_location.init, [], search⟩

/-- The value `{ target_form::asterisk }`. -/
def asterisk_form : url := ⟨.asterisk, [], network_location.init, [], []⟩

/-- `url::parse_target` (RFC 7230, section 5.3). -/
def parse_target (str : Str) (verb : method) : Except fault url := do
  if str = ['*'] then
    return asterisk_form
  else if (← sv_at str 0) == '/' then
    parse_origin_form str
  else if verb = method.CONNECT then
    parse_authority_form str
  else
    parse_absolute_form str

end url

/-! ### Serialisation -/

/-- Decimal digits of `n`, most significant first, in front of `acc`
(`fuel` bounds the number of digits). -/
def decimal_digits : Nat → Nat → Str → Str
  | 0, _, acc => acc
  | fuel + 1, n, acc =>
    let acc1 := Char.ofNat ('0'.toNat + n % 10) :: acc
    if n / 10 = 0 then acc1 else decimal_digits fuel (n / 10) acc1

/-- What `operator<<` writes for an unsigned integer (here a `port_t`): its
decimal digits without leading zeros. -/
def decimal_string (n : Nat) : Str := decimal_digits (n + 1) n []

namespace network_location

/-- `url::network_location::empty`. -/
def empty (n : network_location) : Bool :=
  n.username.isEmpty && n.password.isEmpty && n.host.isEmpty

/-- `url::network_location::has_hostname`. -/
def has_hostname (n : network_location) : Bool := !n.host.isEmpty

/-- `url::network_location::has_port`. -/
def has_port (n : network_location) : Bool := n.port.isSome

/-- `url::network_location::to_host_string`. -/
def to_host_string (n : network_location) : Str :=
  n.host ++ (match n.port with
    | some p => ':' :: decimal_string p
    | none => [])

/-- `operator<<(std::ostream &, const url::network_location &)`, as the text
written; this is also `url::network_location::to_string`. -/
def to_string (n : network_location) : Str :=
  if !n.empty then
    (if !n.username.isEmpty then
      n.username ++ (if !n.password.isEmpty then ':' :: n.password else []) ++ ['@']
    else []) ++ n.to_host_string
  else []

end network_location

namespace url

/-- `operator<<(std::ostream &, const url &)`, as the text written; this is
also `url::to_string`. -/
def to_string (u : url) : Str :=
  if u.form = target_form.asterisk then ['*']
  else
    (if u.form ≠ target_form.origin then
      (if !u.scheme.isEmpty then
        u.scheme ++ [':'] ++ (if !u.netloc.empty then ['/', '/'] else [])
      else []) ++ u.netloc.to_string
    else []) ++
    (if !u.path.isEmpty then u.path else []) ++ u.search

/-- `url::full_path`. -/
def full_path (u : url) : Str := u.path ++ u.search

end url

end tcp.http

/-! ## `error_code::message` and the exception classes (`exceptions.hpp`) -/

namespace errc

/-- The enumerator `invalid_frame` (row 4 of `WEBSOCKET_EXCEPTIONS`, category 3). -/
def invalid_frame : errc_t := CREATE_ERROR_CODES 4 3

end errc

namespace error_code

/-- The `case errc::name: return msg;` lines that
`EXCEPTION_CATEGORIES(CATEGORY_SWITCH_CASE, SWITCH_CASE)` generates, in order:
the value of the case label and the string returned. -/
def SWITCH_CASES : List (Int × String) :=
  errc.EXCEPTION_CATEGORIES.flatMap (fun c =>
    c.table.map (fun r => (((errc.CREATE_ERROR_CODES r.num c.num : Nat) : Int), r.msg)))

/-- What a `switch` over the given case lines returns for `val`, if a label
matches. -/
def switch_return : List (Int × String) → Int → Option String
  | [], _ => none
  | (label, msg) :: rest, val => if val = label then some msg else switch_return rest val

/-- `error_code::message`, for an `error_code` holding `val` (any value of the
underlying `std::int32_t` can be held). -/
def message (val : Int) : String :=
  if val = ((errc.success : Nat) : Int) then "Success"
  else
    match switch_return SWITCH_CASES val with
    | some msg => msg
    | none => "Unknown error"

end error_code

namespace error

/-- `error::base_exception`: the text of `std::runtime_error` and the code. -/
structure base_exception where
  what : String
  code : errc.errc_t
deriving DecidableEq, Repr

/-- `base_exception::error_code`. -/
def base_exception.error_code (e : base_exception) : errc.errc_t := e.code

/-- `GENERATE_ALL_EXCEPTIONS_true`: the category class
`name##_exception(str = msg, code = errc::name##_error) : base_exception(str, code)`;
an argument that is `none` takes its default. -/
def category_exception (c : errc.category_row) (str : Option String)
    (code : Option errc.errc_t) : base_exception :=
  ⟨str.getD c.msg, code.getD (errc.CREATE_CATEGORY_CODES c.num)⟩

/-- `GENERATE_EXCEPTION`: the class
`name##_exception(str = msg) : base(#name ": " + str, errc::errc_t::name)`, where
`base` is the category class for a nested category (http, tls, websocket) and
`base_exception` itself for the proxy category; `str = none` takes the default
message. -/
def GENERATE_EXCEPTION (c : errc.category_row) (r : errc.exception_row)
    (str : Option String) : base_exception :=
  if c.nested then
    category_exception c (some (r.name ++ ": " ++ str.getD r.msg))
      (some (errc.CREATE_ERROR_CODES r.num c.num))
  else
    ⟨r.name ++ ": " ++ str.getD r.msg, errc.CREATE_ERROR_CODES r.num c.num⟩

end error

/-! ## `connection_flow::set_server` (`connection_flow.cpp`) -/

namespace connection

/-- Modelled from the spec: `server_connection` is declared outside the
sources.  Of its state only whether it is connected is observed here;
`disconnects` records how many times `disconnect()` has been called.
"Setting a new target while the upstream is connected forces
disconnect-before-reconnect": after `disconnect()` it is not connected. -/
structure server_connection where
  is_connected : Bool
  disconnects : Nat
deriving DecidableEq, Repr

/-- Modelled from the spec: `server_connection::connected`. -/
def server_connection.connected (s : server_connection) : Bool := s.is_connected

/-- Modelled from the spec: `server_connection::disconnect`. -/
def server_connection.disconnect (s : server_connection) : server_connection :=
  { is_connected := false, disconnects := s.disconnects + 1 }

/-- The state of a `connection_flow` that `set_server` can read or write; the
client connection is any value of a type `κ`. -/
structure connection_flow (κ : Type) where
  client : κ
  server : server_connection
  target_host : Str
  target_port : Nat

/-- `connection_flow::set_server`. -/
def connection_flow.set_server {κ : Type} (flow : connection_flow κ) (host : Str)
    (port : Nat) : connection_flow κ :=
  let server := if flow.server.connected then flow.server.disconnect else flow.server
  { flow with server := server, target_host := host, target_port := port }

end connection

/-! ## Buffer segment (`buffer_segment.hpp`; only the declarations are among
the sources) -/

/-- A byte (`char` as an unsigned value). -/
abbrev byte := Fin 256

namespace util.buffer

/-- Modelled from the spec: the state of a `buffer_segment`: "a scratch
in-progress buffer and a committed buffer", whether it is complete, and the
number of bytes last read. -/
structure buffer_segment where
  is_complete : Bool
  committed : List byte
  buffer : List byte
  num_bytes_read_last : Nat
deriving DecidableEq, Repr

namespace buffer_segment

/-- A newly constructed segment. -/
def init : buffer_segment := ⟨false, [], [], 0⟩

/-- Modelled from the spec: `buffer_segment::read_up_to_bytes(in, bytes)`,
"read up to N bytes (stateful: counts across calls and fails if prior reads
already exceeded N)", "returns whether completion was reached", "permanently
removes data from the stream"; on completion the scratch buffer is committed.
Returns the result, the segment and what is left of `in`.  A call on a
complete segment or after more than `bytes` bytes were read "fails": it is
taken to read nothing and return false. -/
def read_up_to_bytes (seg : buffer_segment) (input : List byte) (bytes : Nat) :
    Bool × buffer_segment × List byte :=
  if seg.is_complete || seg.buffer.length > bytes then
    (false, { seg with num_bytes_read_last := 0 }, input)
  else
    let got := input.take (bytes - seg.buffer.length)
    let rest := input.drop (bytes - seg.buffer.length)
    let buffer := seg.buffer ++ got
    if buffer.length = bytes then
      (true, { is_complete := true, committed := seg.committed ++ buffer, buffer := [],
               num_bytes_read_last := got.length }, rest)
    else
      (false, { seg with buffer := buffer, num_bytes_read_last := got.length }, rest)

/-- Modelled from the spec: `base_segment::bytes_last_read`, "the number of
bytes last read, regardless of whether it was committed or not". -/
def bytes_last_read (seg : buffer_segment) : Nat := seg.num_bytes_read_last

/-- Modelled from the spec: `base_segment::export_data`, "drains the committed
buffer into an owned byte string". -/
def export_data (seg : buffer_segment) : List byte × buffer_segment :=
  (seg.committed, { seg with committed := [] })

end buffer_segment

end util.buffer

namespace util.bytes

/-- Modelled from the spec: `util::bytes::parse_network_byte_order<N>(str)`
(declared outside the sources): the first `N` bytes of `str` read as a
big-endian number ("parse the status code as a big-endian 16-bit value"). -/
def parse_network_byte_order (n : Nat) (str : List byte) : Nat :=
  (str.take n).foldl (fun acc b => 256 * acc + b.val) 0

end util.bytes

/-! ## WebSocket manager (`websocket_manager.cpp`) -/

namespace tcp.websocket

/-- Modelled from the spec: the frame opcodes of RFC 6455 (`opcode`, declared
outside the sources); `reserved` stands for every other value. -/
inductive opcode where
  | continuation | text | binary | close | ping | pong
  | reserved (value : Nat)
deriving DecidableEq, Repr

/-- Modelled from the spec: a close status code (`close_code`), a 16-bit
value. -/
abbrev close_code := Nat

/-- Modelled from the spec: `close_code::no_status_rcvd` (1005 in RFC 6455). -/
def close_code.no_status_rcvd : close_code := 1005

/-- Modelled from the spec: a parsed `frame`: of its fields ("`fin`,
`rsv1..rsv3`, `opcode`, `masked`, `mask_key`, `payload`") the manager reads
`fin`, the opcode `type` and the payload `content`. -/
structure frame where
  fin : Bool
  type : opcode
  content : List byte
deriving DecidableEq, Repr

structure ping_frame where
  payload : List byte
deriving DecidableEq, Repr

structure pong_frame where
  payload : List byte
deriving DecidableEq, Repr

structure close_frame where
  code : close_code
  reason : List byte
deriving DecidableEq, Repr

structure message_frame where
  type : opcode
  payload : List byte
  finished : Bool
deriving DecidableEq, Repr

/-- Modelled from the spec: "`completed_frame`: tagged union over
`{message_frame, ping_frame, pong_frame, close_frame}`". -/
inductive completed_frame where
  | ping (f : ping_frame)
  | pong (f : pong_frame)
  | close (f : close_frame)
  | message (f : message_frame)
deriving DecidableEq, Repr

/-- A value-initialised `close_frame`, as `emplace<close_frame>()` makes it:
the reason is empty (the code is taken as 0). -/
def close_frame.init : close_frame := ⟨0, []⟩

namespace protocol

/-- Modelled from the spec: one call `fparser.parse(input, should_close)` of the
frame parser (declared outside the sources), as the manager sees it: the frame
returned, if any ("insufficient data" otherwise), and the value of
`should_close` after the call. -/
structure parser_step where
  next_frame : Option frame
  should_close : Option close_code
deriving DecidableEq, Repr

namespace websocket_manager

/-- `websocket_manager::process_close_frame(in, out)`; returns `out`.  The
reader takes the leading bytes out of the content buffer of `in`;
`in.move_content_to_string()` is what is then left in it. -/
def process_close_frame (input : frame) (out : close_frame) : Except fault close_frame :=
  let reader := util.buffer.buffer_segment.init
  match reader.read_up_to_bytes input.content 2 with
  | (false, reader, _) =>
    if reader.bytes_last_read == 1 then
      .error (.exception errc.invalid_frame "Close frame cannot have 1 byte payload")
    else
      .ok { out with code := close_code.no_status_rcvd }
  | (true, reader, content) =>
    .ok { code := util.bytes.parse_network_byte_order 2 reader.export_data.1,
          reason := content }

/-- The body of the `while (true)` loop of `websocket_manager::parse`, with the
`result` built so far; the calls of the frame parser are the given steps, and a
call after the last of them finds no data. -/
def parse_loop (result : List completed_frame) :
    List parser_step → Except fault (List completed_frame)
  | [] => .ok result
  | step :: steps =>
    match step.should_close, step.next_frame with
    | some _, _ => .ok result
    | none, none => .ok result
    | none, some frame =>
      match frame.type with
      | opcode.ping => parse_loop (result ++ [completed_frame.ping ⟨frame.content⟩]) steps
      | opcode.pong => parse_loop (result ++ [completed_frame.pong ⟨frame.content⟩]) steps
      | opcode.close =>
        match process_close_frame frame close_frame.init with
        | .ok out => parse_loop (result ++ [completed_frame.close out]) steps
        | .error e => .error e
      | opcode.text =>
        parse_loop (result ++ [completed_frame.message ⟨frame.type, frame.content, frame.fin⟩])
          steps
      | opcode.binary =>
        parse_loop (result ++ [completed_frame.message ⟨frame.type, frame.content, frame.fin⟩])
          steps
      | _ => parse_loop result steps

/-- `websocket_manager::parse`. -/
def parse (steps : List parser_step) : Except fault (List completed_frame) :=
  parse_loop [] steps

end websocket_manager

end protocol

end tcp.websocket

/-! ## `util::string::trim` (`string.cpp`) -/

/-- Index of the last character of `str` satisfying `p`, if any. -/
def last_index (p : Char → Bool) : Str → Option Nat
  | [] => none
  | c :: cs =>
    match last_index p cs with
    | some i => some (i + 1)
    | none => if p c then some 0 else none

/-- `str.find_first_not_of(chars, pos)`: the first index `>= pos` holding a
character that is not in `chars`, else `npos`. -/
def sv_find_first_not_of (str : Str) (chars : Str) (pos : Nat) : Nat :=
  match first_index (fun c => !chars.contains c) (str.drop pos) with
  | some i => pos + i
  | none => npos

/-- `str.find_last_not_of(chars, pos)`: the last index `<= pos` holding a
character that is not in `chars`, else `npos`. -/
def sv_find_last_not_of (str : Str) (chars : Str) (pos : Nat) : Nat :=
  match last_index (fun c => !chars.contains c) (str.take (pos + 1)) with
  | some i => i
  | none => npos

namespace util.string

/-- `util::string::trim`; `end - begin + 1` is computed in `std::size_t`. -/
def trim (src whitespace : Str) : Except fault Str :=
  let begin_pos := sv_find_first_not_of src whitespace 0
  if begin_pos == npos then .ok []
  else
    let end_pos := sv_find_last_not_of src whitespace npos
    sv_substr src begin_pos (((end_pos + 2 ^ 64 - begin_pos) % 2 ^ 64 + 1) % 2 ^ 64)

end util.string

/-! ## More of `url.cpp`: `url::parse` and the other serialisers -/

namespace tcp.http

namespace url

/-- `url::parse`. -/
def parse (str : Str) : Except fault url := do
  if str = ['*'] then
    return asterisk_form
  else if (← sv_at str 0) == '/' then
    parse_origin_form str
  else
    parse_absolute_form str

/-- `url::absolute_string`. -/
def absolute_string (u : url) : Str :=
  (if !u.scheme.isEmpty then
    u.scheme ++ [':'] ++ (if !u.netloc.empty then ['/', '/'] else [])
  else []) ++ u.netloc.to_string ++ (if !u.path.isEmpty then u.path else []) ++ u.search

/-- `url::origin_string`. -/
def origin_string (u : url) : Str :=
  (if !u.scheme.isEmpty then
    u.scheme ++ [':'] ++ (if !u.netloc.empty then ['/', '/'] else [])
  else []) ++ u.netloc.to_string

end url

end tcp.http

/-! ## The rest of `string.cpp` -/

/-- `std::tolower` in the "C" locale (a library function): an upper-case ASCII
letter becomes the lower-case one, every other character is unchanged. -/
def tolower (c : Char) : Char := c.toLower

/-- `std::equal(first1, last1, first2, last2, pred)`: the ranges have the same
length and `pred` holds for each pair of corresponding elements. -/
def std_equal (pred : Char → Char → Bool) : Str → Str → Bool
  | [], [] => true
  | x :: xs, y :: ys => pred x y && std_equal pred xs ys
  | _, _ => false

/-- `std::lexicographical_compare(first1, last1, first2, last2, comp)`. -/
def std_lexicographical_compare (comp : Char → Char → Bool) : Str → Str → Bool
  | _, [] => false
  | [], _ :: _ => true
  | x :: xs, y :: ys =>
    if comp x y then true
    else if comp y x then false
    else std_lexicographical_compare comp xs ys

/-- `istream >> std::ws` and the `skipws` of formatted input skip the
characters for which `std::isspace` holds in the "C" locale (a library
function): space, `\t`, `\n`, `\v`, `\f`, `\r`. -/
def isspace (c : Char) : Bool :=
  c == ' ' || c == '\t' || c == '\n' || c == Char.ofNat 11 || c == Char.ofNat 12 || c == '\r'

/-- The value of a hexadecimal digit, upper or lower case. -/
def hex_digit_value (c : Char) : Option Nat :=
  if '0' ≤ c ∧ c ≤ '9' then some (c.toNat - '0'.toNat)
  else if 'a' ≤ c ∧ c ≤ 'f' then some (c.toNat - 'a'.toNat + 10)
  else if 'A' ≤ c ∧ c ≤ 'F' then some (c.toNat - 'A'.toNat + 10)
  else none

/-- Reads hexadecimal digits after the value `acc` read so far: the value of
the longest run of digits and what follows it. -/
def hex_run (acc : Nat) : Str → Nat × Str
  | [] => (acc, [])
  | c :: cs =>
    match hex_digit_value c with
    | some d => hex_run (16 * acc + d) cs
    | none => (acc, c :: cs)

/-- `stream >> out` for a `std::size_t` on a stream whose base field is `hex`
(a library function, `std::num_get`, modelled from the C++ standard): leading
white space is skipped; then come an optional sign `+` or `-`, an optional
prefix `0x` or `0X`, and the longest run of hexadecimal digits.  The
extraction fails (`none`) when there is no digit, or none after the prefix, or
when the digits denote a value that does not fit `std::size_t`; with a `-`
sign the value is negated in `std::size_t`.  Returns the value and the rest of
the stream. -/
def extract_hex (input : Str) : Option (Nat × Str) :=
  let conv (negative : Bool) (digits : Str) : Option (Nat × Str) :=
    match digits with
    | [] => none
    | c :: cs =>
      match hex_digit_value c with
      | none => none
      | some _ =>
        let (v, rest) := hex_run 0 (c :: cs)
        if v ≤ npos then some (if negative then (2 ^ 64 - v) % 2 ^ 64 else v, rest) else none
  let prefixed (negative : Bool) (body : Str) : Option (Nat × Str) :=
    match body with
    | '0' :: 'x' :: digits => conv negative digits
    | '0' :: 'X' :: digits => conv negative digits
    | _ => conv negative body
  match input.dropWhile isspace with
  | '-' :: body => prefixed true body
  | '+' :: body => prefixed false body
  | body => prefixed false body

namespace util.string

/-- The loop of `util::string::split(src, char)` and its last statement, with
the value of `prev` and the `tokens` so far; `fuel` bounds the number of
evaluations of the loop condition. -/
def split_loop (src : Str) (delim : Char) : Nat → Nat → List Str → Except fault (List Str)
  | 0, _, _ => .error .loop_bound
  | fuel + 1, prev, tokens =>
    let pos := sv_find src delim prev
    if pos != npos then
      match sv_substr src 0 ((pos + 2 ^ 64 - prev) % 2 ^ 64) with
      | .ok token => split_loop src delim fuel (pos + 1) (tokens ++ [token])
      | .error e => .error e
    else
      match sv_substr src prev npos with
      | .ok token => .ok (tokens ++ [token])
      | .error e => .error e

/-- `util::string::split(std::string_view src, char delim)`.  Every iteration
moves `prev` past a delimiter, so the condition is evaluated at most
`src.length + 1` times. -/
def split (src : Str) (delim : Char) : Except fault (List Str) :=
  split_loop src delim (src.length + 1) 0 []

/-- The loop of `util::string::split_trim` and the statements after it, with
the value of `prev` and the `tokens` so far; `fuel` bounds the number of
evaluations of the loop condition.  In the `else` branch `begin < pos`, so
`pos - 1` does not wrap. -/
def split_trim_loop (src : Str) (delim : Char) (whitespace : Str) :
    Nat → Nat → List Str → Except fault (List Str)
  | 0, _, _ => .error .loop_bound
  | fuel + 1, prev, tokens =>
    let pos := sv_find src delim prev
    if pos != npos then
      let begin_pos := sv_find_first_not_of src whitespace prev
      if begin_pos ≥ pos then
        split_trim_loop src delim whitespace fuel
          (if begin_pos == npos then begin_pos else begin_pos + 1) tokens
      else
        let end_pos := sv_find_last_not_of src whitespace (pos - 1)
        match sv_substr src begin_pos (((end_pos + 2 ^ 64 - begin_pos) % 2 ^ 64 + 1) % 2 ^ 64) with
        | .ok token => split_trim_loop src delim whitespace fuel (pos + 1) (tokens ++ [token])
        | .error e => .error e
    else
      let begin_pos := sv_find_first_not_of src whitespace prev
      if begin_pos != npos then
        let end_pos := sv_find_last_not_of src whitespace npos
        match sv_substr src begin_pos (((end_pos + 2 ^ 64 - begin_pos) % 2 ^ 64 + 1) % 2 ^ 64) with
        | .ok token => .ok (tokens ++ [token])
        | .error e => .error e
      else .ok tokens

/-- `util::string::split_trim`.  Every iteration moves `prev` forward, so the
condition is evaluated at most `src.length + 1` times. -/
def split_trim (src : Str) (delim : Char) (whitespace : Str) : Except fault (List Str) :=
  split_trim_loop src delim whitespace (src.length + 1) 0 []

/-- `util::string::lowercase`. -/
def lowercase (src : Str) : Str := src.map tolower

/-- `util::string::iequals_fn`. -/
def iequals_fn (a b : Str) : Bool :=
  std_equal (fun x y => tolower x == tolower y) a b

/-- `util::string::iless::operator()`. -/
def iless (a b : Str) : Bool :=
  std_lexicographical_compare (fun x y => decide (tolower x < tolower y)) a b

/-- `util::string::iequals::operator()`. -/
def iequals (a b : Str) : Bool := iequals_fn a b

/-- `util::string::ihash::operator()`; the member `hasher` (declared in
`string.hpp`, outside the sources) is any function of strings. -/
def ihash (hasher : Str → Nat) (s : Str) : Nat := hasher (lowercase s)

/-- `util::string::parse_hexadecimal`: `ss << std::hex << src`, then
`!(ss >> out) || !(ss >> std::ws).eof()` decides on `std::bad_cast`. -/
def parse_hexadecimal (src : Str) : Except fault Nat :=
  match extract_hex src with
  | none => .error .bad_cast
  | some (out, rest) =>
    if (rest.dropWhile isspace).isEmpty then .ok out else .error .bad_cast

end util.string

/-- Offset of the first place in `str` at which `pat` begins, if any; the empty
`pat` begins at offset 0 of every string, the empty one included. -/
def first_match (pat : Str) : Str → Option Nat
  | [] => if pat.isPrefixOf [] then some 0 else none
  | c :: cs =>
    if pat.isPrefixOf (c :: cs) then some 0 else (first_match pat cs).map (· + 1)

/-- `str.find(pat, pos)` for a `std::string_view pat`: the lowest index
`xpos >= pos` with `xpos + pat.size() <= str.size()` at which `pat` begins,
else `npos`; in particular `npos` when `pos > str.size()`, also for the empty
`pat`. -/
def sv_find_str (str pat : Str) (pos : Nat) : Nat :=
  if pos > str.length then npos
  else
    match first_match pat (str.drop pos) with
    | some i => pos + i
    | none => npos

namespace util.string

/-- The loop of `util::string::split(std::string_view src, std::string_view
delim)` and its last statement, with the value of `prev` and the `tokens` so
far; `fuel` bounds the number of evaluations of the loop condition.
`pos - prev` and `pos + delim_size` are computed in `std::size_t`. -/
def split_str_loop (src delim : Str) : Nat → Nat → List Str → Except fault (List Str)
  | 0, _, _ => .error .loop_bound
  | fuel + 1, prev, tokens =>
    let pos := sv_find_str src delim prev
    if pos != npos then
      match sv_substr src 0 ((pos + 2 ^ 64 - prev) % 2 ^ 64) with
      | .ok token =>
        split_str_loop src delim fuel ((pos + delim.length) % 2 ^ 64) (tokens ++ [token])
      | .error e => .error e
    else
      match sv_substr src prev npos with
      | .ok token => .ok (tokens ++ [token])
      | .error e => .error e

/-- `util::string::split(std::string_view src, std::string_view delim)`, the
overload with a string delimiter, run for at most `fuel` evaluations of the
loop condition.  No bound on the iterations holds for every delimiter, so the
bound is an argument; the growth of `tokens` is not limited by memory. -/
def split_str (fuel : Nat) (src delim : Str) : Except fault (List Str) :=
  split_str_loop src delim fuel 0 []

end util.string

/-! ## Vocabulary of the properties -/

/-- A decimal digit character. -/
def is_digit (c : Char) : Prop := '0' ≤ c ∧ c ≤ '9'

instance (c : Char) : Decidable (is_digit c) := by unfold is_digit; infer_instance

/-- The number a string of decimal digits denotes. -/
def decimal_value (s : Str) : Nat :=
  s.foldl (fun acc c => 10 * acc + (c.toNat - '0'.toNat)) 0

/-- A decimal number: a non-empty string of decimal digits. -/
def is_decimal_number (s : Str) : Prop := s ≠ [] ∧ ∀ c ∈ s, is_digit c

instance (s : Str) : Decidable (is_decimal_number s) := by
  unfold is_decimal_number; infer_instance

/-- A decimal number with an optional single sign `+` or `-` in front. -/
def is_signed_decimal_number : Str → Prop
  | '+' :: body => is_decimal_number body
  | '-' :: body => is_decimal_number body
  | s => is_decimal_number s

instance (s : Str) : Decidable (is_signed_decimal_number s) := by
  unfold is_signed_decimal_number; split <;> infer_instance

/-- A search delimiter. -/
def is_search_delim (c : Char) : Prop := c = ';' ∨ c = '?' ∨ c = '#'

instance (c : Char) : Decidable (is_search_delim c) := by unfold is_search_delim; infer_instance

/-- A search part keeps its leading delimiter: it is empty or starts with one. -/
def search_well_formed : Str → Prop
  | [] => True
  | d :: _ => is_search_delim d

instance (search : Str) : Decidable (search_well_formed search) := by
  cases search <;> unfold search_well_formed <;> infer_instance

/-- A character allowed in the host of a plain absolute-form target: none of
`:`, `/`, `@`, `;`, `?`, `#`. -/
def is_host_char (c : Char) : Prop :=
  c ≠ ':' ∧ c ≠ '/' ∧ c ≠ '@' ∧ ¬ is_search_delim c

instance (c : Char) : Decidable (is_host_char c) := by unfold is_host_char; infer_instance

/-- The text of an optional port in a target: nothing, or `:` and the port. -/
def port_suffix : Option Str → Str
  | none => []
  | some t => ':' :: t

/-- The target `scheme "://" host [":" port] path search`. -/
def absolute_target_text (scheme host : Str) (port : Option Str) (path search : Str) : Str :=
  scheme ++ ':' :: '/' :: '/' :: (host ++ (port_suffix port ++ (path ++ search)))

/-- An optional port text that is acceptable: absent, or a decimal number at
most 65535. -/
def port_text_ok : Option Str → Prop
  | none => True
  | some t => is_decimal_number t ∧ decimal_value t ≤ 65535

instance (port : Option Str) : Decidable (port_text_ok port) := by
  cases port <;> unfold port_text_ok <;> infer_instance

/-- The parts of a plain absolute-form target: `scheme` is a non-empty string
of letters; `host` is non-empty without `:`, `/`, `@`, `;`, `?`, `#`; `port`,
when given, is a decimal number at most 65535; `path` begins with `/` and has
none of `;`, `?`, `#`; `search` is empty or begins with `;`, `?` or `#`. -/
def plain_absolute_target (scheme host : Str) (port : Option Str) (path search : Str) : Prop :=
  (scheme ≠ [] ∧ ∀ c ∈ scheme, c.isAlpha = true) ∧
  (host ≠ [] ∧ ∀ c ∈ host, is_host_char c) ∧
  port_text_ok port ∧
  (path.head? = some '/' ∧ ∀ c ∈ path, ¬ is_search_delim c) ∧
  search_well_formed search

instance (scheme host : Str) (port : Option Str) (path search : Str) :
    Decidable (plain_absolute_target scheme host port path search) := by
  unfold plain_absolute_target; infer_instance

/-- Index of the first `:` of a target, or 0 when it has none: the position
`netloc_start` from which `url::parse_absolute_form` continues when the
target does not begin with `//`. -/
def scheme_end (s : Str) : Nat :=
  if sv_find s ':' 0 == npos then 0 else sv_find s ':' 0

/-- The form `url::parse_target` is specified to choose for a target. -/
def expected_form (s : Str) (m : tcp.http.method) : tcp.http.target_form :=
  if s = ['*'] then .asterisk
  else if s.head? = some '/' then .origin
  else if m = tcp.http.method.CONNECT then .authority
  else .absolute

/-- The bytes of an ASCII text. -/
def ascii (s : String) : List byte :=
  s.toList.map (fun c => ⟨c.toNat % 256, Nat.mod_lt _ (by decide)⟩)

/-- A call of the frame parser that returns the frame `f` and leaves
`should_close` empty. -/
def yields (f : tcp.websocket.frame) : tcp.websocket.protocol.parser_step :=
  ⟨some f, none⟩

/-- The close frame that a close payload stands for: a big-endian 16-bit
status code followed by the reason, or no status when the payload is empty. -/
def close_of : List byte → tcp.websocket.close_frame
  | b0 :: b1 :: rest => ⟨256 * b0.val + b1.val, rest⟩
  | _ => ⟨tcp.websocket.close_code.no_status_rcvd, []⟩

/-- The completed frame that one parsed frame stands for, if any: a ping or
pong with the same payload, a close frame, a message frame of the same type
with the same payload whose `finished` flag is the `fin` bit; nothing for any
other opcode. -/
def completed_of (f : tcp.websocket.frame) : Option tcp.websocket.completed_frame :=
  match f.type with
  | .ping => some (.ping ⟨f.content⟩)
  | .pong => some (.pong ⟨f.content⟩)
  | .close => some (.close (close_of f.content))
  | .text => some (.message ⟨.text, f.content, f.fin⟩)
  | .binary => some (.message ⟨.binary, f.content, f.fin⟩)
  | _ => none

/-- A hexadecimal digit, upper or lower case. -/
def is_hex_digit (c : Char) : Prop :=
  ('0' ≤ c ∧ c ≤ '9') ∨ ('a' ≤ c ∧ c ≤ 'f') ∨ ('A' ≤ c ∧ c ≤ 'F')

instance (c : Char) : Decidable (is_hex_digit c) := by unfold is_hex_digit; infer_instance

/-- The number a hexadecimal digit stands for. -/
def hex_digit (c : Char) : Nat :=
  if '0' ≤ c ∧ c ≤ '9' then c.toNat - '0'.toNat
  else if 'a' ≤ c ∧ c ≤ 'f' then c.toNat - 'a'.toNat + 10
  else c.toNat - 'A'.toNat + 10

/-- The number a string of hexadecimal digits denotes. -/
def hex_value (s : Str) : Nat :=
  s.foldl (fun acc c => 16 * acc + hex_digit c) 0

/-- The pieces of `s` between the occurrences of `d`, in order. -/
def cut (d : Char) : Str → List Str
  | [] => [[]]
  | c :: cs =>
    if c = d then [] :: cut d cs
    else
      match cut d cs with
      | piece :: pieces => (c :: piece) :: pieces
      | [] => [[c]]

/-- The string `s` without its leading and trailing characters of `ws`. -/
def strip (ws : Str) (s : Str) : Str :=
  (s.dropWhile (fun c => ws.contains c)).rdropWhile (fun c => ws.contains c)

/-- The pieces of `src` between the occurrences of `d`, each stripped of the
characters of `ws` at both ends, without those that are then empty. -/
def trimmed_pieces (src : Str) (d : Char) (ws : Str) : List Str :=
  ((cut d src).map (strip ws)).filter (fun t => !t.isEmpty)

/-- The strings of `pieces` written one after the other with one `d` between
each two neighbours. -/
def join_with (d : Char) : List Str → Str
  | [] => []
  | [piece] => piece
  | piece :: next :: pieces => piece ++ d :: join_with d (next :: pieces)

/-- Number of occurrences of `delim` met in `s` when scanning from left to
right, the first `skip` characters of `s` being covered by the occurrence met
last: an occurrence is counted where `delim` begins outside that cover, and
covers its own characters. -/
def occurrences_from (delim : Str) : Nat → Str → Nat
  | _, [] => 0
  | skip + 1, _ :: cs => occurrences_from delim skip cs
  | 0, c :: cs =>
    if delim.isPrefixOf (c :: cs) then 1 + occurrences_from delim (delim.length - 1) cs
    else occurrences_from delim 0 cs

/-- Number of occurrences of the non-empty `delim` found by scanning `src` from
left to right without overlap. -/
def occurrences (delim src : Str) : Nat := occurrences_from delim 0 src

/-- The urls that `url::parse_target` reads back unchanged from what
`to_string` writes for them: every url of asterisk or origin form; a url of
authority form whose host is not empty; a url of absolute form with a scheme,
without username, with a host unless it has no port, and with a path that is
empty or begins with `/` and has none of `;`, `?`, `#`. -/
def round_trip_form (u : tcp.http.url) : Prop :=
  match u.form with
  | .asterisk => True
  | .origin => True
  | .authority => u.netloc.host ≠ []
  | .absolute =>
    u.scheme ≠ [] ∧ u.netloc.username = [] ∧ (u.netloc.host = [] → u.netloc.port = none) ∧
    (u.path = [] ∨ u.path.head? = some '/') ∧ ∀ c ∈ u.path, ¬ is_search_delim c

instance (u : tcp.http.url) : Decidable (round_trip_form u) := by
  unfold round_trip_form; split <;> infer_instance

end proxy

open proxy proxy.errc proxy.tcp.http

deriving instance DecidableEq for Except

/-! ## Auxiliary lemmas -/

theorem first_index_append_cons (p : Char → Bool) (a : Str) (c : Char) (b : Str)
    (ha : ∀ x ∈ a, p x = false) (hc : p c = true) :
    first_index p (a ++ c :: b) = some a.length := by
  induction a with
  | nil => simp [first_index, hc]
  | cons x xs ih =>
    have hx : p x = false := ha x (List.mem_cons_self _ _)
    have := ih (fun y hy => ha y (List.mem_cons_of_mem _ hy))
    simp [first_index, hx, this]

theorem first_index_none (p : Char → Bool) (a : Str) (ha : ∀ x ∈ a, p x = false) :
    first_index p a = none := by
  induction a with
  | nil => rfl
  | cons x xs ih =>
    have hx : p x = false := ha x (List.mem_cons_self _ _)
    have := ih (fun y hy => ha y (List.mem_cons_of_mem _ hy))
    simp [first_index, hx, this]

theorem sv_find_found (pre a b : Str) (c : Char) (ha : ∀ x ∈ a, x ≠ c) :
    sv_find (pre ++ (a ++ c :: b)) c pre.length = pre.length + a.length := by
  unfold sv_find
  rw [List.drop_left, first_index_append_cons _ a c b (by simpa using ha) (by simp)]

theorem sv_find_missing (pre a : Str) (c : Char) (ha : ∀ x ∈ a, x ≠ c) :
    sv_find (pre ++ a) c pre.length = npos := by
  unfold sv_find
  rw [List.drop_left, first_index_none _ a (by simpa using ha)]

theorem sv_find_found0 (a b : Str) (c : Char) (ha : ∀ x ∈ a, x ≠ c) :
    sv_find (a ++ c :: b) c 0 = a.length := by
  simpa using sv_find_found [] a b c ha

theorem sv_substr_mid (pre a b : Str) (n : Nat) (h : a.length ≤ n) (hb : b = [] ∨ a.length = n) :
    sv_substr (pre ++ (a ++ b)) pre.length n = .ok a := by
  unfold sv_substr
  rw [if_neg (by simp), List.drop_left]
  rcases hb with rfl | hb
  · simp [List.take_of_length_le h]
  · subst hb; simp

theorem substring_mid (pre a b : Str) (i j : Nat) (hi : i = pre.length) (hj : j = pre.length + a.length)
    (hlen : pre.length + a.length < 2 ^ 64) :
    util.string.substring (pre ++ (a ++ b)) i j = .ok a := by
  subst hi hj
  unfold util.string.substring
  have : (pre.length + a.length + 2 ^ 64 - pre.length) % 2 ^ 64 = a.length := by
    have : pre.length + a.length + 2 ^ 64 - pre.length = a.length + 2 ^ 64 := by omega
    rw [this, Nat.add_mod_right, Nat.mod_eq_of_lt (by omega)]
  rw [this]
  exact sv_substr_mid pre a b _ (le_refl _) (Or.inr rfl)

theorem substring_rest (pre a : Str) (i : Nat) (hi : i = pre.length)
    (hlen : pre.length + a.length ≤ npos) :
    util.string.substring (pre ++ a) i npos = .ok a := by
  subst hi
  unfold util.string.substring
  have h := sv_substr_mid pre a [] ((npos + 2 ^ 64 - pre.length) % 2 ^ 64) ?_ (Or.inl rfl)
  · simpa using h
  · unfold npos at *
    have : 2 ^ 64 - 1 + 2 ^ 64 - pre.length = (2 ^ 64 - 1 - pre.length) + 2 ^ 64 := by omega
    rw [this, Nat.add_mod_right, Nat.mod_eq_of_lt (by omega)]
    omega


theorem digit_value_of_is_digit (c : Char) (h : is_digit c) :
    digit_value c = some (c.toNat - '0'.toNat) := by
  unfold digit_value; exact if_pos h

theorem digits_value_of_digits (s : Str) (acc : Nat) (h : ∀ c ∈ s, is_digit c) :
    digits_value acc s = some (s.foldl (fun acc c => 10 * acc + (c.toNat - '0'.toNat)) acc) := by
  induction s generalizing acc with
  | nil => rfl
  | cons c cs ih =>
    simp only [digits_value, digit_value_of_is_digit c (h c (List.mem_cons_self _ _)), List.foldl_cons]
    exact ih _ (fun y hy => h y (List.mem_cons_of_mem _ hy))

theorem is_digit_ne_sign (c : Char) (h : is_digit c) : c ≠ '-' ∧ c ≠ '+' := by
  constructor <;> rintro rfl <;> revert h <;> decide

theorem lexical_cast_of_digits (s : Str) (hne : s ≠ []) (h : ∀ c ∈ s, is_digit c)
    (hv : decimal_value s ≤ npos) :
    lexical_cast_size_t s = some (decimal_value s) := by
  cases s with
  | nil => exact absurd rfl hne
  | cons c cs =>
    obtain ⟨h1, h2⟩ := is_digit_ne_sign c (h c (List.mem_cons_self _ _))
    unfold lexical_cast_size_t
    split
    · rename_i heq; simp at heq; exact absurd heq.1 h1
    · rename_i heq; simp at heq; exact absurd heq.1 h2
    · simp only [digits_value_of_digits (c :: cs) 0 h]
      unfold decimal_value at hv ⊢
      rw [if_pos hv]

theorem parse_port_of_digits (s : Str) (hne : s ≠ []) (h : ∀ c ∈ s, is_digit c)
    (hv : decimal_value s ≤ port_max) :
    url.parse_port s = .ok (decimal_value s) := by
  unfold url.parse_port
  rw [lexical_cast_of_digits s hne h (by unfold port_max npos at *; omega)]
  simp only
  rw [if_neg (by omega)]

theorem parse_authority_form_host_port (host port : Str)
    (hhost : ∀ c ∈ host, c ≠ ':')
    (hne : port ≠ []) (hdig : ∀ c ∈ port, is_digit c) (hv : decimal_value port ≤ port_max)
    (hlen : (host ++ ':' :: port).length < npos) :
    url.parse_authority_form (host ++ ':' :: port) =
      .ok ⟨.authority, [], ⟨[], [], host, some (decimal_value port)⟩, [], []⟩ := by
  unfold url.parse_authority_form
  have hf := sv_find_found0 host port ':' hhost
  simp only [hf]
  have h1 : sv_substr (host ++ ':' :: port) (host.length + 1) npos = .ok port := by
    have := sv_substr_mid (host ++ [':']) port [] npos (by simp at hlen; omega) (Or.inl rfl)
    simpa using this
  have h2 : sv_substr (host ++ ':' :: port) 0 host.length = .ok host := by
    have := sv_substr_mid [] host (':' :: port) host.length (le_refl _) (Or.inr rfl)
    simpa using this
  have h3 : (host.length == npos) = false := by
    simp at hlen ⊢; omega
  simp [h1, h2, h3, parse_port_of_digits port hne hdig hv, url.make_authority_form, bind, Except.bind, pure, Except.pure]

theorem digits_value_some (s : Str) (acc v : Nat) (h : digits_value acc s = some v) :
    ∀ c ∈ s, is_digit c := by
  induction s generalizing acc with
  | nil => simp
  | cons c cs ih =>
    unfold digits_value at h
    by_cases hc : is_digit c
    · rw [digit_value_of_is_digit c hc] at h
      intro x hx
      rcases List.mem_cons.1 hx with rfl | hx
      · exact hc
      · exact ih _ h x hx
    · have : digit_value c = none := by unfold digit_value; exact if_neg hc
      rw [this] at h
      cases h

/-- The digits part that `lexical_cast_size_t` converts, when it succeeds. -/
theorem lexical_cast_some (s : Str) (v : Nat) (h : lexical_cast_size_t s = some v) :
    ∃ body, is_decimal_number body ∧ decimal_value body ≤ npos ∧
      ((s = body ∧ v = decimal_value body) ∨ (s = '+' :: body ∧ v = decimal_value body) ∨
        (s = '-' :: body ∧ v = (2 ^ 64 - decimal_value body) % 2 ^ 64)) := by
  have conv : ∀ body w, (match body with
      | [] => none
      | _ :: _ =>
        match digits_value 0 body with
        | some v => if v ≤ npos then some v else none
        | none => none) = some w →
      is_decimal_number body ∧ decimal_value body ≤ npos ∧ w = decimal_value body := by
    intro body w hb
    cases body with
    | nil => cases hb
    | cons c cs =>
      simp only at hb
      cases hd : digits_value 0 (c :: cs) with
      | none => rw [hd] at hb; cases hb
      | some x =>
        rw [hd] at hb
        have hall := digits_value_some _ _ _ hd
        rw [digits_value_of_digits _ _ hall] at hd
        have hx : x = decimal_value (c :: cs) := by
          unfold decimal_value; exact (Option.some.inj hd).symm
        simp only at hb
        by_cases hle : x ≤ npos
        · rw [if_pos hle] at hb
          cases hb
          exact ⟨⟨by simp, hall⟩, hx ▸ hle, hx⟩
        · rw [if_neg hle] at hb; cases hb
  unfold lexical_cast_size_t at h
  split at h
  · rename_i body
    simp only [Option.map_eq_some'] at h
    obtain ⟨w, hw, rfl⟩ := h
    obtain ⟨h1, h2, rfl⟩ := conv body w hw
    exact ⟨body, h1, h2, Or.inr (Or.inr ⟨rfl, rfl⟩)⟩
  · rename_i body
    obtain ⟨h1, h2, rfl⟩ := conv body v h
    exact ⟨body, h1, h2, Or.inr (Or.inl ⟨rfl, rfl⟩)⟩
  · obtain ⟨h1, h2, rfl⟩ := conv s v h
    exact ⟨s, h1, h2, Or.inl ⟨rfl, rfl⟩⟩

theorem parse_port_error (s : Str) :
    (∃ p, url.parse_port s = .ok p ∧ p ≤ port_max ∧ lexical_cast_size_t s = some p) ∨
    (∃ msg, url.parse_port s = .error (.exception errc.invalid_target_port msg)) := by
  unfold url.parse_port
  cases h : lexical_cast_size_t s with
  | none => exact Or.inr ⟨_, rfl⟩
  | some v =>
    simp only
    by_cases hv : v > port_max
    · rw [if_pos hv]; exact Or.inr ⟨_, rfl⟩
    · rw [if_neg hv]; exact Or.inl ⟨v, rfl, by omega, rfl⟩

theorem parse_port_range (s : Str) (p : Nat) (h : url.parse_port s = .ok p) : p ≤ port_max := by
  rcases parse_port_error s with ⟨q, hq, hle, _⟩ | ⟨msg, hm⟩
  · rw [hq] at h; cases h; exact hle
  · rw [hm] at h; cases h

theorem first_index_some (p : Char → Bool) (a : Str) (i : Nat) (h : first_index p a = some i) :
    ∃ c rest, a.drop i = c :: rest ∧ p c = true ∧ ∀ x ∈ a.take i, p x = false := by
  induction a generalizing i with
  | nil => simp [first_index] at h
  | cons x xs ih =>
    unfold first_index at h
    split at h
    · rename_i hp
      cases h
      exact ⟨x, xs, rfl, hp, by simp⟩
    · rename_i hp
      cases hr : first_index p xs with
      | none => simp [hr] at h
      | some j =>
        simp [hr] at h
        subst h
        obtain ⟨c, rest, h1, h2, h3⟩ := ih j hr
        refine ⟨c, rest, by simpa using h1, h2, ?_⟩
        intro y hy
        simp [List.take_succ_cons] at hy
        rcases hy with rfl | hy
        · simpa using hp
        · exact h3 y hy

theorem first_index_none_all (p : Char → Bool) (a : Str) (h : first_index p a = none) :
    ∀ x ∈ a, p x = false := by
  induction a with
  | nil => simp
  | cons x xs ih =>
    unfold first_index at h
    split at h
    · cases h
    · rename_i hp
      cases hr : first_index p xs with
      | none =>
        intro y hy
        rcases List.mem_cons.1 hy with rfl | hy
        · simpa using hp
        · exact ih hr y hy
      | some j => simp [hr] at h

theorem contains_search_delims (c : Char) : search_delims.contains c = true ↔ is_search_delim c := by
  simp [search_delims, is_search_delim]

theorem contains_search_delims_false (c : Char) :
    search_delims.contains c = false ↔ ¬ is_search_delim c := by
  rw [← contains_search_delims]; simp

theorem parse_origin_form_spec (s : Str) (hlen : s.length < npos) :
    ∃ path search, url.parse_origin_form s = .ok ⟨.origin, [], network_location.init, path, search⟩ ∧
      path ++ search = s ∧ (∀ c ∈ path, ¬ is_search_delim c) ∧ search_well_formed search := by
  unfold url.parse_origin_form sv_find_first_of
  cases h : first_index (fun c => search_delims.contains c) (s.drop 0) with
  | none =>
    simp only [bne_self_eq_false, Bool.false_eq_true, ↓reduceIte]
    refine ⟨s, [], rfl, by simp, ?_, trivial⟩
    intro c hc
    have := first_index_none_all _ _ h c (by simpa using hc)
    exact (contains_search_delims_false c).1 this
  | some i =>
    obtain ⟨c, rest, h1, h2, h3⟩ := first_index_some _ _ _ h
    simp only [List.drop_zero] at h1 h3
    have hi : i < s.length := by
      by_contra hcon
      rw [List.drop_of_length_le (by omega)] at h1
      cases h1
    have hne : (0 + i != npos) = true := by simp; omega
    simp only [hne, ↓reduceIte, sv_substr]
    rw [if_neg (by simp), if_neg (by omega)]
    refine ⟨s.take i, s.drop i, ?_, List.take_append_drop i s, ?_, ?_⟩
    · have : ((s.drop (0 + i)).take npos) = s.drop i := by
        rw [Nat.zero_add]
        apply List.take_of_length_le
        simp; omega
      have hle : s.length ≤ npos + i := by omega
      simp [Nat.zero_add, hle, url.make_origin_form, bind, Except.bind, pure, Except.pure]
    · intro x hx
      exact (contains_search_delims_false x).1 (h3 x hx)
    · rw [h1]; exact (contains_search_delims c).1 h2

theorem bind_ok {α β : Type} (x : Except fault α) (f : α → Except fault β) (b : β)
    (h : (x >>= f) = .ok b) : ∃ a, x = .ok a ∧ f a = .ok b := by
  cases x with
  | error e => cases h
  | ok a => exact ⟨a, rfl, h⟩

theorem pure_ok {α : Type} (a b : α) (h : (pure a : Except fault α) = .ok b) : a = b := by
  cases h; rfl

theorem npos_count_self : (npos + 2 ^ 64 - npos) % 2 ^ 64 = 0 := by
  rw [Nat.add_sub_cancel_left, Nat.mod_self]

theorem substring_find_first_of (s : Str) (pos : Nat) (t : Str)
    (h : util.string.substring s (sv_find_first_of s search_delims pos) npos = .ok t) :
    search_well_formed t := by
  unfold util.string.substring sv_substr at h
  split at h
  · cases h
  · cases h
    unfold sv_find_first_of
    cases hf : first_index (fun c => search_delims.contains c) (s.drop pos) with
    | none =>
      simp only [npos_count_self, List.take_zero]
      trivial
    | some i =>
      obtain ⟨c, rest, h1, h2, -⟩ := first_index_some _ _ _ hf
      rw [List.drop_drop] at h1
      have h1 : s.drop (pos + i) = c :: rest := by rw [← h1]
      simp only
      rw [h1]
      cases hn : (npos + 2 ^ 64 - (pos + i)) % 2 ^ 64 with
      | zero => trivial
      | succ k => exact (contains_search_delims c).1 h2

theorem parse_absolute_form_inv (s : Str) (u : url) (h : url.parse_absolute_form s = .ok u) :
    ∃ ns : Bool, (if (sv_find s ':' 0 == npos) = true then pure true else url.both_slash s 0 1)
        = Except.ok ns ∧ u.form = .absolute ∧
      (search_well_formed u.search ∨
        ∃ c, sv_at s ((if ns = true then 0 else sv_find s ':' 0) + 1) = .ok c ∧ c ≠ '/') := by
  unfold url.parse_absolute_form at h
  obtain ⟨ns, hns, h1⟩ := bind_ok _ _ _ h
  clear h
  obtain ⟨scheme, -, h2⟩ := bind_ok _ _ _ h1
  clear h1
  obtain ⟨b1, -, h⟩ := bind_ok _ _ _ h2
  clear h2
  simp only at h
  refine ⟨ns, hns, ?_⟩
  generalize (if ns = true then 0 else sv_find s ':' 0) = n at h ⊢
  cases b1
  · simp only [Bool.false_eq_true, ↓reduceIte] at h
    obtain ⟨c, hc, h1⟩ := bind_ok _ _ _ h
    clear h
    split at h1
    · split at h1
      · obtain ⟨path, -, h2⟩ := bind_ok _ _ _ h1
        obtain ⟨search, hs, h3⟩ := bind_ok _ _ _ h2
        cases pure_ok _ _ h3
        exact ⟨rfl, Or.inl (substring_find_first_of _ _ _ hs)⟩
      · obtain ⟨path, -, h2⟩ := bind_ok _ _ _ h1
        cases pure_ok _ _ h2
        exact ⟨rfl, Or.inl trivial⟩
    · rename_i hne
      obtain ⟨search, -, h2⟩ := bind_ok _ _ _ h1
      cases pure_ok _ _ h2
      exact ⟨rfl, Or.inr ⟨c, hc, by simpa using hne⟩⟩
  · simp only [↓reduceIte] at h
    obtain ⟨nl, -, h1⟩ := bind_ok _ _ _ h
    clear h
    obtain ⟨netloc, -, h⟩ := bind_ok _ _ _ h1
    clear h1
    split at h
    · split at h
      · obtain ⟨path, -, h2⟩ := bind_ok _ _ _ h
        obtain ⟨search, hs, h3⟩ := bind_ok _ _ _ h2
        cases pure_ok _ _ h3
        exact ⟨rfl, Or.inl (substring_find_first_of _ _ _ hs)⟩
      · obtain ⟨path, -, h2⟩ := bind_ok _ _ _ h
        cases pure_ok _ _ h2
        exact ⟨rfl, Or.inl trivial⟩
    · split at h
      · obtain ⟨search, hs, h3⟩ := bind_ok _ _ _ h
        cases pure_ok _ _ h3
        exact ⟨rfl, Or.inl (substring_find_first_of _ _ _ hs)⟩
      · cases pure_ok _ _ h
        exact ⟨rfl, Or.inl trivial⟩

theorem sv_at_cons_zero (c : Char) (rest : Str) : sv_at (c :: rest) 0 = .ok c := rfl

theorem both_slash_not_slash (c : Char) (rest : Str) (j : Nat) (hc : c ≠ '/') :
    url.both_slash (c :: rest) 0 j = .ok false := by
  unfold url.both_slash
  simp [sv_at_cons_zero, bind, Except.bind, hc, pure, Except.pure]

/-- How `url::parse_target` dispatches on a non-empty target. -/
theorem parse_target_dispatch (c : Char) (rest : Str) (m : method) :
    url.parse_target (c :: rest) m =
      if c :: rest = ['*'] then .ok url.asterisk_form
      else if c = '/' then url.parse_origin_form (c :: rest)
      else if m = method.CONNECT then url.parse_authority_form (c :: rest)
      else url.parse_absolute_form (c :: rest) := by
  unfold url.parse_target
  by_cases h1 : c :: rest = ['*']
  · rw [if_pos h1, if_pos h1]; rfl
  · rw [if_neg h1, if_neg h1]
    by_cases h2 : c = '/'
    · simp [sv_at_cons_zero, bind, Except.bind, h2]
    · simp [sv_at_cons_zero, bind, Except.bind, h2]

theorem sv_substr_find_first_of (s : Str) (pos count : Nat) (t : Str)
    (hne : sv_find_first_of s search_delims pos ≠ npos)
    (h : sv_substr s (sv_find_first_of s search_delims pos) count = .ok t) :
    search_well_formed t := by
  unfold sv_substr at h
  split at h
  · cases h
  · cases h
    revert hne
    unfold sv_find_first_of
    cases hf : first_index (fun c => search_delims.contains c) (s.drop pos) with
    | none => intro hne; exact absurd rfl hne
    | some i =>
      intro _
      obtain ⟨c, rest, h1, h2, -⟩ := first_index_some _ _ _ hf
      rw [List.drop_drop] at h1
      have h1 : s.drop (pos + i) = c :: rest := by rw [← h1]
      simp only
      rw [h1]
      cases count with
      | zero => trivial
      | succ k => exact (contains_search_delims c).1 h2

theorem parse_origin_form_inv (s : Str) (u : url) (h : url.parse_origin_form s = .ok u) :
    u.form = .origin ∧ search_well_formed u.search := by
  unfold url.parse_origin_form at h
  simp only at h
  split at h
  · rename_i hne
    obtain ⟨path, -, h2⟩ := bind_ok _ _ _ h
    obtain ⟨search, hs, h3⟩ := bind_ok _ _ _ h2
    cases pure_ok _ _ h3
    exact ⟨rfl, sv_substr_find_first_of _ _ _ _ (by simpa using hne) hs⟩
  · cases pure_ok _ _ h
    exact ⟨rfl, trivial⟩

theorem sv_find_first_of_le (s : Str) (chars : Str) (pos : Nat)
    (h : sv_find_first_of s chars pos ≠ npos) : sv_find_first_of s chars pos ≤ s.length := by
  revert h
  unfold sv_find_first_of
  cases hf : first_index (fun c => chars.contains c) (s.drop pos) with
  | none => intro h; exact absurd rfl h
  | some i =>
    intro _
    obtain ⟨c, rest, h1, -, -⟩ := first_index_some _ _ _ hf
    rw [List.drop_drop] at h1
    simp only
    by_contra hcon
    rw [List.drop_of_length_le (by omega)] at h1
    cases h1

theorem parse_origin_form_total (s : Str) :
    ∃ u, url.parse_origin_form s = .ok u := by
  unfold url.parse_origin_form
  simp only
  split
  · rename_i hne
    have hle := sv_find_first_of_le s search_delims 0 (by simpa using hne)
    simp only [sv_substr]
    rw [if_neg (by simp), if_neg (by omega)]
    exact ⟨_, rfl⟩
  · exact ⟨_, rfl⟩

theorem parse_authority_form_inv (s : Str) (u : url) (h : url.parse_authority_form s = .ok u) :
    ∃ host text p, sv_substr s (sv_find s ':' 0 + 1) npos = .ok text ∧
      sv_substr s 0 (sv_find s ':' 0) = .ok host ∧ sv_find s ':' 0 ≠ npos ∧
      url.parse_port text = .ok p ∧ u = url.make_authority_form host p := by
  unfold url.parse_authority_form at h
  simp only at h
  split at h
  · obtain ⟨x, hx, -⟩ := bind_ok _ _ _ h
    cases hx
  · rename_i hne
    obtain ⟨x, -, h1⟩ := bind_ok _ _ _ h
    obtain ⟨text, ht, h2⟩ := bind_ok _ _ _ h1
    obtain ⟨p, hp, h3⟩ := bind_ok _ _ _ h2
    obtain ⟨host, hh, h4⟩ := bind_ok _ _ _ h3
    cases pure_ok _ _ h4
    exact ⟨host, text, p, ht, hh, by simpa using hne, hp, rfl⟩

theorem parse_target_form (s : Str) (m : method) (u : url)
    (h : url.parse_target s m = .ok u) : u.form = expected_form s m := by
  cases s with
  | nil => cases h
  | cons c rest =>
    rw [parse_target_dispatch] at h
    unfold expected_form
    by_cases h1 : c :: rest = ['*']
    · rw [if_pos h1] at h ⊢
      cases h; rfl
    · rw [if_neg h1] at h ⊢
      by_cases h2 : c = '/'
      · rw [if_pos h2] at h
        rw [if_pos (by simp [h2])]
        exact (parse_origin_form_inv _ _ h).1
      · rw [if_neg h2] at h
        rw [if_neg (by simp [h2])]
        by_cases h3 : m = method.CONNECT
        · rw [if_pos h3] at h ⊢
          obtain ⟨host, text, p, -, -, -, -, rfl⟩ := parse_authority_form_inv _ _ h
          rfl
        · rw [if_neg h3] at h ⊢
          obtain ⟨ns, -, hf, -⟩ := parse_absolute_form_inv _ _ h
          exact hf

theorem parse_target_origin (c : Char) (rest : Str) (m : method) (hc : c = '/') :
    ∃ u, url.parse_target (c :: rest) m = .ok u ∧ u.form = .origin := by
  rw [parse_target_dispatch, if_neg (by subst hc; simp), if_pos hc]
  obtain ⟨u, hu⟩ := parse_origin_form_total (c :: rest)
  exact ⟨u, hu, (parse_origin_form_inv _ _ hu).1⟩

theorem parse_target_search (s : Str) (m : method) (u : url)
    (h : url.parse_target s m = .ok u)
    (hd : u.form ≠ .absolute ∨ s.get? (scheme_end s + 1) = some '/') :
    search_well_formed u.search := by
  cases s with
  | nil => cases h
  | cons c rest =>
    rw [parse_target_dispatch] at h
    by_cases h1 : c :: rest = ['*']
    · rw [if_pos h1] at h
      cases h; trivial
    · rw [if_neg h1] at h
      by_cases h2 : c = '/'
      · rw [if_pos h2] at h
        exact (parse_origin_form_inv _ _ h).2
      · rw [if_neg h2] at h
        by_cases h3 : m = method.CONNECT
        · rw [if_pos h3] at h
          obtain ⟨host, text, p, -, -, -, -, rfl⟩ := parse_authority_form_inv _ _ h
          trivial
        · rw [if_neg h3] at h
          obtain ⟨ns, hns, hf, hs⟩ := parse_absolute_form_inv _ _ h
          rcases hs with hs | ⟨x, hx, hne⟩
          · exact hs
          · exfalso
            rcases hd with hd | hd
            · exact hd hf
            · rw [both_slash_not_slash c rest 1 h2] at hns
              have hn : (if ns = true then 0 else sv_find (c :: rest) ':' 0)
                  = scheme_end (c :: rest) := by
                unfold scheme_end
                by_cases hc : (sv_find (c :: rest) ':' 0 == npos) = true
                · rw [if_pos hc] at hns
                  cases pure_ok _ _ hns
                  rw [if_pos rfl, if_pos hc]
                · rw [if_neg hc] at hns
                  cases hns
                  rw [if_neg (by simp), if_neg hc]
              rw [hn] at hx
              unfold sv_at at hx
              rw [hd] at hx
              cases hx
              exact hne rfl

/-! ## Properties -/


/-- C1: for every error code listed in one of the four category tables, and
for the mask code of each category, the four predicates `is_proxy_error`,
`is_http_error`, `is_tls_error`, `is_websocket_error` return true exactly for
the category whose table lists the code (so exactly one of them is true). -/
theorem errc_category_partition :
    ∀ c ∈ EXCEPTION_CATEGORIES, ∀ code ∈ category_codes c,
      is_proxy_error code = decide (c.num = 0) ∧
      is_http_error code = decide (c.num = 1) ∧
      is_tls_error code = decide (c.num = 2) ∧
      is_websocket_error code = decide (c.num = 3) ∧
      ([is_proxy_error code, is_http_error code, is_tls_error code,
        is_websocket_error code].count true = 1) := by
  decide

/-- Witness of C1: `invalid_target_port`, listed in the http table, satisfies
`is_http_error` and none of the other three predicates. -/
theorem errc_category_partition_witness :
    errc.invalid_target_port ∈ category_codes ⟨1, "http", "HTTP error", true, HTTP_EXCEPTIONS⟩ ∧
    is_proxy_error errc.invalid_target_port = false ∧
    is_http_error errc.invalid_target_port = true ∧
    is_tls_error errc.invalid_target_port = false ∧
    is_websocket_error errc.invalid_target_port = false ∧
    ([is_proxy_error errc.invalid_target_port, is_http_error errc.invalid_target_port,
      is_tls_error errc.invalid_target_port,
      is_websocket_error errc.invalid_target_port].count true = 1) :=
  ⟨by decide,
    errc_category_partition ⟨1, "http", "HTTP error", true, HTTP_EXCEPTIONS⟩ (by decide)
      errc.invalid_target_port (by decide)⟩

/-- C2: the encoding of `errc_t` never aliases.  `success` is 0; every listed
code of category `k` is `n * 2^(5k)` with `1 ≤ n < 31` and the mask of
category `k` is `31 * 2^(5k)`; all these values are non-zero and pairwise
distinct; two codes of different categories have no set bit in common. -/
theorem errc_encoding_no_alias :
    success = 0 ∧
    (∀ c ∈ EXCEPTION_CATEGORIES,
      CREATE_CATEGORY_CODES c.num = 31 * 2 ^ (5 * c.num) ∧
      ∀ r ∈ c.table, 1 ≤ r.num ∧ r.num < 31 ∧
        CREATE_ERROR_CODES r.num c.num = r.num * 2 ^ (5 * c.num)) ∧
    (∀ code ∈ all_codes, code ≠ 0) ∧
    (success :: all_codes).Nodup ∧
    (∀ c ∈ EXCEPTION_CATEGORIES, ∀ d ∈ EXCEPTION_CATEGORIES, c.num ≠ d.num →
      ∀ x ∈ category_codes c, ∀ y ∈ category_codes d, x &&& y = 0) := by
  refine ⟨rfl, ?_, ?_, ?_, ?_⟩ <;> decide

/-- Witness of C2: the http code `invalid_target_port` (5 * 2^5) and the
websocket mask `websocket_error` (31 * 2^15) have no set bit in common. -/
theorem errc_encoding_no_alias_witness :
    errc.invalid_target_port = 5 * 2 ^ 5 ∧ websocket_error = 31 * 2 ^ 15 ∧
    errc.invalid_target_port &&& websocket_error = 0 :=
  ⟨by decide, by decide,
    errc_encoding_no_alias.2.2.2.2
      ⟨1, "http", "HTTP error", true, HTTP_EXCEPTIONS⟩ (by decide)
      ⟨3, "websocket", "WebSocket error", true, WEBSOCKET_EXCEPTIONS⟩ (by decide) (by decide)
      errc.invalid_target_port (by decide) websocket_error (by decide)⟩

/-- C3: for a non-empty target `s` and any method `m`, whenever
`url::parse_target(s, m)` returns a url its form is: asterisk if `s` is exactly
`*`; otherwise origin if `s` begins with `/`; otherwise authority if `m` is
CONNECT; otherwise absolute.  In particular a CONNECT request whose target
begins with `/` does return a url, and it is of origin form. -/
theorem parse_target_form_order (s : Str) (m : method) (hs : s ≠ []) :
    (∀ u, url.parse_target s m = .ok u →
      u.form = (if s = ['*'] then target_form.asterisk
        else if s.head? = some '/' then target_form.origin
        else if m = method.CONNECT then target_form.authority
        else target_form.absolute)) ∧
    (s.head? = some '/' →
      ∃ v, url.parse_target s method.CONNECT = .ok v ∧ v.form = target_form.origin) := by
  refine ⟨fun u h => parse_target_form s m u h, ?_⟩
  intro h
  cases s with
  | nil => exact absurd rfl hs
  | cons c rest =>
    simp only [List.head?_cons, Option.some.injEq] at h
    exact parse_target_origin c rest _ h

/-- Witness of C3: the CONNECT target `/x?y` is parsed to an origin-form url. -/
theorem parse_target_form_order_witness :
    "/x?y".toList ≠ [] ∧
    url.parse_target "/x?y".toList method.CONNECT =
      .ok ⟨.origin, [], network_location.init, "/x".toList, "?y".toList⟩ ∧
    (⟨.origin, [], network_location.init, "/x".toList, "?y".toList⟩ : url).form =
      target_form.origin :=
  ⟨by decide, by decide,
    ((parse_target_form_order "/x?y".toList method.CONNECT (by decide)).1 _ (by decide)).trans
      (by decide)⟩

/-- C5 (the code departs from it): the CONNECT target `:443` is accepted and
yields an authority-form url whose host is empty, although the port is
present. -/
theorem parse_target_authority_empty_host :
    url.parse_target ":443".toList method.CONNECT =
      .ok ⟨.authority, [], ⟨[], [], [], some 443⟩, [], []⟩ ∧
    url.parse_authority_form ":443".toList =
      .ok ⟨.authority, [], ⟨[], [], [], some 443⟩, [], []⟩ := by
  decide

/-- C6: for every string `s` (in particular one that begins with `/`),
`url::parse_origin_form(s)` returns an origin-form url with empty scheme and
empty network location whose path is the longest prefix of `s` without `;`,
`?`, `#` (the path has no delimiter and the rest is empty or starts with one)
and whose search is the remaining suffix; so
`path ++ search = full_path() = to_string() = s`. -/
theorem parse_origin_form_splits (s : Str) (hs : s.head? = some '/') (hlen : s.length < npos) :
    ∃ path search,
      url.parse_origin_form s = .ok ⟨.origin, [], network_location.init, path, search⟩ ∧
      path ++ search = s ∧
      (∀ c ∈ path, ¬ is_search_delim c) ∧
      search_well_formed search ∧
      path = s.takeWhile (fun c => !decide (is_search_delim c)) ∧
      search = s.dropWhile (fun c => !decide (is_search_delim c)) ∧
      url.full_path ⟨.origin, [], network_location.init, path, search⟩ = s ∧
      url.to_string ⟨.origin, [], network_location.init, path, search⟩ = s := by
  obtain ⟨path, search, h1, h2, h3, h4⟩ := parse_origin_form_spec s hlen
  refine ⟨path, search, h1, h2, h3, h4, ?_, ?_, h2, ?_⟩
  · subst h2
    cases search with
    | nil =>
      rw [List.append_nil, List.takeWhile_eq_self_iff.2]
      intro c hc; simpa using h3 c hc
    | cons d rest =>
      rw [List.takeWhile_append_of_pos (by intro c hc; simpa using h3 c hc)]
      have hd : is_search_delim d := h4
      simp [List.takeWhile_cons, hd]
  · subst h2
    cases search with
    | nil =>
      rw [List.append_nil, List.dropWhile_eq_nil_iff.2]
      intro c hc; simpa using h3 c hc
    | cons d rest =>
      rw [List.dropWhile_append_of_pos (by intro c hc; simpa using h3 c hc)]
      have hd : is_search_delim d := h4
      simp [List.dropWhile_cons, hd]
  · subst h2
    cases path <;> simp [url.to_string]

/-- Witness of C6 at `/a/b?c#d`. -/
theorem parse_origin_form_splits_witness :
    "/a/b?c#d".toList.head? = some '/' ∧ "/a/b?c#d".toList.length < npos ∧
    ∃ path search,
      url.parse_origin_form "/a/b?c#d".toList =
        .ok ⟨.origin, [], network_location.init, path, search⟩ ∧
      path ++ search = "/a/b?c#d".toList ∧
      (∀ c ∈ path, ¬ is_search_delim c) ∧
      search_well_formed search ∧
      path = "/a/b?c#d".toList.takeWhile (fun c => !decide (is_search_delim c)) ∧
      search = "/a/b?c#d".toList.dropWhile (fun c => !decide (is_search_delim c)) ∧
      url.full_path ⟨.origin, [], network_location.init, path, search⟩ = "/a/b?c#d".toList ∧
      url.to_string ⟨.origin, [], network_location.init, path, search⟩ = "/a/b?c#d".toList :=
  ⟨by decide, by decide, parse_origin_form_splits _ (by decide) (by decide)⟩

theorem host_port_ne_star (host port : Str) : host ++ ':' :: port ≠ ['*'] := by
  intro h
  have : ':' ∈ host ++ ':' :: port := by simp
  rw [h] at this
  revert this
  decide

theorem parse_authority_form_split (host text : Str) (hhost : ∀ c ∈ host, c ≠ ':')
    (hlen : (host ++ ':' :: text).length < npos) :
    url.parse_authority_form (host ++ ':' :: text) =
      (url.parse_port text >>= fun p => pure (url.make_authority_form host p)) := by
  unfold url.parse_authority_form
  have hf := sv_find_found0 host text ':' hhost
  simp only [hf]
  have h1 : sv_substr (host ++ ':' :: text) (host.length + 1) npos = .ok text := by
    have := sv_substr_mid (host ++ [':']) text [] npos (by simp at hlen; omega) (Or.inl rfl)
    simpa using this
  have h2 : sv_substr (host ++ ':' :: text) 0 host.length = .ok host := by
    have := sv_substr_mid [] host (':' :: text) host.length (le_refl _) (Or.inr rfl)
    simpa using this
  have h3 : (host.length == npos) = false := by
    simp at hlen ⊢; omega
  simp only [h1, h2, h3, Bool.false_eq_true, ↓reduceIte, bind, Except.bind, pure, Except.pure]

theorem parse_target_host_port (host port : Str) (hhost : ∀ c ∈ host, c ≠ ':')
    (hslash : host.head? ≠ some '/')
    (hport : is_decimal_number port) (hv : decimal_value port ≤ port_max)
    (hlen : (host ++ ':' :: port).length < npos) :
    url.parse_target (host ++ ':' :: port) method.CONNECT =
      .ok ⟨.authority, [], ⟨[], [], host, some (decimal_value port)⟩, [], []⟩ := by
  have hne := host_port_ne_star host port
  have key := parse_authority_form_host_port host port hhost hport.1 hport.2 hv hlen
  cases host with
  | nil =>
    rw [List.nil_append] at hne key ⊢
    rw [parse_target_dispatch, if_neg hne, if_neg (by decide), if_pos rfl, key]
  | cons c rest =>
    rw [List.cons_append] at hne key ⊢
    have hc : c ≠ '/' := by
      intro hc; apply hslash; simp [hc]
    rw [parse_target_dispatch, if_neg hne, if_neg hc, if_pos rfl, key]

/-- C9: for every host without `:` that does not begin with `/`, and every
port written as a (non-empty) string of decimal digits of value `p ≤ 65535`,
`url::parse_target(host ++ ":" ++ port, CONNECT)` returns the authority-form
url whose host is `host`, whose port is `p`, and whose scheme, username,
password, path and search are empty. -/
theorem connect_target_host_port (host port : Str) (hhost : ∀ c ∈ host, c ≠ ':')
    (hslash : host.head? ≠ some '/')
    (hport : is_decimal_number port) (hv : decimal_value port ≤ 65535)
    (hlen : (host ++ ':' :: port).length < npos) :
    url.parse_target (host ++ ':' :: port) method.CONNECT =
      .ok ⟨.authority, [], ⟨[], [], host, some (decimal_value port)⟩, [], []⟩ :=
  parse_target_host_port host port hhost hslash hport hv hlen

/-- Witness of C9: `example.test:443` gives host `example.test`, port 443. -/
theorem connect_target_host_port_witness :
    url.parse_target ("example.test".toList ++ ':' :: "443".toList) method.CONNECT =
      .ok ⟨.authority, [], ⟨[], [], "example.test".toList, some 443⟩, [], []⟩ :=
  connect_target_host_port "example.test".toList "443".toList (by decide) (by decide)
    (by decide) (by decide) (by decide)

theorem parse_authority_form_no_colon (s : Str) (h : ∀ c ∈ s, c ≠ ':') :
    url.parse_authority_form s =
      .error (.exception errc.invalid_target_port "Missing port for authority form") := by
  unfold url.parse_authority_form
  have hf : sv_find s ':' 0 = npos := by
    simpa using sv_find_missing [] s ':' h
  simp only [hf, beq_self_eq_true, ↓reduceIte]
  rfl

theorem is_decimal_number_head (c : Char) (rest : Str) (h : is_decimal_number (c :: rest)) :
    c ≠ '+' ∧ c ≠ '-' := by
  have := is_digit_ne_sign c (h.2 c (List.mem_cons_self _ _))
  exact ⟨this.2, this.1⟩

theorem parse_port_rejects (text : Str)
    (hbad : text = [] ∨ ¬ is_signed_decimal_number text ∨
      ∃ body, (text = body ∨ text = '+' :: body) ∧ is_decimal_number body ∧
        port_max < decimal_value body) :
    ∃ msg, url.parse_port text = .error (.exception errc.invalid_target_port msg) := by
  rcases parse_port_error text with ⟨p, -, hle, hc⟩ | herr
  · exfalso
    obtain ⟨b0, hb0, -, hcase⟩ := lexical_cast_some text p hc
    have hsigned : is_signed_decimal_number text := by
      rcases hcase with ⟨rfl, -⟩ | ⟨rfl, -⟩ | ⟨rfl, -⟩
      · cases text with
        | nil => exact hb0
        | cons c rest =>
          obtain ⟨h1, h2⟩ := is_decimal_number_head c rest hb0
          unfold is_signed_decimal_number
          split
          · rename_i heq; cases heq; exact absurd rfl h1
          · rename_i heq; cases heq; exact absurd rfl h2
          · exact hb0
      · exact hb0
      · exact hb0
    rcases hbad with rfl | hns | ⟨body, hb, hdec, hgt⟩
    · rcases hcase with ⟨rfl, -⟩ | ⟨h, -⟩ | ⟨h, -⟩
      · exact hb0.1 rfl
      · cases h
      · cases h
    · exact hns hsigned
    · rcases hb with rfl | rfl
      · rcases hcase with ⟨rfl, hp⟩ | ⟨rfl, -⟩ | ⟨rfl, -⟩
        · omega
        · exact (is_decimal_number_head _ _ hdec).1 rfl
        · exact (is_decimal_number_head _ _ hdec).2 rfl
      · rcases hcase with ⟨rfl, -⟩ | ⟨h, hp⟩ | ⟨h, -⟩
        · exact (is_decimal_number_head _ _ hb0).1 rfl
        · cases h; omega
        · cases h
  · exact herr

theorem sv_at_append (pre : Str) (c : Char) (rest : Str) (i : Nat) (hi : i = pre.length) :
    sv_at (pre ++ c :: rest) i = .ok c := by
  subst hi
  unfold sv_at
  have : (pre ++ c :: rest).get? pre.length = some c := by
    induction pre with
    | nil => rfl
    | cons x xs ih => simpa using ih
  rw [this]

theorem sv_find_first_of_found (pre a b : Str) (c : Char) (chars : Str)
    (ha : ∀ x ∈ a, chars.contains x = false) (hc : chars.contains c = true) :
    sv_find_first_of (pre ++ (a ++ c :: b)) chars pre.length = pre.length + a.length := by
  unfold sv_find_first_of
  rw [List.drop_left, first_index_append_cons _ a c b ha hc]

theorem sv_find_first_of_missing (pre a : Str) (chars : Str)
    (ha : ∀ x ∈ a, chars.contains x = false) :
    sv_find_first_of (pre ++ a) chars pre.length = npos := by
  unfold sv_find_first_of
  rw [List.drop_left, first_index_none _ a ha]

theorem is_digit_host_char (c : Char) (h : is_digit c) :
    c ≠ '@' ∧ c ≠ ':' ∧ c ≠ '/' ∧ ¬ is_search_delim c := by
  refine ⟨?_, ?_, ?_, ?_⟩
  · rintro rfl; revert h; decide
  · rintro rfl; revert h; decide
  · rintro rfl; revert h; decide
  · intro hd
    rcases hd with rfl | rfl | rfl <;> revert h <;> decide

theorem parse_netloc_host_port (host : Str) (port : Option Str)
    (hne : host ≠ []) (hhost : ∀ c ∈ host, is_host_char c)
    (hport : ∀ t, port = some t → is_decimal_number t ∧ decimal_value t ≤ port_max)
    (hlen : (host ++ port_suffix port).length < npos) :
    url.parse_netloc (host ++ port_suffix port) =
      .ok ⟨[], [], host, port.map decimal_value⟩ := by
  have hcolon : ∀ c ∈ host, c ≠ ':' := fun c hc => (hhost c hc).1
  have hb : url.both_slash (host ++ port_suffix port) 0 1 = .ok false := by
    cases host with
    | nil => exact absurd rfl hne
    | cons c rest =>
      exact both_slash_not_slash c _ 1 (hhost c (List.mem_cons_self _ _)).2.1
  have hat : sv_find (host ++ port_suffix port) '@' 0 = npos := by
    have := sv_find_missing [] (host ++ port_suffix port) '@' ?_
    · simpa using this
    · intro x hx
      rcases List.mem_append.1 hx with hx | hx
      · exact (hhost x hx).2.2.1
      · cases port with
        | none => cases hx
        | some t =>
          rcases List.mem_cons.1 hx with rfl | hx
          · decide
          · exact (is_digit_host_char x ((hport t rfl).1.2 x hx)).1
  unfold url.parse_netloc
  cases port with
  | none =>
    have hs : host ++ port_suffix none = host := List.append_nil host
    rw [hs] at hb hat hlen ⊢
    have hp : sv_find host ':' 0 = npos := by
      simpa using sv_find_missing [] host ':' hcolon
    have hsub : util.string.substring host 0 npos = .ok host := by
      have := substring_rest [] host 0 rfl (by simp; omega)
      simpa using this
    simp [hb, hat, hp, hsub, bind, Except.bind, pure, Except.pure]
  | some t =>
    have hs : host ++ port_suffix (some t) = host ++ ':' :: t := rfl
    rw [hs] at hb hat hlen ⊢
    have hp : sv_find (host ++ ':' :: t) ':' 0 = host.length := sv_find_found0 host t ':' hcolon
    have hl : host.length + 1 + t.length < npos := by simp at hlen; omega
    have hne2 : (host.length != npos) = true := by simp; omega
    have h1 : util.string.substring (host ++ ':' :: t) (host.length + 1) npos = .ok t := by
      have := substring_rest (host ++ [':']) t (host.length + 1) (by simp) (by simp; omega)
      simpa using this
    have h2 : util.string.substring (host ++ ':' :: t) 0 host.length = .ok host := by
      have := substring_mid [] host (':' :: t) 0 host.length rfl (by simp)
        (by simp; unfold npos at hl; omega)
      simpa using this
    have h3 := parse_port_of_digits t (hport t rfl).1.1 (hport t rfl).1.2 (hport t rfl).2
    simp [hb, hat, hp, hne2, h1, h2, h3, bind, Except.bind, pure, Except.pure]

theorem is_alpha_not_special (c : Char) (h : c.isAlpha = true) :
    c ≠ ':' ∧ c ≠ '/' ∧ c ≠ '*' := by
  refine ⟨?_, ?_, ?_⟩ <;> rintro rfl <;> revert h <;> decide

/-- Absolute-form parsing of `scheme "://" netloc path search`, given what
`url::parse_netloc` makes of `netloc`. -/
theorem parse_absolute_form_parts (scheme N P S : Str) (nl : network_location)
    (hsne : scheme ≠ []) (hsch : ∀ c ∈ scheme, c.isAlpha = true)
    (hN : ∀ x ∈ N, x ≠ '/' ∧ search_delims.contains x = false)
    (hnl : url.parse_netloc N = .ok nl)
    (hP0 : P.head? = some '/') (hP : ∀ c ∈ P, ¬ is_search_delim c)
    (hS : search_well_formed S)
    (hlen : (scheme ++ ':' :: '/' :: '/' :: (N ++ (P ++ S))).length < npos) :
    url.parse_absolute_form (scheme ++ ':' :: '/' :: '/' :: (N ++ (P ++ S))) =
      .ok ⟨.absolute, scheme, nl, P, S⟩ := by
  obtain ⟨p', hp'⟩ : ∃ p', P = '/' :: p' := by
    cases P with
    | nil => cases hP0
    | cons c p' => simp at hP0; exact ⟨p', by rw [hP0]⟩
  obtain ⟨s, hs0⟩ : ∃ s, s = scheme ++ ':' :: '/' :: '/' :: (N ++ (P ++ S)) := ⟨_, rfl⟩
  rw [← hs0] at hlen ⊢
  obtain ⟨pre, hpre0⟩ : ∃ pre, pre = scheme ++ [':', '/', '/'] := ⟨_, rfl⟩
  have hpre : pre.length = scheme.length + 3 := by rw [hpre0]; simp
  have hs1 : s = pre ++ (N ++ (P ++ S)) := by rw [hs0, hpre0]; simp
  have hL : s.length = scheme.length + 3 + N.length + P.length + S.length := by
    rw [hs1]; simp only [List.length_append, hpre]; omega
  have hPl : 1 ≤ P.length := by rw [hp']; simp
  have F1 : sv_find s ':' 0 = scheme.length := by
    rw [hs0]; exact sv_find_found0 scheme _ ':' (fun c hc => (is_alpha_not_special c (hsch c hc)).1)
  have F2 : (scheme.length == npos) = false := by simp; omega
  have F3 : url.both_slash s 0 1 = .ok false := by
    rw [hs0]
    cases scheme with
    | nil => exact absurd rfl hsne
    | cons c rest =>
      exact both_slash_not_slash c _ 1 (is_alpha_not_special c (hsch c (List.mem_cons_self _ _))).2.1
  have F4 : util.string.substring s 0 scheme.length = .ok scheme := by
    have := substring_mid [] scheme (':' :: '/' :: '/' :: (N ++ (P ++ S))) 0 scheme.length rfl
      (by simp) (by simp; unfold npos at hlen; omega)
    rw [hs0]; simpa using this
  have A1 : sv_at s (scheme.length + 1) = .ok '/' := by
    have := sv_at_append (scheme ++ [':']) '/' ('/' :: (N ++ (P ++ S))) (scheme.length + 1)
      (by simp)
    rw [hs0]; simpa using this
  have A2 : sv_at s (scheme.length + 2) = .ok '/' := by
    have := sv_at_append (scheme ++ [':', '/']) '/' (N ++ (P ++ S)) (scheme.length + 2) (by simp)
    rw [hs0]; simpa using this
  have F5 : url.both_slash s (scheme.length + 1) (scheme.length + 2) = .ok true := by
    unfold url.both_slash
    simp [A1, A2, bind, Except.bind, pure, Except.pure]
  have F6 : sv_find s '/' (scheme.length + 3) = scheme.length + 3 + N.length := by
    have := sv_find_found pre N (p' ++ S) '/' (fun x hx => (hN x hx).1)
    rw [hpre] at this
    rw [hs1, hp']
    exact this
  have F9 : util.string.substring s (scheme.length + 3) (scheme.length + 3 + N.length) = .ok N := by
    have := substring_mid pre N (P ++ S) (scheme.length + 3) (scheme.length + 3 + N.length)
      hpre.symm (by rw [hpre]) (by rw [hpre]; unfold npos at hlen; omega)
    rw [hs1]
    exact this
  have F11 : (scheme.length + 3 + N.length != npos) = true := by
    simp only [bne_iff_ne, ne_eq]; omega
  have hpre2 : (pre ++ N).length = scheme.length + 3 + N.length := by
    rw [List.length_append, hpre]
  have hs2 : s = (pre ++ N) ++ (P ++ S) := by rw [hs1]; simp only [List.append_assoc]
  have hs3 : s = pre ++ ((N ++ P) ++ S) := by rw [hs1]; simp only [List.append_assoc]
  have hs4 : s = ((pre ++ N) ++ P) ++ S := by rw [hs1]; simp only [List.append_assoc]
  have hNP : ∀ x ∈ N ++ P, search_delims.contains x = false := by
    intro x hx
    rcases List.mem_append.1 hx with hx | hx
    · exact (hN x hx).2
    · exact (contains_search_delims_false x).2 (hP x hx)
  unfold url.parse_absolute_form
  cases S with
  | nil =>
    have F7 : sv_find_first_of s search_delims (scheme.length + 3) = npos := by
      have := sv_find_first_of_missing pre (N ++ P) search_delims hNP
      rw [hpre] at this
      rw [hs3, List.append_nil]
      exact this
    have F12 : util.string.substring s (scheme.length + 3 + N.length) npos = .ok P := by
      have := substring_rest (pre ++ N) P (scheme.length + 3 + N.length) hpre2.symm
        (by rw [hpre2]; simp at hL; omega)
      rw [hs2, List.append_nil]
      exact this
    have F8 : min npos (scheme.length + 3 + N.length) = scheme.length + 3 + N.length := by
      apply Nat.min_eq_right; omega
    simp only [F1, F2, F3, F4, F5, F6, F7, F8, F9, hnl, F11, F12, bind, Except.bind, pure,
      Except.pure, Bool.false_eq_true, ↓reduceIte, bne_self_eq_false, Bool.false_and]
  | cons d r =>
    have hd : is_search_delim d := hS
    have F7 : sv_find_first_of s search_delims (scheme.length + 3)
        = scheme.length + 3 + N.length + P.length := by
      have := sv_find_first_of_found pre (N ++ P) r d search_delims hNP
        ((contains_search_delims d).2 hd)
      rw [hpre, List.length_append] at this
      rw [hs3, this]; omega
    have F12 : util.string.substring s (scheme.length + 3 + N.length)
        (scheme.length + 3 + N.length + P.length) = .ok P := by
      have := substring_mid (pre ++ N) P (d :: r) (scheme.length + 3 + N.length)
        (scheme.length + 3 + N.length + P.length) hpre2.symm
        (by rw [hpre2]) (by rw [hpre2]; unfold npos at hlen; omega)
      rw [hs2]
      exact this
    have F13 : util.string.substring s (scheme.length + 3 + N.length + P.length) npos
        = .ok (d :: r) := by
      have := substring_rest ((pre ++ N) ++ P) (d :: r) (scheme.length + 3 + N.length + P.length)
        (by rw [List.length_append, hpre2]) (by rw [List.length_append, hpre2]; omega)
      rw [hs4]
      exact this
    have F8 : min (scheme.length + 3 + N.length + P.length) (scheme.length + 3 + N.length)
        = scheme.length + 3 + N.length := by
      apply Nat.min_eq_right; omega
    have F14 : (scheme.length + 3 + N.length + P.length != npos) = true := by
      simp only [bne_iff_ne, ne_eq]; omega
    have F15 : decide (scheme.length + 3 + N.length + P.length > scheme.length + 3 + N.length)
        = true := by
      simp only [decide_eq_true_eq]; omega
    simp only [F1, F2, F3, F4, F5, F6, F7, F8, F9, hnl, F11, F12, F13, F14, F15, bind,
      Except.bind, pure, Except.pure, Bool.false_eq_true, ↓reduceIte, Bool.and_self]

theorem parse_absolute_form_plain (scheme host : Str) (port : Option Str) (path search : Str)
    (hshape : plain_absolute_target scheme host port path search)
    (hlen : (absolute_target_text scheme host port path search).length < npos) :
    url.parse_absolute_form (absolute_target_text scheme host port path search) =
      .ok ⟨.absolute, scheme, ⟨[], [], host, port.map decimal_value⟩, path, search⟩ := by
  obtain ⟨⟨hsne, hsch⟩, ⟨hhne, hhost⟩, hport0, ⟨hpath0, hpath⟩, hsearch⟩ := hshape
  have hport : ∀ t, port = some t → is_decimal_number t ∧ decimal_value t ≤ port_max := by
    intro t ht; subst ht; exact hport0
  have hnslash : ∀ x ∈ host ++ port_suffix port, x ≠ '/' ∧ search_delims.contains x = false := by
    intro x hx
    rcases List.mem_append.1 hx with hx | hx
    · exact ⟨(hhost x hx).2.1, (contains_search_delims_false x).2 (hhost x hx).2.2.2⟩
    · cases port with
      | none => cases hx
      | some t =>
        rcases List.mem_cons.1 hx with rfl | hx
        · exact ⟨by decide, by decide⟩
        · have := is_digit_host_char x ((hport t rfl).1.2 x hx)
          exact ⟨this.2.2.1, (contains_search_delims_false x).2 this.2.2.2⟩
  have heq : absolute_target_text scheme host port path search =
      scheme ++ ':' :: '/' :: '/' :: ((host ++ port_suffix port) ++ (path ++ search)) := by
    unfold absolute_target_text; simp
  rw [heq] at hlen ⊢
  have hnl := parse_netloc_host_port host port hhne hhost hport (by
    simp only [List.length_append, List.length_cons] at hlen ⊢; omega)
  exact parse_absolute_form_parts scheme _ path search _ hsne hsch hnslash hnl hpath0 hpath
    hsearch hlen

theorem plain_target_head (scheme host : Str) (port : Option Str) (path search : Str)
    (hsne : scheme ≠ []) (hsch : ∀ c ∈ scheme, c.isAlpha = true) :
    ∃ c rest, absolute_target_text scheme host port path search = c :: rest ∧
      c ≠ '/' ∧ c :: rest ≠ ['*'] := by
  cases scheme with
  | nil => exact absurd rfl hsne
  | cons c r =>
    have hc := is_alpha_not_special c (hsch c (List.mem_cons_self _ _))
    refine ⟨c, _, rfl, hc.2.1, ?_⟩
    intro h
    simp only [List.cons.injEq] at h
    exact hc.2.2 h.1

theorem parse_target_plain (scheme host : Str) (port : Option Str) (path search : Str)
    (m : method) (hm : m ≠ method.CONNECT)
    (hshape : plain_absolute_target scheme host port path search)
    (hlen : (absolute_target_text scheme host port path search).length < npos) :
    url.parse_target (absolute_target_text scheme host port path search) m =
      .ok ⟨.absolute, scheme, ⟨[], [], host, port.map decimal_value⟩, path, search⟩ := by
  have key := parse_absolute_form_plain scheme host port path search hshape hlen
  obtain ⟨c, rest, heq, hc, hstar⟩ :=
    plain_target_head scheme host port path search hshape.1.1 hshape.1.2
  rw [heq] at key ⊢
  rw [parse_target_dispatch, if_neg hstar, if_neg hc, if_neg hm, key]

/-- C8: for every target `scheme "://" host [":" port] path search` whose
scheme is a non-empty string of letters, whose host is non-empty without `:`,
`/`, `@`, `;`, `?`, `#`, whose optional port is a decimal number at most 65535,
whose path begins with `/` and has none of `;`, `?`, `#`, and whose search is
empty or begins with `;`, `?` or `#`, `url::parse_target` with a non-CONNECT
method returns the absolute-form url with that scheme, empty username and
password, that host, that port (absent when not given), that path and that
search; so `full_path()` is `path ++ search`. -/
theorem absolute_target_parts (scheme host : Str) (port : Option Str) (path search : Str)
    (m : method) (hm : m ≠ method.CONNECT)
    (hshape : plain_absolute_target scheme host port path search)
    (hlen : (absolute_target_text scheme host port path search).length < npos) :
    url.parse_target (absolute_target_text scheme host port path search) m =
      .ok ⟨.absolute, scheme, ⟨[], [], host, port.map decimal_value⟩, path, search⟩ ∧
    url.full_path ⟨.absolute, scheme, ⟨[], [], host, port.map decimal_value⟩, path, search⟩ =
      path ++ search :=
  ⟨parse_target_plain scheme host port path search m hm hshape hlen, rfl⟩

/-- Witness of C8: `http://example.test/hello` gives host `example.test`, no
port, and full path `/hello`. -/
theorem absolute_target_parts_witness :
    absolute_target_text "http".toList "example.test".toList none "/hello".toList [] =
      "http://example.test/hello".toList ∧
    url.parse_target
        (absolute_target_text "http".toList "example.test".toList none "/hello".toList [])
        method.GET =
      .ok ⟨.absolute, "http".toList, ⟨[], [], "example.test".toList, none⟩, "/hello".toList, []⟩ ∧
    url.full_path
        ⟨.absolute, "http".toList, ⟨[], [], "example.test".toList, none⟩, "/hello".toList, []⟩ =
      "/hello".toList :=
  ⟨by decide,
    absolute_target_parts "http".toList "example.test".toList none "/hello".toList []
      method.GET (by decide) (by decide) (by decide)⟩

theorem digit_char_spec : ∀ d, d < 10 →
    is_digit (Char.ofNat ('0'.toNat + d)) ∧
    (Char.ofNat ('0'.toNat + d)).toNat - '0'.toNat = d := by
  decide

theorem decimal_value_snoc (ds : Str) (c : Char) :
    decimal_value (ds ++ [c]) = 10 * decimal_value ds + (c.toNat - '0'.toNat) := by
  unfold decimal_value
  rw [List.foldl_append]
  rfl

theorem decimal_digits_spec (fuel : Nat) : ∀ (n : Nat) (acc : Str), n < fuel →
    ∃ ds, decimal_digits fuel n acc = ds ++ acc ∧ is_decimal_number ds ∧ decimal_value ds = n := by
  induction fuel with
  | zero => intro n acc h; omega
  | succ k ih =>
    intro n acc h
    obtain ⟨hd1, hd2⟩ := digit_char_spec (n % 10) (Nat.mod_lt _ (by decide))
    unfold decimal_digits
    simp only
    by_cases hz : n / 10 = 0
    · rw [if_pos hz]
      refine ⟨[Char.ofNat ('0'.toNat + n % 10)], rfl, ⟨by simp, ?_⟩, ?_⟩
      · intro c hc
        rw [List.mem_singleton.1 hc]; exact hd1
      · have := decimal_value_snoc [] (Char.ofNat ('0'.toNat + n % 10))
        rw [List.nil_append] at this
        rw [this, hd2]
        have : decimal_value [] = 0 := rfl
        rw [this]; omega
    · rw [if_neg hz]
      obtain ⟨ds, h1, h2, h3⟩ := ih (n / 10) (Char.ofNat ('0'.toNat + n % 10) :: acc) (by omega)
      refine ⟨ds ++ [Char.ofNat ('0'.toNat + n % 10)], ?_, ⟨by simp, ?_⟩, ?_⟩
      · rw [h1]; simp
      · intro c hc
        rcases List.mem_append.1 hc with hc | hc
        · exact h2.2 c hc
        · rw [List.mem_singleton.1 hc]; exact hd1
      · rw [decimal_value_snoc, h3, hd2]; omega

theorem decimal_string_spec (n : Nat) :
    is_decimal_number (decimal_string n) ∧ decimal_value (decimal_string n) = n := by
  obtain ⟨ds, h1, h2, h3⟩ := decimal_digits_spec (n + 1) n [] (by omega)
  unfold decimal_string
  rw [h1, List.append_nil]
  exact ⟨h2, h3⟩

theorem to_string_authority (host : Str) (p : Nat) (hhne : host ≠ []) :
    url.to_string (url.make_authority_form host p) = host ++ ':' :: decimal_string p := by
  cases host with
  | nil => exact absurd rfl hhne
  | cons h hs =>
    simp [url.to_string, url.make_authority_form, network_location.to_string,
      network_location.empty, network_location.to_host_string]

theorem sv_find_take (s : Str) (c : Char) (h : sv_find s c 0 ≠ npos) :
    ∀ x ∈ s.take (sv_find s c 0), x ≠ c := by
  revert h
  unfold sv_find
  cases hf : first_index (· == c) (s.drop 0) with
  | none => intro h; exact absurd rfl h
  | some i =>
    intro _
    obtain ⟨d, rest, -, -, h3⟩ := first_index_some _ _ _ hf
    simp only [List.drop_zero, Nat.zero_add] at h3 ⊢
    intro x hx
    simpa using h3 x hx

theorem round_trip_authority (c : Char) (rest : Str) (u : url) (hc : c ≠ '/')
    (h : url.parse_authority_form (c :: rest) = .ok u) (hhost : u.netloc.host ≠ [])
    (hlen2 : u.to_string.length < npos) :
    url.parse_target u.to_string method.CONNECT = .ok u := by
  obtain ⟨host, text, p, -, hh, hne, hp, rfl⟩ := parse_authority_form_inv _ _ h
  have hhne : host ≠ [] := hhost
  unfold sv_substr at hh
  rw [if_neg (by omega)] at hh
  simp only [List.drop_zero] at hh
  have hhost_eq : host = (c :: rest).take (sv_find (c :: rest) ':' 0) := by
    cases hh; rfl
  have hcolon : ∀ x ∈ host, x ≠ ':' := by
    rw [hhost_eq]; exact sv_find_take _ _ hne
  have hslash : host.head? ≠ some '/' := by
    rw [hhost_eq]
    cases hk : sv_find (c :: rest) ':' 0 with
    | zero => simp
    | succ k => simp [hc]
  rw [to_string_authority host p hhne] at hlen2 ⊢
  have hspec := decimal_string_spec p
  have hple := parse_port_range text p hp
  rw [parse_target_host_port host (decimal_string p) hcolon hslash hspec.1
    (by rw [hspec.2]; exact hple) hlen2, hspec.2]
  rfl

theorem round_trip_origin (s : Str) (u : url) (hlen : s.length < npos)
    (h : url.parse_origin_form s = .ok u) : u.to_string = s := by
  obtain ⟨path, search, h1, h2, -, -⟩ := parse_origin_form_spec s hlen
  rw [h1] at h
  cases h
  subst h2
  cases path <;> simp [url.to_string]

theorem split_first (p : Char → Bool) (s : Str) :
    (∀ x ∈ s, p x = false) ∨
      ∃ a c b, s = a ++ c :: b ∧ (∀ x ∈ a, p x = false) ∧ p c = true := by
  induction s with
  | nil => left; intro x hx; cases hx
  | cons x xs ih =>
    by_cases hx : p x = true
    · right
      exact ⟨[], x, xs, rfl, (fun y hy => absurd hy (List.not_mem_nil y)), hx⟩
    · rcases ih with h | ⟨a, c, b, hs, ha, hc⟩
      · left
        intro y hy
        rcases List.mem_cons.1 hy with rfl | hy
        · simpa using hx
        · exact h y hy
      · right
        refine ⟨x :: a, c, b, by rw [hs]; rfl, ?_, hc⟩
        intro y hy
        rcases List.mem_cons.1 hy with rfl | hy
        · simpa using hx
        · exact ha y hy

theorem split_char (c : Char) (s : Str) :
    (∀ x ∈ s, x ≠ c) ∨ ∃ a b, s = a ++ c :: b ∧ ∀ x ∈ a, x ≠ c := by
  rcases split_first (fun x => x == c) s with h | ⟨a, d, b, hs, ha, hd⟩
  · left
    intro x hx
    simpa using h x hx
  · right
    have hdc : d = c := by simpa using hd
    subst hdc
    exact ⟨a, b, hs, fun x hx => by simpa using ha x hx⟩

theorem password_part (N U : Str) (hU : U.length ≤ N.length) :
    ∃ pw, (if sv_find N ':' 0 < U.length then
        util.string.substring N (sv_find N ':' 0 + 1) U.length
      else (Except.ok [] : Except fault Str)) = .ok pw ∧ (U = [] → pw = []) ∧
      ∀ x ∈ pw, x ∈ N := by
  by_cases hlt : sv_find N ':' 0 < U.length
  · rw [if_pos hlt]
    unfold util.string.substring sv_substr
    rw [if_neg (by omega)]
    refine ⟨_, rfl, ?_, ?_⟩
    · intro h
      rw [h] at hlt
      exact absurd hlt (Nat.not_lt_zero _)
    · intro x hx
      exact List.mem_of_mem_drop (List.mem_of_mem_take hx)
  · rw [if_neg hlt]
    exact ⟨[], rfl, fun _ => rfl, fun x hx => absurd hx (List.not_mem_nil x)⟩

/-- What `url::parse_netloc` makes of a text without `@` and `:`: it is the
host. -/
theorem parse_netloc_host (host : Str) (c : Char) (r : Str)
    (hhead : host = c :: r) (hc : c ≠ '/')
    (hcolon : ∀ x ∈ host, x ≠ ':') (hat : ∀ x ∈ host, x ≠ '@')
    (hlen : host.length < npos) :
    url.parse_netloc host = .ok ⟨[], [], host, none⟩ := by
  have hb : url.both_slash host 0 1 = .ok false := by
    rw [hhead]; exact both_slash_not_slash c r 1 hc
  have hat2 : sv_find host '@' 0 = npos := by
    simpa using sv_find_missing [] host '@' hat
  have hp : sv_find host ':' 0 = npos := by
    simpa using sv_find_missing [] host ':' hcolon
  have hsub : util.string.substring host 0 npos = .ok host := by
    have := substring_rest [] host 0 rfl (by simp; omega)
    simpa using this
  unfold url.parse_netloc
  simp only [hb, hat2, hp, hsub, bind, Except.bind, pure, Except.pure,
    Bool.false_eq_true, ↓reduceIte, bne_self_eq_false]

/-- What `url::parse_netloc` makes of `host ":" text` without `@`: the host is
the text before the first `:`, the port what `parse_port` makes of the text
after it. -/
theorem parse_netloc_port (host t : Str) (c : Char) (r : Str)
    (hhead : host ++ ':' :: t = c :: r) (hc : c ≠ '/')
    (hcolon : ∀ x ∈ host, x ≠ ':') (hat : ∀ x ∈ host ++ ':' :: t, x ≠ '@')
    (hlen : (host ++ ':' :: t).length < npos) :
    url.parse_netloc (host ++ ':' :: t) =
      match url.parse_port t with
      | .ok p => .ok ⟨[], [], host, some p⟩
      | .error e => .error e := by
  have hb : url.both_slash (host ++ ':' :: t) 0 1 = .ok false := by
    rw [hhead]; exact both_slash_not_slash c r 1 hc
  have hat2 : sv_find (host ++ ':' :: t) '@' 0 = npos := by
    simpa using sv_find_missing [] (host ++ ':' :: t) '@' hat
  have hp : sv_find (host ++ ':' :: t) ':' 0 = host.length := sv_find_found0 host t ':' hcolon
  have hl : host.length + 1 + t.length < npos := by simp at hlen; omega
  have hne2 : (host.length != npos) = true := by simp; omega
  have h1 : util.string.substring (host ++ ':' :: t) (host.length + 1) npos = .ok t := by
    have := substring_rest (host ++ [':']) t (host.length + 1) (by simp) (by simp; omega)
    simpa using this
  have h2 : util.string.substring (host ++ ':' :: t) 0 host.length = .ok host := by
    have := substring_mid [] host (':' :: t) 0 host.length rfl (by simp)
      (by simp; unfold npos at hl; omega)
    simpa using this
  unfold url.parse_netloc
  cases hpp : url.parse_port t with
  | error e =>
    simp only [hb, hat2, hp, hne2, h1, h2, hpp, bind, Except.bind, pure, Except.pure,
      Bool.false_eq_true, ↓reduceIte, bne_self_eq_false]
  | ok p =>
    simp only [hb, hat2, hp, hne2, h1, h2, hpp, bind, Except.bind, pure, Except.pure,
      Bool.false_eq_true, ↓reduceIte, bne_self_eq_false]

/-- What `url::parse_netloc` makes of `user "@" rest` without `:` after the
`@`: the username is the text before the first `@`, and the host begins with
that `@`. -/
theorem parse_netloc_at_host (U H : Str) (c : Char) (r : Str)
    (hhead : U ++ '@' :: H = c :: r) (hc : c ≠ '/')
    (hU : ∀ x ∈ U, x ≠ '@') (hH : ∀ x ∈ H, x ≠ ':')
    (hlen : (U ++ '@' :: H).length < npos) :
    ∃ pw, (U = [] → pw = []) ∧ (∀ x ∈ pw, x ∈ U ++ '@' :: H) ∧
      url.parse_netloc (U ++ '@' :: H) = .ok ⟨U, pw, '@' :: H, none⟩ := by
  obtain ⟨N, hN⟩ : ∃ N, N = U ++ '@' :: H := ⟨_, rfl⟩
  rw [← hN] at hhead hlen ⊢
  have hNl : N.length = U.length + 1 + H.length := by
    rw [hN]; simp only [List.length_append, List.length_cons]; omega
  have hb : url.both_slash N 0 1 = .ok false := by
    rw [hhead]; exact both_slash_not_slash c r 1 hc
  have hat : sv_find N '@' 0 = U.length := by
    rw [hN]; exact sv_find_found0 U _ '@' hU
  have hne : (U.length != npos) = true := by
    simp only [bne_iff_ne, ne_eq]; omega
  obtain ⟨pw, hpw, hpw0, hpwN⟩ := password_part N U (by omega)
  have huser : util.string.substring N 0 U.length = .ok U := by
    have := substring_mid [] U ('@' :: H) 0 U.length rfl (by simp)
      (by simp; unfold npos at hlen; omega)
    rw [hN]; simpa using this
  have hH2 : ∀ x ∈ '@' :: H, x ≠ ':' := by
    intro x hx
    rcases List.mem_cons.1 hx with rfl | hx
    · decide
    · exact hH x hx
  have hp : sv_find N ':' U.length = npos := by
    rw [hN]; exact sv_find_missing U ('@' :: H) ':' hH2
  have hhost : util.string.substring N U.length npos = .ok ('@' :: H) := by
    rw [hN]
    exact substring_rest U ('@' :: H) U.length rfl (by simp only [List.length_cons]; omega)
  refine ⟨pw, hpw0, hpwN, ?_⟩
  unfold url.parse_netloc
  simp only [hb, hat, hne, hpw, huser, hp, hhost, bind, Except.bind, pure, Except.pure,
    Bool.false_eq_true, ↓reduceIte, bne_self_eq_false]

/-- What `url::parse_netloc` makes of `user "@" rest ":" text`. -/
theorem parse_netloc_at_port (U H t : Str) (c : Char) (r : Str)
    (hhead : U ++ '@' :: (H ++ ':' :: t) = c :: r) (hc : c ≠ '/')
    (hU : ∀ x ∈ U, x ≠ '@') (hH : ∀ x ∈ H, x ≠ ':')
    (hlen : (U ++ '@' :: (H ++ ':' :: t)).length < npos) :
    ∃ pw, (U = [] → pw = []) ∧ (∀ x ∈ pw, x ∈ U ++ '@' :: (H ++ ':' :: t)) ∧
      url.parse_netloc (U ++ '@' :: (H ++ ':' :: t)) =
        match url.parse_port t with
        | .ok p => .ok ⟨U, pw, '@' :: H, some p⟩
        | .error e => .error e := by
  obtain ⟨N, hN⟩ : ∃ N, N = U ++ '@' :: (H ++ ':' :: t) := ⟨_, rfl⟩
  rw [← hN] at hhead hlen ⊢
  have hNl : N.length = U.length + 1 + H.length + 1 + t.length := by
    rw [hN]; simp only [List.length_append, List.length_cons]; omega
  have hb : url.both_slash N 0 1 = .ok false := by
    rw [hhead]; exact both_slash_not_slash c r 1 hc
  have hat : sv_find N '@' 0 = U.length := by
    rw [hN]; exact sv_find_found0 U _ '@' hU
  have hne : (U.length != npos) = true := by
    simp only [bne_iff_ne, ne_eq]; omega
  obtain ⟨pw, hpw, hpw0, hpwN⟩ := password_part N U (by omega)
  have huser : util.string.substring N 0 U.length = .ok U := by
    have := substring_mid [] U ('@' :: (H ++ ':' :: t)) 0 U.length rfl (by simp)
      (by simp; unfold npos at hlen; omega)
    rw [hN]; simpa using this
  have hH2 : ∀ x ∈ '@' :: H, x ≠ ':' := by
    intro x hx
    rcases List.mem_cons.1 hx with rfl | hx
    · decide
    · exact hH x hx
  have hN2 : N = U ++ (('@' :: H) ++ ':' :: t) := by rw [hN]; rfl
  have hp : sv_find N ':' U.length = U.length + (H.length + 1) := by
    rw [hN2]; exact sv_find_found U ('@' :: H) t ':' hH2
  have hne2 : (U.length + (H.length + 1) != npos) = true := by
    simp only [bne_iff_ne, ne_eq]; omega
  have h1 : util.string.substring N (U.length + (H.length + 1) + 1) npos = .ok t := by
    have := substring_rest (U ++ ('@' :: H) ++ [':']) t (U.length + (H.length + 1) + 1)
      (by simp only [List.length_append, List.length_cons, List.length_nil])
      (by simp only [List.length_append, List.length_cons, List.length_nil]; omega)
    rw [hN2]; simpa using this
  have h2 : util.string.substring N U.length (U.length + (H.length + 1)) = .ok ('@' :: H) := by
    have := substring_mid U ('@' :: H) (':' :: t) U.length (U.length + (H.length + 1)) rfl
      (by simp) (by simp; unfold npos at hlen; omega)
    rw [hN2]; exact this
  refine ⟨pw, hpw0, hpwN, ?_⟩
  unfold url.parse_netloc
  cases hpp : url.parse_port t with
  | error e =>
    simp only [hb, hat, hne, hpw, huser, hp, hne2, h1, h2, hpp, bind, Except.bind, pure,
      Except.pure, Bool.false_eq_true, ↓reduceIte]
  | ok p =>
    simp only [hb, hat, hne, hpw, huser, hp, hne2, h1, h2, hpp, bind, Except.bind, pure,
      Except.pure, Bool.false_eq_true, ↓reduceIte]

/-- The shape of what `url::parse_netloc` returns for a text without `/`. -/
theorem parse_netloc_shape (N : Str) (nl : network_location) (hslash : ∀ x ∈ N, x ≠ '/')
    (hlen : N.length < npos) (h : url.parse_netloc N = .ok nl) :
    N ≠ [] ∧ (∀ x ∈ nl.password, x ∈ N) ∧
    ∃ tailp, N = nl.username ++ nl.host ++ tailp ∧ (∀ x ∈ nl.host, x ≠ ':') ∧
      ((nl.port = none ∧ tailp = []) ∨
        (∃ pt p, nl.port = some p ∧ tailp = ':' :: pt ∧ url.parse_port pt = .ok p)) ∧
      ((nl.username = [] ∧ nl.password = [] ∧
          (nl.host.head? = some '@' ∨ ∀ x ∈ nl.host, x ≠ '@')) ∨
        (nl.username ≠ [] ∧ nl.host.head? = some '@')) := by
  cases N with
  | nil =>
    have : url.parse_netloc [] = .error fault.undefined_read := by decide
    rw [this] at h
    cases h
  | cons c r =>
    refine ⟨by simp, ?_⟩
    have hc : c ≠ '/' := hslash c (List.mem_cons_self _ _)
    have hnil : ∀ x ∈ ([] : Str), x ∈ c :: r := fun x hx => absurd hx (List.not_mem_nil x)
    rcases split_char '@' (c :: r) with hat | ⟨U, rest2, hN, hU⟩
    · rcases split_char ':' (c :: r) with hcol | ⟨H, t, hN, hH⟩
      · rw [parse_netloc_host (c :: r) c r rfl hc hcol hat hlen] at h
        cases h
        exact ⟨hnil, [], by simp, hcol, Or.inl ⟨rfl, rfl⟩, Or.inl ⟨rfl, rfl, Or.inr hat⟩⟩
      · rw [hN] at h hat hlen
        rw [parse_netloc_port H t c r hN.symm hc hH hat hlen] at h
        cases hpp : url.parse_port t with
        | error e => rw [hpp] at h; cases h
        | ok p =>
          rw [hpp] at h
          cases h
          refine ⟨fun x hx => absurd hx (List.not_mem_nil x), ':' :: t, by rw [hN]; simp, hH,
            Or.inr ⟨t, p, rfl, rfl, hpp⟩, Or.inl ⟨rfl, rfl, Or.inr ?_⟩⟩
          intro x hx
          exact hat x (List.mem_append_left _ hx)
    · rcases split_char ':' rest2 with hcol | ⟨H, t, hR, hH⟩
      · rw [hN] at h hlen
        obtain ⟨pw, hpw, hpwN, heq⟩ := parse_netloc_at_host U rest2 c r hN.symm hc hU hcol hlen
        rw [heq] at h
        cases h
        refine ⟨by rw [hN]; exact hpwN, [], by rw [hN]; simp, ?_, Or.inl ⟨rfl, rfl⟩, ?_⟩
        · intro x hx
          rcases List.mem_cons.1 hx with rfl | hx
          · decide
          · exact hcol x hx
        · by_cases hU0 : U = []
          · exact Or.inl ⟨hU0, hpw hU0, Or.inl rfl⟩
          · exact Or.inr ⟨hU0, rfl⟩
      · rw [hR] at hN
        rw [hN] at h hlen
        obtain ⟨pw, hpw, hpwN, heq⟩ := parse_netloc_at_port U H t c r hN.symm hc hU hH hlen
        rw [heq] at h
        cases hpp : url.parse_port t with
        | error e => rw [hpp] at h; cases h
        | ok p =>
          rw [hpp] at h
          cases h
          refine ⟨by rw [hN]; exact hpwN, ':' :: t, by rw [hN]; simp, ?_,
            Or.inr ⟨t, p, rfl, rfl, hpp⟩, ?_⟩
          · intro x hx
            rcases List.mem_cons.1 hx with rfl | hx
            · decide
            · exact hH x hx
          · by_cases hU0 : U = []
            · exact Or.inl ⟨hU0, hpw hU0, Or.inl rfl⟩
            · exact Or.inr ⟨hU0, rfl⟩

/-- The first steps of `url::parse_absolute_form` on `S x tail`, where `S` has
no `:` and either `x` is `:` or the whole target has none: the scheme is `S`
and `netloc_start` is its length. -/
theorem absolute_front (S : Str) (x : Char) (tail : Str) (c : Char) (r : Str)
    (hhead : S ++ x :: tail = c :: r) (hc : c ≠ '/') (hS : ∀ y ∈ S, y ≠ ':')
    (hx : x = ':' ∨ (S = [] ∧ ∀ y ∈ x :: tail, y ≠ ':'))
    (hlen : (S ++ x :: tail).length < npos) :
    ∃ ns : Bool,
      (if (sv_find (S ++ x :: tail) ':' 0 == npos) = true then (Except.ok true : Except fault Bool)
        else url.both_slash (S ++ x :: tail) 0 1) = .ok ns ∧
      (if ns = true then 0 else sv_find (S ++ x :: tail) ':' 0) = S.length ∧
      (if ns = true then (Except.ok [] : Except fault Str)
        else util.string.substring (S ++ x :: tail) 0 (sv_find (S ++ x :: tail) ':' 0)) = .ok S := by
  rcases hx with hx | ⟨hS0, hno⟩
  · subst hx
    have hl : S.length < npos := by
      simp only [List.length_append, List.length_cons] at hlen; omega
    have F1 : sv_find (S ++ ':' :: tail) ':' 0 = S.length := sv_find_found0 S tail ':' hS
    have F2 : (S.length == npos) = false := by simp; omega
    have F3 : url.both_slash (S ++ ':' :: tail) 0 1 = .ok false := by
      rw [hhead]; exact both_slash_not_slash c r 1 hc
    have F4 : util.string.substring (S ++ ':' :: tail) 0 S.length = .ok S := by
      have := substring_mid [] S (':' :: tail) 0 S.length rfl (by simp)
        (by simp; unfold npos at hl; omega)
      simpa using this
    refine ⟨false, ?_, ?_, ?_⟩
    · rw [F1, F2]; simp only [Bool.false_eq_true, ↓reduceIte]; exact F3
    · simp only [Bool.false_eq_true, ↓reduceIte]; exact F1
    · simp only [Bool.false_eq_true, ↓reduceIte]; rw [F1]; exact F4
  · subst hS0
    have F1 : sv_find ([] ++ x :: tail) ':' 0 = npos := by
      simpa using sv_find_missing [] (x :: tail) ':' hno
    refine ⟨true, ?_, ?_, ?_⟩
    · rw [F1]; simp
    · simp
    · simp

/-- `url::parse_absolute_form` on `S x y tail` with `y` not a `/`: no netloc,
no path; all that follows `x` is the search. -/
theorem absolute_search_only (s S : Str) (x y : Char) (tail : Str) (ns : Bool)
    (hs : s = S ++ x :: y :: tail) (hy : y ≠ '/')
    (hns : (if (sv_find s ':' 0 == npos) = true then (Except.ok true : Except fault Bool)
        else url.both_slash s 0 1) = .ok ns)
    (hn0 : (if ns = true then 0 else sv_find s ':' 0) = S.length)
    (hsch : (if ns = true then (Except.ok [] : Except fault Str)
        else util.string.substring s 0 (sv_find s ':' 0)) = .ok S)
    (hlen : s.length < npos) :
    url.parse_absolute_form s = .ok ⟨.absolute, S, network_location.init, [], y :: tail⟩ := by
  have hL : s.length = S.length + 2 + tail.length := by
    rw [hs]; simp only [List.length_append, List.length_cons]; omega
  have A1 : sv_at s (S.length + 1) = .ok y := by
    have := sv_at_append (S ++ [x]) y tail (S.length + 1) (by simp)
    rw [hs]; simpa using this
  have hyb : (y == '/') = false := by simpa using hy
  have F5 : url.both_slash s (S.length + 1) (S.length + 2) = .ok false := by
    unfold url.both_slash
    simp only [A1, hyb, bind, Except.bind, pure, Except.pure, Bool.false_eq_true, ↓reduceIte]
  have F6 : util.string.substring s (S.length + 1) npos = .ok (y :: tail) := by
    have := substring_rest (S ++ [x]) (y :: tail) (S.length + 1) (by simp)
      (by simp only [List.length_append, List.length_cons, List.length_nil]; omega)
    rw [hs]; simpa using this
  unfold url.parse_absolute_form
  simp only [hns, hn0, hsch, F5, A1, hyb, F6, bind, Except.bind, pure, Except.pure,
    Bool.false_eq_true, ↓reduceIte]

/-- `url::parse_absolute_form` on `S x "/" A Q` where `A Q` does not begin with
a `/`, `A` has no search delimiter and `Q` is empty or begins with one: no
netloc, path `A` (the `/` before it is skipped) and search `Q`. -/
theorem absolute_path_only (s S : Str) (x z : Char) (w A Q : Str) (ns : Bool)
    (hs : s = S ++ x :: '/' :: (A ++ Q)) (hAQ : A ++ Q = z :: w) (hz : z ≠ '/')
    (hA : ∀ c ∈ A, ¬ is_search_delim c) (hQ : search_well_formed Q)
    (hns : (if (sv_find s ':' 0 == npos) = true then (Except.ok true : Except fault Bool)
        else url.both_slash s 0 1) = .ok ns)
    (hn0 : (if ns = true then 0 else sv_find s ':' 0) = S.length)
    (hsch : (if ns = true then (Except.ok [] : Except fault Str)
        else util.string.substring s 0 (sv_find s ':' 0)) = .ok S)
    (hlen : s.length < npos) :
    url.parse_absolute_form s = .ok ⟨.absolute, S, network_location.init, A, Q⟩ := by
  obtain ⟨pre, hpre0⟩ : ∃ pre, pre = S ++ [x, '/'] := ⟨_, rfl⟩
  have hpre : pre.length = S.length + 2 := by rw [hpre0]; simp
  have hs1 : s = pre ++ (A ++ Q) := by rw [hs, hpre0]; simp
  have hL : s.length = S.length + 2 + A.length + Q.length := by
    rw [hs1]; simp only [List.length_append, hpre]; omega
  have A1 : sv_at s (S.length + 1) = .ok '/' := by
    have := sv_at_append (S ++ [x]) '/' (A ++ Q) (S.length + 1) (by simp)
    rw [hs]; simpa using this
  have A2 : sv_at s (S.length + 2) = .ok z := by
    have := sv_at_append pre z w (S.length + 2) hpre.symm
    rw [hs1, hAQ]; exact this
  have hzb : (z == '/') = false := by simpa using hz
  have F5 : url.both_slash s (S.length + 1) (S.length + 2) = .ok false := by
    unfold url.both_slash
    simp only [A1, A2, hzb, bind, Except.bind, pure, Except.pure, beq_self_eq_true, ↓reduceIte]
  have hA2 : ∀ c ∈ A, search_delims.contains c = false :=
    fun c hc => (contains_search_delims_false c).2 (hA c hc)
  unfold url.parse_absolute_form
  cases Q with
  | nil =>
    have F7 : sv_find_first_of s search_delims (S.length + 2) = npos := by
      have := sv_find_first_of_missing pre A search_delims hA2
      rw [hpre] at this
      rw [hs1, List.append_nil]
      exact this
    have F8 : util.string.substring s (S.length + 2) npos = .ok A := by
      have := substring_rest pre A (S.length + 2) hpre.symm
        (by rw [hpre]; simp only [List.length_nil] at hL; omega)
      rw [hs1, List.append_nil]
      exact this
    simp only [hns, hn0, hsch, F5, A1, F7, F8, bind, Except.bind, pure, Except.pure,
      Bool.false_eq_true, ↓reduceIte, beq_self_eq_true, bne_self_eq_false]
  | cons d q =>
    have hd : is_search_delim d := hQ
    have F7 : sv_find_first_of s search_delims (S.length + 2) = S.length + 2 + A.length := by
      have := sv_find_first_of_found pre A q d search_delims hA2
        ((contains_search_delims d).2 hd)
      rw [hpre] at this
      rw [hs1]; exact this
    have F9 : (S.length + 2 + A.length != npos) = true := by
      simp only [bne_iff_ne, ne_eq]; omega
    have F8 : util.string.substring s (S.length + 2) (S.length + 2 + A.length) = .ok A := by
      have := substring_mid pre A (d :: q) (S.length + 2) (S.length + 2 + A.length)
        hpre.symm (by rw [hpre]) (by rw [hpre]; unfold npos at hlen; omega)
      rw [hs1]; exact this
    have F10 : util.string.substring s (S.length + 2 + A.length) npos = .ok (d :: q) := by
      have := substring_rest (pre ++ A) (d :: q) (S.length + 2 + A.length)
        (by rw [List.length_append, hpre]) (by rw [List.length_append, hpre]; omega)
      rw [hs1, ← List.append_assoc]; exact this
    simp only [hns, hn0, hsch, F5, A1, F7, F8, F9, F10, bind, Except.bind, pure, Except.pure,
      Bool.false_eq_true, ↓reduceIte, beq_self_eq_true]

/-- `url::parse_absolute_form` on `S x "//" N A Q`, where the netloc text `N`
has no `/` and no search delimiter, the path `A` is empty or begins with `/`
and has no search delimiter, and the search `Q` is empty or begins with a
delimiter (and has no `/` when there is no path): the parts are what they
look like. -/
theorem absolute_netloc (s S : Str) (x : Char) (N A Q : Str) (ns : Bool)
    (hs : s = S ++ x :: '/' :: '/' :: (N ++ (A ++ Q)))
    (hN : ∀ c ∈ N, c ≠ '/' ∧ search_delims.contains c = false)
    (hA0 : A = [] ∨ A.head? = some '/') (hA : ∀ c ∈ A, ¬ is_search_delim c)
    (hQ : search_well_formed Q) (hQ0 : A = [] → ∀ c ∈ Q, c ≠ '/')
    (hns : (if (sv_find s ':' 0 == npos) = true then (Except.ok true : Except fault Bool)
        else url.both_slash s 0 1) = .ok ns)
    (hn0 : (if ns = true then 0 else sv_find s ':' 0) = S.length)
    (hsch : (if ns = true then (Except.ok [] : Except fault Str)
        else util.string.substring s 0 (sv_find s ':' 0)) = .ok S)
    (hlen : s.length < npos) :
    url.parse_absolute_form s =
      match url.parse_netloc N with
      | .ok nl => .ok ⟨.absolute, S, nl, A, Q⟩
      | .error e => .error e := by
  obtain ⟨pre, hpre0⟩ : ∃ pre, pre = S ++ [x, '/', '/'] := ⟨_, rfl⟩
  have hpre : pre.length = S.length + 3 := by rw [hpre0]; simp
  have hs1 : s = pre ++ (N ++ (A ++ Q)) := by rw [hs, hpre0]; simp
  have hL : s.length = S.length + 3 + N.length + A.length + Q.length := by
    rw [hs1]; simp only [List.length_append, hpre]; omega
  have A1 : sv_at s (S.length + 1) = .ok '/' := by
    have := sv_at_append (S ++ [x]) '/' ('/' :: (N ++ (A ++ Q))) (S.length + 1) (by simp)
    rw [hs]; simpa using this
  have A2 : sv_at s (S.length + 2) = .ok '/' := by
    have := sv_at_append (S ++ [x, '/']) '/' (N ++ (A ++ Q)) (S.length + 2) (by simp)
    rw [hs]; simpa using this
  have F5 : url.both_slash s (S.length + 1) (S.length + 2) = .ok true := by
    unfold url.both_slash
    simp only [A1, A2, bind, Except.bind, pure, Except.pure, beq_self_eq_true, ↓reduceIte]
  have hpre2 : (pre ++ N).length = S.length + 3 + N.length := by
    rw [List.length_append, hpre]
  have hs2 : s = (pre ++ N) ++ (A ++ Q) := by rw [hs1]; simp only [List.append_assoc]
  have hs3 : s = pre ++ ((N ++ A) ++ Q) := by rw [hs1]; simp only [List.append_assoc]
  have hs4 : s = ((pre ++ N) ++ A) ++ Q := by rw [hs1]; simp only [List.append_assoc]
  have hNA : ∀ c ∈ N ++ A, search_delims.contains c = false := by
    intro c hc
    rcases List.mem_append.1 hc with hc | hc
    · exact (hN c hc).2
    · exact (contains_search_delims_false c).2 (hA c hc)
  have hN1 : ∀ c ∈ N, c ≠ '/' := fun c hc => (hN c hc).1
  cases A with
  | nil =>
    simp only [List.nil_append, List.append_nil, List.length_nil, Nat.add_zero] at hs1 hs2 hs3 hs4 hL hNA
    have hQs : ∀ c ∈ Q, c ≠ '/' := hQ0 rfl
    have F6 : sv_find s '/' (S.length + 3) = npos := by
      have := sv_find_missing pre (N ++ Q) '/' (by
        intro c hc
        rcases List.mem_append.1 hc with hc | hc
        · exact hN1 c hc
        · exact hQs c hc)
      rw [hpre] at this
      rw [hs1]; exact this
    cases Q with
    | nil =>
      simp only [List.append_nil, List.length_nil, Nat.add_zero] at hs1 hs2 hs3 hs4 hL
      have F7 : sv_find_first_of s search_delims (S.length + 3) = npos := by
        have := sv_find_first_of_missing pre N search_delims (fun c hc => (hN c hc).2)
        rw [hpre] at this
        rw [hs1]; exact this
      have F9 : util.string.substring s (S.length + 3) npos = .ok N := by
        have := substring_rest pre N (S.length + 3) hpre.symm (by rw [hpre]; omega)
        rw [hs1]; exact this
      unfold url.parse_absolute_form
      cases hnl : url.parse_netloc N with
      | error e =>
        simp only [hns, hn0, hsch, F5, F6, F7, F9, hnl, Nat.min_self, bind, Except.bind, pure,
          Except.pure, Bool.false_eq_true, ↓reduceIte, bne_self_eq_false]
      | ok nl =>
        simp only [hns, hn0, hsch, F5, F6, F7, F9, hnl, Nat.min_self, bind, Except.bind, pure,
          Except.pure, Bool.false_eq_true, ↓reduceIte, bne_self_eq_false]
    | cons d q =>
      have hd : is_search_delim d := hQ
      have F7 : sv_find_first_of s search_delims (S.length + 3) = S.length + 3 + N.length := by
        have := sv_find_first_of_found pre N q d search_delims (fun c hc => (hN c hc).2)
          ((contains_search_delims d).2 hd)
        rw [hpre] at this
        rw [hs1]; exact this
      have F8 : min (S.length + 3 + N.length) npos = S.length + 3 + N.length := by
        apply Nat.min_eq_left; omega
      have F9 : util.string.substring s (S.length + 3) (S.length + 3 + N.length) = .ok N := by
        have := substring_mid pre N (d :: q) (S.length + 3) (S.length + 3 + N.length)
          hpre.symm (by rw [hpre]) (by rw [hpre]; unfold npos at hlen; omega)
        rw [hs1]; exact this
      have F11 : (S.length + 3 + N.length != npos) = true := by
        simp only [bne_iff_ne, ne_eq]; omega
      have F13 : util.string.substring s (S.length + 3 + N.length) npos = .ok (d :: q) := by
        have := substring_rest (pre ++ N) (d :: q) (S.length + 3 + N.length) hpre2.symm
          (by rw [hpre2]; omega)
        rw [hs2]; exact this
      unfold url.parse_absolute_form
      cases hnl : url.parse_netloc N with
      | error e =>
        simp only [hns, hn0, hsch, F5, F6, F7, F8, F9, F11, F13, hnl, bind, Except.bind, pure,
          Except.pure, Bool.false_eq_true, ↓reduceIte, bne_self_eq_false]
      | ok nl =>
        simp only [hns, hn0, hsch, F5, F6, F7, F8, F9, F11, F13, hnl, bind, Except.bind, pure,
          Except.pure, Bool.false_eq_true, ↓reduceIte, bne_self_eq_false]
  | cons a p' =>
    have ha : a = '/' := by
      rcases hA0 with h | h
      · cases h
      · simpa using h
    subst ha
    have hPl : 1 ≤ ('/' :: p').length := by simp
    have F6 : sv_find s '/' (S.length + 3) = S.length + 3 + N.length := by
      have := sv_find_found pre N (p' ++ Q) '/' hN1
      rw [hpre] at this
      rw [hs1]; exact this
    have F9 : util.string.substring s (S.length + 3) (S.length + 3 + N.length) = .ok N := by
      have := substring_mid pre N (('/' :: p') ++ Q) (S.length + 3) (S.length + 3 + N.length)
        hpre.symm (by rw [hpre]) (by rw [hpre]; unfold npos at hlen; omega)
      rw [hs1]; exact this
    have F11 : (S.length + 3 + N.length != npos) = true := by
      simp only [bne_iff_ne, ne_eq]; omega
    cases Q with
    | nil =>
      have F7 : sv_find_first_of s search_delims (S.length + 3) = npos := by
        have := sv_find_first_of_missing pre (N ++ '/' :: p') search_delims hNA
        rw [hpre] at this
        rw [hs3, List.append_nil]; exact this
      have F12 : util.string.substring s (S.length + 3 + N.length) npos = .ok ('/' :: p') := by
        have := substring_rest (pre ++ N) ('/' :: p') (S.length + 3 + N.length) hpre2.symm
          (by rw [hpre2]; simp only [List.length_nil] at hL; omega)
        rw [hs2, List.append_nil]; exact this
      have F8 : min npos (S.length + 3 + N.length) = S.length + 3 + N.length := by
        apply Nat.min_eq_right; omega
      unfold url.parse_absolute_form
      cases hnl : url.parse_netloc N with
      | error e =>
        simp only [hns, hn0, hsch, F5, F6, F7, F8, F9, hnl, F11, F12, bind, Except.bind, pure,
          Except.pure, Bool.false_eq_true, ↓reduceIte, bne_self_eq_false, Bool.false_and]
      | ok nl =>
        simp only [hns, hn0, hsch, F5, F6, F7, F8, F9, hnl, F11, F12, bind, Except.bind, pure,
          Except.pure, Bool.false_eq_true, ↓reduceIte, bne_self_eq_false, Bool.false_and]
    | cons d q =>
      have hd : is_search_delim d := hQ
      have F7 : sv_find_first_of s search_delims (S.length + 3)
          = S.length + 3 + N.length + ('/' :: p').length := by
        have := sv_find_first_of_found pre (N ++ '/' :: p') q d search_delims hNA
          ((contains_search_delims d).2 hd)
        rw [hpre, List.length_append] at this
        rw [hs3, this]; omega
      have F12 : util.string.substring s (S.length + 3 + N.length)
          (S.length + 3 + N.length + ('/' :: p').length) = .ok ('/' :: p') := by
        have := substring_mid (pre ++ N) ('/' :: p') (d :: q) (S.length + 3 + N.length)
          (S.length + 3 + N.length + ('/' :: p').length) hpre2.symm
          (by rw [hpre2]) (by rw [hpre2]; unfold npos at hlen; omega)
        rw [hs2]; exact this
      have F13 : util.string.substring s (S.length + 3 + N.length + ('/' :: p').length) npos
          = .ok (d :: q) := by
        have := substring_rest ((pre ++ N) ++ '/' :: p') (d :: q)
          (S.length + 3 + N.length + ('/' :: p').length)
          (by rw [List.length_append, hpre2]) (by rw [List.length_append, hpre2]; omega)
        rw [hs4]; exact this
      have F8 : min (S.length + 3 + N.length + ('/' :: p').length) (S.length + 3 + N.length)
          = S.length + 3 + N.length := by
        apply Nat.min_eq_right; omega
      have F14 : (S.length + 3 + N.length + ('/' :: p').length != npos) = true := by
        simp only [bne_iff_ne, ne_eq]; omega
      have F15 : decide (S.length + 3 + N.length + ('/' :: p').length > S.length + 3 + N.length)
          = true := by
        simp only [decide_eq_true_eq]; omega
      unfold url.parse_absolute_form
      cases hnl : url.parse_netloc N with
      | error e =>
        simp only [hns, hn0, hsch, F5, F6, F7, F8, F9, hnl, F11, F12, F13, F14, F15, bind,
          Except.bind, pure, Except.pure, Bool.false_eq_true, ↓reduceIte, Bool.and_self]
      | ok nl =>
        simp only [hns, hn0, hsch, F5, F6, F7, F8, F9, hnl, F11, F12, F13, F14, F15, bind,
          Except.bind, pure, Except.pure, Bool.false_eq_true, ↓reduceIte, Bool.and_self]

/-- `url::parse_absolute_form` on `S x "//" N d L "/" A`, where a search
delimiter `d` comes before the first `/` after the netloc text `N`: the path
is all that follows from that `/` on, the search is empty, and `d L` is
dropped. -/
theorem absolute_netloc_lost (s S : Str) (x d : Char) (N L A : Str) (ns : Bool)
    (hs : s = S ++ x :: '/' :: '/' :: (N ++ d :: (L ++ '/' :: A)))
    (hN : ∀ c ∈ N, c ≠ '/' ∧ search_delims.contains c = false)
    (hd : is_search_delim d) (hL : ∀ c ∈ L, c ≠ '/')
    (hns : (if (sv_find s ':' 0 == npos) = true then (Except.ok true : Except fault Bool)
        else url.both_slash s 0 1) = .ok ns)
    (hn0 : (if ns = true then 0 else sv_find s ':' 0) = S.length)
    (hsch : (if ns = true then (Except.ok [] : Except fault Str)
        else util.string.substring s 0 (sv_find s ':' 0)) = .ok S)
    (hlen : s.length < npos) :
    url.parse_absolute_form s =
      match url.parse_netloc N with
      | .ok nl => .ok ⟨.absolute, S, nl, '/' :: A, []⟩
      | .error e => .error e := by
  obtain ⟨pre, hpre0⟩ : ∃ pre, pre = S ++ [x, '/', '/'] := ⟨_, rfl⟩
  have hpre : pre.length = S.length + 3 := by rw [hpre0]; simp
  have hs1 : s = pre ++ (N ++ d :: (L ++ '/' :: A)) := by rw [hs, hpre0]; simp
  have hL0 : s.length = S.length + 3 + N.length + 1 + L.length + 1 + A.length := by
    rw [hs1]; simp only [List.length_append, List.length_cons, hpre]; omega
  have A1 : sv_at s (S.length + 1) = .ok '/' := by
    have := sv_at_append (S ++ [x]) '/' ('/' :: (N ++ d :: (L ++ '/' :: A))) (S.length + 1)
      (by simp)
    rw [hs]; simpa using this
  have A2 : sv_at s (S.length + 2) = .ok '/' := by
    have := sv_at_append (S ++ [x, '/']) '/' (N ++ d :: (L ++ '/' :: A)) (S.length + 2)
      (by simp)
    rw [hs]; simpa using this
  have F5 : url.both_slash s (S.length + 1) (S.length + 2) = .ok true := by
    unfold url.both_slash
    simp only [A1, A2, bind, Except.bind, pure, Except.pure, beq_self_eq_true, ↓reduceIte]
  have hdslash : d ≠ '/' := by
    rintro rfl
    revert hd
    decide
  have F7 : sv_find_first_of s search_delims (S.length + 3) = S.length + 3 + N.length := by
    have := sv_find_first_of_found pre N (L ++ '/' :: A) d search_delims
      (fun c hc => (hN c hc).2) ((contains_search_delims d).2 hd)
    rw [hpre] at this
    rw [hs1]; exact this
  have hs2 : s = pre ++ ((N ++ d :: L) ++ '/' :: A) := by
    rw [hs1]; simp only [List.append_assoc, List.cons_append]
  have F6 : sv_find s '/' (S.length + 3) = S.length + 3 + (N.length + 1 + L.length) := by
    have := sv_find_found pre (N ++ d :: L) A '/' (by
      intro c hc
      rcases List.mem_append.1 hc with hc | hc
      · exact (hN c hc).1
      · rcases List.mem_cons.1 hc with rfl | hc
        · exact hdslash
        · exact hL c hc)
    rw [hpre] at this
    rw [hs2, this]
    simp only [List.length_append, List.length_cons]
    omega
  have F8 : min (S.length + 3 + N.length) (S.length + 3 + (N.length + 1 + L.length))
      = S.length + 3 + N.length := by
    apply Nat.min_eq_left; omega
  have F9 : util.string.substring s (S.length + 3) (S.length + 3 + N.length) = .ok N := by
    have := substring_mid pre N (d :: (L ++ '/' :: A)) (S.length + 3) (S.length + 3 + N.length)
      hpre.symm (by rw [hpre]) (by rw [hpre]; unfold npos at hlen; omega)
    rw [hs1]; exact this
  have F11 : (S.length + 3 + (N.length + 1 + L.length) != npos) = true := by
    simp only [bne_iff_ne, ne_eq]; omega
  have F14 : (S.length + 3 + N.length != npos) = true := by
    simp only [bne_iff_ne, ne_eq]; omega
  have F15 : decide (S.length + 3 + N.length > S.length + 3 + (N.length + 1 + L.length))
      = false := by
    simp only [decide_eq_false_iff_not]; omega
  have F12 : util.string.substring s (S.length + 3 + (N.length + 1 + L.length)) npos
      = .ok ('/' :: A) := by
    have := substring_rest (pre ++ (N ++ d :: L)) ('/' :: A)
      (S.length + 3 + (N.length + 1 + L.length))
      (by simp only [List.length_append, List.length_cons, hpre]; omega)
      (by simp only [List.length_append, List.length_cons, hpre]; omega)
    rw [hs2, ← List.append_assoc]; exact this
  unfold url.parse_absolute_form
  cases hnl : url.parse_netloc N with
  | error e =>
    simp only [hns, hn0, hsch, F5, F6, F7, F8, F9, hnl, F11, F12, F14, F15, bind,
      Except.bind, pure, Except.pure, Bool.false_eq_true, ↓reduceIte, Bool.and_false,
      Bool.true_and]
  | ok nl =>
    simp only [hns, hn0, hsch, F5, F6, F7, F8, F9, hnl, F11, F12, F14, F15, bind,
      Except.bind, pure, Except.pure, Bool.false_eq_true, ↓reduceIte, Bool.and_false,
      Bool.true_and]

theorem sv_at_end (s : Str) (i : Nat) (hi : s.length ≤ i) :
    sv_at s i = .error fault.undefined_read := by
  unfold sv_at
  rw [List.get?_eq_none.2 hi]

/-- `url::parse_absolute_form` reads past the end of `S x` and of `S x "/"`. -/
theorem absolute_short (s S : Str) (x : Char) (tail : Str) (ns : Bool)
    (hs : s = S ++ x :: tail) (ht : tail = [] ∨ tail = ['/'])
    (hns : (if (sv_find s ':' 0 == npos) = true then (Except.ok true : Except fault Bool)
        else url.both_slash s 0 1) = .ok ns)
    (hn0 : (if ns = true then 0 else sv_find s ':' 0) = S.length) :
    url.parse_absolute_form s = .error fault.undefined_read := by
  have F5 : url.both_slash s (S.length + 1) (S.length + 2) = .error fault.undefined_read := by
    unfold url.both_slash
    rcases ht with ht | ht
    · have A1 : sv_at s (S.length + 1) = .error fault.undefined_read :=
        sv_at_end _ _ (by rw [hs, ht]; simp)
      simp only [A1, bind, Except.bind]
    · have A1 : sv_at s (S.length + 1) = .ok '/' := by
        have := sv_at_append (S ++ [x]) '/' [] (S.length + 1) (by simp)
        rw [hs, ht]; simpa using this
      have A2 : sv_at s (S.length + 2) = .error fault.undefined_read :=
        sv_at_end _ _ (by rw [hs, ht]; simp)
      simp only [A1, A2, bind, Except.bind, beq_self_eq_true, ↓reduceIte]
  unfold url.parse_absolute_form
  cases hsch : (if ns = true then (Except.ok [] : Except fault Str)
        else util.string.substring s 0 (sv_find s ':' 0)) with
  | error e =>
    exfalso
    cases ns with
    | true => simp at hsch
    | false =>
      simp only [Bool.false_eq_true, ↓reduceIte] at hsch hn0
      unfold util.string.substring sv_substr at hsch
      rw [if_neg (by omega)] at hsch
      cases hsch
  | ok S' =>
    simp only [hns, hn0, hsch, F5, bind, Except.bind, pure, Except.pure]

theorem stop_char_split (c : Char)
    (h : (fun x : Char => x == '/' || search_delims.contains x) c = true) :
    c = '/' ∨ (c ≠ '/' ∧ is_search_delim c) := by
  by_cases hc : c = '/'
  · exact Or.inl hc
  · right
    refine ⟨hc, (contains_search_delims c).1 ?_⟩
    simpa [hc] using h

theorem stop_char_free (N : Str)
    (h : ∀ x ∈ N, (fun x : Char => x == '/' || search_delims.contains x) x = false) :
    ∀ c ∈ N, c ≠ '/' ∧ search_delims.contains c = false := by
  intro c hc
  have := h c hc
  simp only [Bool.or_eq_false_iff, beq_eq_false_iff_ne, ne_eq] at this
  exact this

/-- The shape of every successful `url::parse_absolute_form` on a target that
does not begin with `/`: the target is `S x tail`, where the scheme `S` is the
text before the first `:` (then `x` is that `:`) or empty, and `tail` decides
between no netloc and no path, no netloc and a path, and a netloc. -/
theorem parse_absolute_form_shape (c : Char) (rest : Str) (u : url) (hc : c ≠ '/')
    (hlen : (c :: rest).length < npos) (h : url.parse_absolute_form (c :: rest) = .ok u) :
    ∃ S x tail, c :: rest = S ++ x :: tail ∧ (∀ y ∈ S, y ≠ ':') ∧ (x = ':' ∨ S = []) ∧
      ((∃ y t, tail = y :: t ∧ y ≠ '/' ∧
          u = ⟨.absolute, S, network_location.init, [], tail⟩) ∨
        (∃ A Q z w, tail = '/' :: (A ++ Q) ∧ A ++ Q = z :: w ∧ z ≠ '/' ∧
          (∀ a ∈ A, ¬ is_search_delim a) ∧ search_well_formed Q ∧
          u = ⟨.absolute, S, network_location.init, A, Q⟩) ∨
        (∃ N A Q nl, tail = '/' :: '/' :: (N ++ (A ++ Q)) ∧
          (∀ a ∈ N, a ≠ '/' ∧ search_delims.contains a = false) ∧
          (A = [] ∨ A.head? = some '/') ∧ (∀ a ∈ A, ¬ is_search_delim a) ∧
          search_well_formed Q ∧ (A = [] → ∀ a ∈ Q, a ≠ '/') ∧
          url.parse_netloc N = .ok nl ∧ u = ⟨.absolute, S, nl, A, Q⟩) ∨
        (∃ N d L A nl, tail = '/' :: '/' :: (N ++ d :: (L ++ '/' :: A)) ∧
          (∀ a ∈ N, a ≠ '/' ∧ search_delims.contains a = false) ∧
          is_search_delim d ∧ (∀ a ∈ L, a ≠ '/') ∧
          url.parse_netloc N = .ok nl ∧ u = ⟨.absolute, S, nl, '/' :: A, []⟩)) := by
  obtain ⟨S, x, tail, hs, hS, hx⟩ : ∃ S x tail, c :: rest = S ++ x :: tail ∧
      (∀ y ∈ S, y ≠ ':') ∧ (x = ':' ∨ (S = [] ∧ ∀ y ∈ x :: tail, y ≠ ':')) := by
    rcases split_char ':' (c :: rest) with hno | ⟨S, tail, hs, hS⟩
    · exact ⟨[], c, rest, rfl, fun y hy => absurd hy (List.not_mem_nil y), Or.inr ⟨rfl, hno⟩⟩
    · exact ⟨S, ':', tail, hs, hS, Or.inl rfl⟩
  have hx2 : x = ':' ∨ S = [] := by
    rcases hx with hx | hx
    · exact Or.inl hx
    · exact Or.inr hx.1
  refine ⟨S, x, tail, hs, hS, hx2, ?_⟩
  rw [hs] at hlen
  obtain ⟨ns, hns, hn0, hsch⟩ := absolute_front S x tail c rest hs.symm hc hS hx hlen
  rw [hs] at h
  obtain ⟨s, hs0⟩ : ∃ s, s = S ++ x :: tail := ⟨_, rfl⟩
  rw [← hs0] at h hlen hns hn0 hsch
  cases tail with
  | nil =>
    rw [absolute_short s S x [] ns hs0 (Or.inl rfl) hns hn0] at h
    cases h
  | cons y t =>
    by_cases hy : y = '/'
    · subst hy
      cases t with
      | nil =>
        rw [absolute_short s S x ['/'] ns hs0 (Or.inr rfl) hns hn0] at h
        cases h
      | cons z w =>
        by_cases hz : z = '/'
        · subst hz
          right; right
          rcases split_first (fun x : Char => x == '/' || search_delims.contains x) w with
            hfree | ⟨N, e, R1, hw, hfree, he⟩
          · left
            have hN := stop_char_free w hfree
            have := absolute_netloc s S x w [] [] ns (by rw [hs0]; simp) hN (Or.inl rfl)
              (fun a ha => absurd ha (List.not_mem_nil a)) trivial
              (fun _ a ha => absurd ha (List.not_mem_nil a)) hns hn0 hsch hlen
            rw [this] at h
            cases hnl : url.parse_netloc w with
            | error e => rw [hnl] at h; cases h
            | ok nl =>
              rw [hnl] at h
              exact ⟨w, [], [], nl, by simp, hN, Or.inl rfl,
                fun a ha => absurd ha (List.not_mem_nil a), trivial,
                fun _ a ha => absurd ha (List.not_mem_nil a), hnl, (Except.ok.inj h).symm⟩
          · have hN := stop_char_free N hfree
            rcases stop_char_split e he with he | ⟨hes, hed⟩
            · subst he
              left
              obtain ⟨A1, Q, hR1, hA1, hQ⟩ : ∃ A1 Q, R1 = A1 ++ Q ∧
                  (∀ a ∈ A1, search_delims.contains a = false) ∧ search_well_formed Q := by
                rcases split_first (fun x : Char => search_delims.contains x) R1 with
                  hf | ⟨A1, d, q, hR1, hf, hd⟩
                · exact ⟨R1, [], by simp, hf, trivial⟩
                · exact ⟨A1, d :: q, hR1, hf, (contains_search_delims d).1 hd⟩
              have hA : ∀ a ∈ '/' :: A1, ¬ is_search_delim a := by
                intro a ha
                rcases List.mem_cons.1 ha with rfl | ha
                · decide
                · exact (contains_search_delims_false a).1 (hA1 a ha)
              have := absolute_netloc s S x N ('/' :: A1) Q ns
                (by rw [hs0, hw, hR1]; simp) hN (Or.inr rfl) hA hQ
                (fun hnil => by cases hnil) hns hn0 hsch hlen
              rw [this] at h
              cases hnl : url.parse_netloc N with
              | error e => rw [hnl] at h; cases h
              | ok nl =>
                rw [hnl] at h
                exact ⟨N, '/' :: A1, Q, nl, by rw [hw, hR1]; simp, hN, Or.inr rfl, hA, hQ,
                  (fun hnil => by cases hnil), hnl, (Except.ok.inj h).symm⟩
            · rcases split_char '/' R1 with hno | ⟨L, A, hR1, hL⟩
              · left
                have hQ0 : ∀ a ∈ e :: R1, a ≠ '/' := by
                  intro a ha
                  rcases List.mem_cons.1 ha with rfl | ha
                  · exact hes
                  · exact hno a ha
                have := absolute_netloc s S x N [] (e :: R1) ns
                  (by rw [hs0, hw]; simp) hN (Or.inl rfl)
                  (fun a ha => absurd ha (List.not_mem_nil a)) hed (fun _ => hQ0)
                  hns hn0 hsch hlen
                rw [this] at h
                cases hnl : url.parse_netloc N with
                | error e => rw [hnl] at h; cases h
                | ok nl =>
                  rw [hnl] at h
                  exact ⟨N, [], e :: R1, nl, by rw [hw]; simp, hN, Or.inl rfl,
                    fun a ha => absurd ha (List.not_mem_nil a), hed, fun _ => hQ0, hnl,
                    (Except.ok.inj h).symm⟩
              · right
                have := absolute_netloc_lost s S x e N L A ns
                  (by rw [hs0, hw, hR1]) hN hed hL hns hn0 hsch hlen
                rw [this] at h
                cases hnl : url.parse_netloc N with
                | error e => rw [hnl] at h; cases h
                | ok nl =>
                  rw [hnl] at h
                  exact ⟨N, e, L, A, nl, by rw [hw, hR1], hN, hed, hL, hnl,
                    (Except.ok.inj h).symm⟩
        · right; left
          obtain ⟨A, Q, hX, hA, hQ⟩ : ∃ A Q, z :: w = A ++ Q ∧
              (∀ a ∈ A, ¬ is_search_delim a) ∧ search_well_formed Q := by
            rcases split_first (fun x : Char => search_delims.contains x) (z :: w) with
              hf | ⟨A, d, q, hX, hf, hd⟩
            · exact ⟨z :: w, [], by simp,
                fun a ha => (contains_search_delims_false a).1 (hf a ha), trivial⟩
            · exact ⟨A, d :: q, hX,
                fun a ha => (contains_search_delims_false a).1 (hf a ha),
                (contains_search_delims d).1 hd⟩
          rw [absolute_path_only s S x z w A Q ns (by rw [hs0, hX]) hX.symm hz hA hQ
            hns hn0 hsch hlen] at h
          exact ⟨A, Q, z, w, by rw [hX], hX.symm, hz, hA, hQ, (Except.ok.inj h).symm⟩
    · left
      rw [absolute_search_only s S x y t ns hs0 hy hns hn0 hsch hlen] at h
      exact ⟨y, t, rfl, hy, (Except.ok.inj h).symm⟩

theorem to_string_absolute (S : Str) (nl : network_location) (A Q : Str) :
    url.to_string ⟨.absolute, S, nl, A, Q⟩ =
      (if S = [] then [] else S ++ ':' :: (if nl.empty = true then [] else ['/', '/'])) ++
        (nl.to_string ++ (A ++ Q)) := by
  cases S <;> cases A <;> cases hne : nl.empty <;>
    simp [url.to_string, hne]

theorem netloc_to_string_plain (H : Str) (O : Option Nat) (hH : H ≠ []) :
    network_location.to_string ⟨[], [], H, O⟩ = H ++ port_suffix (O.map decimal_string) := by
  cases H with
  | nil => exact absurd rfl hH
  | cons a b =>
    cases O <;>
      simp [network_location.to_string, network_location.empty,
        network_location.to_host_string, port_suffix]

theorem decimal_string_chars (p : Nat) :
    ∀ x ∈ decimal_string p, x ≠ '@' ∧ x ≠ ':' ∧ x ≠ '/' ∧ ¬ is_search_delim x :=
  fun x hx => is_digit_host_char x ((decimal_string_spec p).1.2 x hx)

/-- `url::parse_netloc` reads `host [":" port]`, as written for a netloc
without username, back to that host and port. -/
theorem parse_netloc_written (H : Str) (O : Option Nat) (hne : H ≠ [])
    (hcolon : ∀ x ∈ H, x ≠ ':') (hslash : H.head? ≠ some '/')
    (hat : H.head? = some '@' ∨ ∀ x ∈ H, x ≠ '@')
    (hO : ∀ p, O = some p → p ≤ port_max)
    (hlen : (H ++ port_suffix (O.map decimal_string)).length < npos) :
    url.parse_netloc (H ++ port_suffix (O.map decimal_string)) = .ok ⟨[], [], H, O⟩ := by
  cases H with
  | nil => exact absurd rfl hne
  | cons a b =>
    have ha : a ≠ '/' := by
      intro h; exact hslash (by rw [h]; rfl)
    by_cases haat : a = '@'
    · subst haat
      have hb : ∀ x ∈ b, x ≠ ':' := fun x hx => hcolon x (List.mem_cons_of_mem _ hx)
      cases O with
      | none =>
        have hs : ('@' :: b) ++ port_suffix (Option.map decimal_string none) = [] ++ '@' :: b := by
          simp [port_suffix]
        rw [hs] at hlen ⊢
        obtain ⟨pw, hpw, -, heq⟩ := parse_netloc_at_host [] b '@' b rfl (by decide)
          (fun x hx => absurd hx (List.not_mem_nil x)) hb hlen
        rw [heq, hpw rfl]
      | some p =>
        have hs : ('@' :: b) ++ port_suffix (Option.map decimal_string (some p)) =
            [] ++ '@' :: (b ++ ':' :: decimal_string p) := by
          simp [port_suffix]
        rw [hs] at hlen ⊢
        obtain ⟨pw, hpw, -, heq⟩ := parse_netloc_at_port [] b (decimal_string p) '@' _ rfl
          (by decide) (fun x hx => absurd hx (List.not_mem_nil x)) hb hlen
        have hspec := decimal_string_spec p
        rw [heq, hpw rfl, parse_port_of_digits _ hspec.1.1 hspec.1.2
          (by rw [hspec.2]; exact hO p rfl), hspec.2]
    · have hat2 : ∀ x ∈ a :: b, x ≠ '@' := by
        rcases hat with h | h
        · exact absurd (by simpa using h) haat
        · exact h
      cases O with
      | none =>
        have hs : (a :: b) ++ port_suffix (Option.map decimal_string none) = a :: b := by
          simp [port_suffix]
        rw [hs] at hlen ⊢
        exact parse_netloc_host (a :: b) a b rfl ha hcolon hat2 hlen
      | some p =>
        have hs : (a :: b) ++ port_suffix (Option.map decimal_string (some p)) =
            (a :: b) ++ ':' :: decimal_string p := by
          simp [port_suffix]
        rw [hs] at hlen ⊢
        have hspec := decimal_string_spec p
        rw [parse_netloc_port (a :: b) (decimal_string p) a _ rfl ha hcolon (by
            intro x hx
            rcases List.mem_append.1 hx with hx | hx
            · exact hat2 x hx
            · rcases List.mem_cons.1 hx with rfl | hx
              · decide
              · exact (decimal_string_chars p x hx).1) hlen,
          parse_port_of_digits _ hspec.1.1 hspec.1.2 (by rw [hspec.2]; exact hO p rfl),
          hspec.2]

theorem parse_target_scheme (c : Char) (S tail : Str) (m : method) (hc : c ≠ '/')
    (hm : m ≠ method.CONNECT) :
    url.parse_target ((c :: S) ++ ':' :: tail) m =
      url.parse_absolute_form ((c :: S) ++ ':' :: tail) := by
  rw [List.cons_append, parse_target_dispatch, if_neg, if_neg hc, if_neg hm]
  intro h
  have := congrArg List.length h
  simp at this

/-- A url with a scheme, no netloc, no path and a search that does not begin
with `/` is read back from what is written for it. -/
theorem round_trip_search (c : Char) (S : Str) (y : Char) (t : Str) (m : method)
    (hc : c ≠ '/') (hm : m ≠ method.CONNECT) (hS : ∀ a ∈ c :: S, a ≠ ':') (hy : y ≠ '/')
    (hlen2 : (url.to_string
      ⟨.absolute, c :: S, network_location.init, [], y :: t⟩).length < npos) :
    url.parse_target
        (url.to_string ⟨.absolute, c :: S, network_location.init, [], y :: t⟩) m =
      .ok ⟨.absolute, c :: S, network_location.init, [], y :: t⟩ := by
  have hts : url.to_string ⟨.absolute, c :: S, network_location.init, [], y :: t⟩ =
      (c :: S) ++ ':' :: y :: t := by
    rw [to_string_absolute]
    simp [network_location.init, network_location.empty, network_location.to_string]
  rw [hts] at hlen2 ⊢
  rw [parse_target_scheme c S _ m hc hm]
  obtain ⟨ns, hns, hn0, hsch⟩ := absolute_front (c :: S) ':' (y :: t) c _ rfl hc hS
    (Or.inl rfl) hlen2
  exact absolute_search_only _ (c :: S) ':' y t ns rfl hy hns hn0 hsch hlen2

/-- A url with a scheme, a netloc without username whose host is not empty,
a path that is empty or begins with `/` and has no search delimiter, and a
search, as `url::parse_absolute_form` returns them, is read back from what is
written for it. -/
theorem round_trip_netloc (c : Char) (S N A Q : Str) (nl : network_location) (m : method)
    (hc : c ≠ '/') (hm : m ≠ method.CONNECT) (hS : ∀ a ∈ c :: S, a ≠ ':')
    (hN : ∀ a ∈ N, a ≠ '/' ∧ search_delims.contains a = false) (hNlen : N.length < npos)
    (hnl : url.parse_netloc N = .ok nl)
    (hU : nl.username = []) (hHO : nl.host = [] → nl.port = none)
    (hA0 : A = [] ∨ A.head? = some '/') (hA : ∀ a ∈ A, ¬ is_search_delim a)
    (hQ : search_well_formed Q) (hQ0 : A = [] → ∀ a ∈ Q, a ≠ '/')
    (hlen2 : (url.to_string ⟨.absolute, c :: S, nl, A, Q⟩).length < npos) :
    url.parse_target (url.to_string ⟨.absolute, c :: S, nl, A, Q⟩) m =
      .ok ⟨.absolute, c :: S, nl, A, Q⟩ := by
  obtain ⟨hNne, -, tailp, hNeq, hHcolon, hport, huser⟩ :=
    parse_netloc_shape N nl (fun x hx => (hN x hx).1) hNlen hnl
  obtain ⟨U, P, H, O⟩ := nl
  simp only at hU hHO hNeq hHcolon hport huser
  subst hU
  have hP : P = [] ∧ (H.head? = some '@' ∨ ∀ x ∈ H, x ≠ '@') := by
    rcases huser with ⟨-, hp, hat⟩ | ⟨hu, -⟩
    · exact ⟨hp, hat⟩
    · exact absurd rfl hu
  obtain ⟨hP0, hat⟩ := hP
  subst hP0
  have hHne : H ≠ [] := by
    intro hH
    have hO := hHO hH
    rcases hport with ⟨-, ht⟩ | ⟨pt, p, hp, -, -⟩
    · rw [hH, ht] at hNeq
      exact hNne hNeq
    · rw [hO] at hp; cases hp
  have hHN : ∀ x ∈ H, x ∈ N := by
    intro x hx
    rw [hNeq]
    exact List.mem_append_left _ (List.mem_append_right _ hx)
  have hHslash : H.head? ≠ some '/' := by
    cases H with
    | nil => exact absurd rfl hHne
    | cons a b =>
      intro h
      have : a = '/' := by simpa using h
      exact (hN a (hHN a (List.mem_cons_self _ _))).1 this
  have hO : ∀ p, O = some p → p ≤ port_max := by
    intro p hp
    rcases hport with ⟨hn, -⟩ | ⟨pt, p', hp', -, hpp⟩
    · rw [hn] at hp; cases hp
    · rw [hp'] at hp
      cases hp
      exact parse_port_range pt _ hpp
  have hempty : network_location.empty ⟨[], [], H, O⟩ = false := by
    cases H with
    | nil => exact absurd rfl hHne
    | cons a b => rfl
  have hts : url.to_string ⟨.absolute, c :: S, ⟨[], [], H, O⟩, A, Q⟩ =
      (c :: S) ++ ':' :: '/' :: '/' :: ((H ++ port_suffix (O.map decimal_string)) ++ (A ++ Q)) := by
    rw [to_string_absolute, if_neg (by simp), hempty, netloc_to_string_plain H O hHne]
    simp
  rw [hts] at hlen2 ⊢
  rw [parse_target_scheme c S _ m hc hm]
  obtain ⟨ns, hns, hn0, hsch⟩ := absolute_front (c :: S) ':' _ c _ rfl hc hS (Or.inl rfl) hlen2
  have hN2 : ∀ a ∈ H ++ port_suffix (O.map decimal_string),
      a ≠ '/' ∧ search_delims.contains a = false := by
    intro a ha
    rcases List.mem_append.1 ha with ha | ha
    · exact hN a (hHN a ha)
    · cases O with
      | none => cases ha
      | some p =>
        rcases List.mem_cons.1 ha with rfl | ha
        · exact ⟨by decide, by decide⟩
        · have := decimal_string_chars p a ha
          exact ⟨this.2.2.1, (contains_search_delims_false a).2 this.2.2.2⟩
  rw [absolute_netloc _ (c :: S) ':' _ A Q ns rfl hN2 hA0 hA hQ hQ0 hns hn0 hsch hlen2,
    parse_netloc_written H O hHne hHcolon hHslash hat hO (by
      simp only [List.length_append, List.length_cons] at hlen2 ⊢; omega)]

/-- Absolute form, one direction: a url that `url::parse_absolute_form`
returned and that has a scheme, no username, a host unless it has no port, and
a path that is empty or begins with `/` and has no search delimiter, is read
back from what is written for it. -/
theorem round_trip_absolute (c : Char) (rest : Str) (u : url) (m : method) (hc : c ≠ '/')
    (hm : m ≠ method.CONNECT) (hlen : (c :: rest).length < npos)
    (hlen2 : u.to_string.length < npos)
    (h : url.parse_absolute_form (c :: rest) = .ok u)
    (hcond : u.scheme ≠ [] ∧ u.netloc.username = [] ∧
      (u.netloc.host = [] → u.netloc.port = none) ∧
      (u.path = [] ∨ u.path.head? = some '/') ∧ ∀ a ∈ u.path, ¬ is_search_delim a) :
    url.parse_target u.to_string m = .ok u := by
  obtain ⟨S, x, tail, hs, hS, hx, hcases⟩ := parse_absolute_form_shape c rest u hc hlen h
  have hSne : S ≠ [] := by
    rcases hcases with ⟨_, _, _, _, hu⟩ | ⟨_, _, _, _, _, _, _, _, _, hu⟩ |
      ⟨_, _, _, _, _, _, _, _, _, _, _, hu⟩ | ⟨_, _, _, _, _, _, _, _, _, _, hu⟩ <;>
    · rw [hu] at hcond; exact hcond.1
  obtain ⟨S', hS'⟩ : ∃ S', S = c :: S' := by
    cases S with
    | nil => exact absurd rfl hSne
    | cons a b =>
      rw [List.cons_append] at hs
      exact ⟨b, by rw [(List.cons.inj hs).1]⟩
  subst hS'
  rcases hcases with ⟨y, t, ht, hy, hu⟩ | ⟨A, Q, z, w, ht, hAQ, hz, hA, hQ, hu⟩ |
    ⟨N, A, Q, nl, ht, hN, hA0, hA, hQ, hQ0, hnl, hu⟩ | ⟨N, d, L, A, nl, ht, hN, hd, hL, hnl, hu⟩
  · subst hu
    rw [ht] at hlen2 ⊢
    exact round_trip_search c S' y t m hc hm hS hy hlen2
  · subst hu
    have hA0 : A = [] := by
      rcases hcond.2.2.2.1 with h0 | h0
      · exact h0
      · exfalso
        cases A with
        | nil => cases h0
        | cons a b =>
          have ha : a = '/' := by simpa using h0
          rw [List.cons_append] at hAQ
          exact hz ((List.cons.inj hAQ).1.symm.trans ha)
    subst hA0
    rw [List.nil_append] at hAQ
    subst hAQ
    exact round_trip_search c S' z w m hc hm hS hz hlen2
  · subst hu
    have hNlen : N.length < npos := by
      have := congrArg List.length hs
      rw [ht] at this
      simp only [List.length_append, List.length_cons] at this hlen
      omega
    exact round_trip_netloc c S' N A Q nl m hc hm hS hN hNlen hnl hcond.2.1 hcond.2.2.1
      hA0 hA hQ hQ0 hlen2
  · subst hu
    have hNlen : N.length < npos := by
      have := congrArg List.length hs
      rw [ht] at this
      simp only [List.length_append, List.length_cons] at this hlen
      omega
    exact round_trip_netloc c S' N ('/' :: A) [] nl m hc hm hS hN hNlen hnl hcond.2.1
      hcond.2.2.1 (Or.inr rfl) hcond.2.2.2.2 trivial (fun h0 => by cases h0) hlen2

theorem cons_append_ne (H : Str) : ∀ (a : Char) (X Y : Str), a ≠ ':' → (∀ x ∈ H, x ≠ ':') →
    (Y = [] ∨ Y.head? = some ':') → a :: (H ++ X) ≠ H ++ Y := by
  induction H with
  | nil =>
    intro a X Y ha _ hY h
    rcases hY with hY | hY
    · rw [hY] at h; cases h
    · rw [List.nil_append, List.nil_append] at h
      rw [← h] at hY
      exact ha (by simpa using hY)
  | cons b H ih =>
    intro a X Y _ hH hY h
    rw [List.cons_append, List.cons_append] at h
    obtain ⟨-, h2⟩ := List.cons.inj h
    exact ih b X Y (hH b (List.mem_cons_self _ _))
      (fun x hx => hH x (List.mem_cons_of_mem _ hx)) hY h2

theorem netloc_to_string_user (U P H : Str) (O : Option Nat) (hU : U ≠ []) :
    network_location.to_string ⟨U, P, H, O⟩ =
      U ++ ((if P = [] then [] else ':' :: P) ++
        '@' :: (H ++ port_suffix (O.map decimal_string))) := by
  cases U with
  | nil => exact absurd rfl hU
  | cons a b =>
    cases P <;> cases O <;>
      simp [network_location.to_string, network_location.empty,
        network_location.to_host_string, port_suffix]

theorem netloc_to_string_empty (nl : network_location) (h : nl.empty = true) :
    nl.to_string = [] := by
  simp [network_location.to_string, h]

/-- A netloc text that `url::parse_netloc` reads to a netloc written as the
same text has no username. -/
theorem netloc_fixpoint (N : Str) (nl : network_location) (hslash : ∀ x ∈ N, x ≠ '/')
    (hlen : N.length < npos) (h : url.parse_netloc N = .ok nl) (hfix : nl.to_string = N) :
    nl.username = [] := by
  obtain ⟨-, -, tailp, hNeq, hHcolon, hport, huser⟩ := parse_netloc_shape N nl hslash hlen h
  rcases huser with ⟨hu, -, -⟩ | ⟨hu, hhead⟩
  · exact hu
  · exfalso
    obtain ⟨U, P, H, O⟩ := nl
    simp only at hNeq hHcolon hport hu hhead
    rw [netloc_to_string_user U P H O hu, hNeq, List.append_assoc] at hfix
    have hfix2 := List.append_cancel_left hfix
    cases H with
    | nil => cases hhead
    | cons a H' =>
      have ha : a = '@' := by simpa using hhead
      subst ha
      by_cases hP : P = []
      · rw [if_pos hP, List.nil_append, List.cons_append] at hfix2
        have hfix3 : '@' :: (H' ++ port_suffix (O.map decimal_string)) = H' ++ tailp :=
          (List.cons.inj hfix2).2
        refine cons_append_ne H' '@' _ tailp (by decide)
          (fun x hx => hHcolon x (List.mem_cons_of_mem _ hx)) ?_ hfix3
        rcases hport with ⟨-, ht⟩ | ⟨pt, p, -, ht, -⟩
        · exact Or.inl ht
        · exact Or.inr (by rw [ht]; rfl)
      · rw [if_neg hP, List.cons_append, List.cons_append] at hfix2
        exact absurd (List.cons.inj hfix2).1 (by decide)

/-- What is written for a netloc that `url::parse_netloc` read from a text
without `/` and search delimiters has none of them either. -/
theorem netloc_to_string_free (N : Str) (nl : network_location)
    (hN : ∀ a ∈ N, a ≠ '/' ∧ search_delims.contains a = false)
    (hlen : N.length < npos) (h : url.parse_netloc N = .ok nl) :
    ∀ x ∈ nl.to_string, x ≠ '/' ∧ ¬ is_search_delim x := by
  obtain ⟨-, hPN, tailp, hNeq, -, -, -⟩ :=
    parse_netloc_shape N nl (fun x hx => (hN x hx).1) hlen h
  obtain ⟨U, P, H, O⟩ := nl
  simp only at hNeq hPN
  have hfree : ∀ x ∈ N, x ≠ '/' ∧ ¬ is_search_delim x :=
    fun x hx => ⟨(hN x hx).1, (contains_search_delims_false x).1 (hN x hx).2⟩
  have hUN : ∀ x ∈ U, x ≠ '/' ∧ ¬ is_search_delim x := by
    intro x hx
    exact hfree x (by rw [hNeq]; exact List.mem_append_left _ (List.mem_append_left _ hx))
  have hHN : ∀ x ∈ H, x ≠ '/' ∧ ¬ is_search_delim x := by
    intro x hx
    exact hfree x (by rw [hNeq]; exact List.mem_append_left _ (List.mem_append_right _ hx))
  have hPN2 : ∀ x ∈ P, x ≠ '/' ∧ ¬ is_search_delim x := fun x hx => hfree x (hPN x hx)
  have hcolon : (':' : Char) ≠ '/' ∧ ¬ is_search_delim ':' := by decide
  have hatc : ('@' : Char) ≠ '/' ∧ ¬ is_search_delim '@' := by decide
  have hport : ∀ x ∈ port_suffix (O.map decimal_string), x ≠ '/' ∧ ¬ is_search_delim x := by
    intro x hx
    cases O with
    | none => cases hx
    | some p =>
      rcases List.mem_cons.1 hx with rfl | hx
      · exact hcolon
      · exact ⟨(decimal_string_chars p x hx).2.2.1, (decimal_string_chars p x hx).2.2.2⟩
  intro x hx
  by_cases hU : U = []
  · subst hU
    by_cases hH : H = []
    · subst hH
      by_cases hP : P = []
      · subst hP
        have : network_location.to_string ⟨[], [], [], O⟩ = [] :=
          netloc_to_string_empty _ rfl
        rw [this] at hx
        cases hx
      · have : network_location.to_string ⟨[], P, [], O⟩ =
            port_suffix (O.map decimal_string) := by
          cases P with
          | nil => exact absurd rfl hP
          | cons a b =>
            cases O <;>
              simp [network_location.to_string, network_location.empty,
                network_location.to_host_string, port_suffix]
        rw [this] at hx
        exact hport x hx
    · have : network_location.to_string ⟨[], P, H, O⟩ =
          H ++ port_suffix (O.map decimal_string) := by
        cases H with
        | nil => exact absurd rfl hH
        | cons a b =>
          cases P <;> cases O <;>
            simp [network_location.to_string, network_location.empty,
              network_location.to_host_string, port_suffix]
      rw [this] at hx
      rcases List.mem_append.1 hx with hx | hx
      · exact hHN x hx
      · exact hport x hx
  · rw [netloc_to_string_user U P H O hU] at hx
    rcases List.mem_append.1 hx with hx | hx
    · exact hUN x hx
    · rcases List.mem_append.1 hx with hx | hx
      · by_cases hP : P = []
        · rw [if_pos hP] at hx; cases hx
        · rw [if_neg hP] at hx
          rcases List.mem_cons.1 hx with rfl | hx
          · exact hcolon
          · exact hPN2 x hx
      · rcases List.mem_cons.1 hx with rfl | hx
        · exact hatc
        · rcases List.mem_append.1 hx with hx | hx
          · exact hHN x hx
          · exact hport x hx

/-- Absolute form, the other direction: a target that
`url::parse_absolute_form` reads to a url written as that same target has a
scheme, no username, a host unless it has no port, and a path that is empty or
begins with `/` and has no search delimiter. -/
theorem fixpoint_absolute (c : Char) (rest : Str) (u : url) (hc : c ≠ '/')
    (hlen : (c :: rest).length < npos) (h : url.parse_absolute_form (c :: rest) = .ok u)
    (hfix : u.to_string = c :: rest) :
    u.scheme ≠ [] ∧ u.netloc.username = [] ∧ (u.netloc.host = [] → u.netloc.port = none) ∧
      (u.path = [] ∨ u.path.head? = some '/') ∧ ∀ a ∈ u.path, ¬ is_search_delim a := by
  obtain ⟨S, x, tail, hs, hS, hx, hcases⟩ := parse_absolute_form_shape c rest u hc hlen h
  rw [hs] at hfix hlen
  have hinit : network_location.init.empty = true := rfl
  have hinits : network_location.init.to_string = [] := rfl
  rcases hcases with ⟨y, t, ht, hy, hu⟩ | ⟨A, Q, z, w, ht, hAQ, hz, hA, hQ, hu⟩ |
    ⟨N, A, Q, nl, ht, hN, hA0, hA, hQ, hQ0, hnl, hu⟩ | ⟨N, d, L, A, nl, ht, hN, hd, hL, hnl, hu⟩
  · subst hu
    rw [to_string_absolute, hinit, hinits] at hfix
    refine ⟨?_, rfl, fun _ => rfl, Or.inl rfl, fun a ha => absurd ha (List.not_mem_nil a)⟩
    intro hS0
    simp only at hS0
    subst hS0
    have := congrArg List.length hfix
    simp at this
  · exfalso
    subst hu
    rw [to_string_absolute, hinit, hinits, ht] at hfix
    have := congrArg List.length hfix
    by_cases hS0 : S = []
    · subst hS0
      simp at this
      omega
    · rw [if_neg hS0] at this
      simp at this
  · subst hu
    have hNlen : N.length < npos := by
      rw [ht] at hlen
      simp only [List.length_append, List.length_cons] at hlen
      omega
    have hfree := netloc_to_string_free N nl hN hNlen hnl
    rw [to_string_absolute, ht] at hfix
    by_cases hS0 : S = []
    · exfalso
      subst hS0
      rw [if_pos rfl, List.nil_append, List.nil_append] at hfix
      have hfix2 : nl.to_string ++ (A ++ Q) = (x :: '/' :: '/' :: N) ++ (A ++ Q) := by
        rw [hfix]; simp
      have hfix3 := List.append_cancel_right hfix2
      exact (hfree '/' (by rw [hfix3]; simp)).1 rfl
    · have hxc : x = ':' := by
        rcases hx with hx | hx
        · exact hx
        · exact absurd hx hS0
      subst hxc
      rw [if_neg hS0, List.append_assoc] at hfix
      have hfix1 := List.append_cancel_left hfix
      cases hne : nl.empty with
      | true =>
        exfalso
        rw [hne, netloc_to_string_empty nl hne] at hfix1
        have := congrArg List.length hfix1
        simp at this
        omega
      | false =>
        rw [hne] at hfix1
        simp only [Bool.false_eq_true, ↓reduceIte, List.cons_append, List.nil_append,
          List.cons.injEq, true_and] at hfix1
        have hfix3 := List.append_cancel_right hfix1
        have hU := netloc_fixpoint N nl (fun a ha => (hN a ha).1) hNlen hnl hfix3
        refine ⟨hS0, hU, ?_, hA0, hA⟩
        intro hH
        exfalso
        obtain ⟨-, -, tailp, -, -, -, huser⟩ :=
          parse_netloc_shape N nl (fun a ha => (hN a ha).1) hNlen hnl
        have hP : nl.password = [] := by
          rcases huser with ⟨-, hp, -⟩ | ⟨hu, -⟩
          · exact hp
          · exact absurd hU hu
        simp only at hU hH
        simp [network_location.empty, hU, hP, hH] at hne
  · exfalso
    subst hu
    have hNlen : N.length < npos := by
      rw [ht] at hlen
      simp only [List.length_append, List.length_cons] at hlen
      omega
    have hfree := netloc_to_string_free N nl hN hNlen hnl
    rw [to_string_absolute, ht] at hfix
    by_cases hS0 : S = []
    · subst hS0
      rw [if_pos rfl, List.nil_append, List.nil_append, List.append_nil] at hfix
      have hfix2 : nl.to_string ++ '/' :: A = (x :: '/' :: '/' :: (N ++ d :: L)) ++ '/' :: A := by
        rw [hfix]; simp
      have hfix3 := List.append_cancel_right hfix2
      exact (hfree '/' (by rw [hfix3]; simp)).1 rfl
    · have hxc : x = ':' := by
        rcases hx with hx | hx
        · exact hx
        · exact absurd hx hS0
      subst hxc
      rw [if_neg hS0, List.append_assoc, List.append_nil] at hfix
      have hfix1 := List.append_cancel_left hfix
      cases hne : nl.empty with
      | true =>
        rw [hne, netloc_to_string_empty nl hne] at hfix1
        have := congrArg List.length hfix1
        simp at this
        omega
      | false =>
        rw [hne] at hfix1
        simp only [Bool.false_eq_true, ↓reduceIte, List.cons_append, List.nil_append,
          List.cons.injEq, true_and] at hfix1
        have hfix2 : nl.to_string ++ '/' :: A = (N ++ d :: L) ++ '/' :: A := by
          rw [hfix1]; simp
        have hfix3 := List.append_cancel_right hfix2
        exact (hfree d (by rw [hfix3]; simp)).2 hd

theorem round_trip_form_absolute (u : url) (hf : u.form = target_form.absolute) :
    round_trip_form u ↔
      (u.scheme ≠ [] ∧ u.netloc.username = [] ∧ (u.netloc.host = [] → u.netloc.port = none) ∧
        (u.path = [] ∨ u.path.head? = some '/') ∧ ∀ a ∈ u.path, ¬ is_search_delim a) := by
  unfold round_trip_form
  rw [hf]

theorem to_string_authority_empty (p : Nat) :
    url.to_string (url.make_authority_form [] p) = [] := by
  simp [url.to_string, url.make_authority_form, network_location.to_string,
    network_location.empty]

/-- Counterexample to C4 as stated: the target `a:/b` (method GET) is parsed to
the absolute-form url with scheme `a` and path `b`; that url is written as
`a:b`, which is parsed again to a url with empty path and search `b`. -/
theorem url_round_trip_counterexample :
    url.parse_target "a:/b".toList method.GET =
      .ok ⟨.absolute, "a".toList, network_location.init, "b".toList, []⟩ ∧
    url.to_string ⟨.absolute, "a".toList, network_location.init, "b".toList, []⟩ =
      "a:b".toList ∧
    url.parse_target "a:b".toList method.GET =
      .ok ⟨.absolute, "a".toList, network_location.init, [], "b".toList⟩ ∧
    url.parse_target
        (url.to_string ⟨.absolute, "a".toList, network_location.init, "b".toList, []⟩)
        method.GET ≠
      .ok ⟨.absolute, "a".toList, network_location.init, "b".toList, []⟩ := by
  decide

/-- C4 (amended): URL round trip.  For every string `s` and method `m` such
that `u = url::parse_target(s, m)` succeeds, parsing `u.to_string()` again
with the same method succeeds and yields a url equal to `u` in every field if
and only if `u` is of asterisk form, or of origin form, or of authority form
with a non-empty host, or of absolute form with a non-empty scheme, an empty
username, a non-empty host unless it has no port, and a path that is empty or
begins with `/` and has none of `;`, `?`, `#`.  (`s` and `u.to_string()` are
strings, hence shorter than `npos`.) -/
theorem url_round_trip (s : Str) (m : method) (u : url)
    (hlen : s.length < npos) (hlen2 : u.to_string.length < npos)
    (h : url.parse_target s m = .ok u) :
    url.parse_target u.to_string m = .ok u ↔ round_trip_form u := by
  have hform := parse_target_form s m u h
  cases s with
  | nil => cases h
  | cons c rest =>
    have h0 := h
    rw [parse_target_dispatch] at h
    unfold expected_form at hform
    by_cases h1 : c :: rest = ['*']
    · rw [if_pos h1] at h
      cases h
      exact ⟨fun _ => trivial, fun _ => rfl⟩
    · rw [if_neg h1] at h hform
      by_cases h2 : c = '/'
      · rw [if_pos h2] at h
        rw [if_pos (by simp [h2])] at hform
        rw [round_trip_origin _ u hlen h]
        refine ⟨fun _ => ?_, fun _ => h0⟩
        unfold round_trip_form
        rw [hform]
        trivial
      · rw [if_neg h2] at h
        rw [if_neg (by simp [h2])] at hform
        by_cases h3 : m = method.CONNECT
        · rw [if_pos h3] at h hform
          subst h3
          have hrt : round_trip_form u ↔ u.netloc.host ≠ [] := by
            unfold round_trip_form
            rw [hform]
          rw [hrt]
          refine ⟨fun hre hhost => ?_, fun hk => round_trip_authority c rest u h2 h hk hlen2⟩
          obtain ⟨host, text, p, -, -, -, -, hu⟩ := parse_authority_form_inv _ _ h
          subst hu
          have hh : host = [] := hhost
          subst hh
          rw [to_string_authority_empty] at hre
          cases hre
        · rw [if_neg h3] at h hform
          rw [round_trip_form_absolute u hform]
          refine ⟨fun hre => ?_, fun hk => round_trip_absolute c rest u m h2 h3 hlen hlen2 h hk⟩
          cases ht : u.to_string with
          | nil => rw [ht] at hre; cases hre
          | cons c2 r2 =>
            rw [ht] at hre hlen2
            rw [parse_target_dispatch] at hre
            by_cases h4 : c2 :: r2 = ['*']
            · rw [if_pos h4] at hre
              cases hre
              cases hform
            · rw [if_neg h4] at hre
              by_cases h5 : c2 = '/'
              · rw [if_pos h5] at hre
                have := (parse_origin_form_inv _ _ hre).1
                rw [hform] at this
                cases this
              · rw [if_neg h5, if_neg h3] at hre
                exact fixpoint_absolute c2 r2 u h5 hlen2 hre ht

/-- Witness of C4 (amended) at the target `svn+ssh://host:080?q#f`, whose url
is written as `svn+ssh://host:80?q#f` and read back unchanged; the url of
`a:/b`, whose path does not begin with `/`, is not among those that are. -/
theorem url_round_trip_witness :
    url.parse_target "svn+ssh://host:080?q#f".toList method.GET =
      .ok ⟨.absolute, "svn+ssh".toList, ⟨[], [], "host".toList, some 80⟩, [],
        "?q#f".toList⟩ ∧
    url.to_string ⟨.absolute, "svn+ssh".toList, ⟨[], [], "host".toList, some 80⟩, [],
        "?q#f".toList⟩ = "svn+ssh://host:80?q#f".toList ∧
    url.parse_target
      (url.to_string ⟨.absolute, "svn+ssh".toList, ⟨[], [], "host".toList, some 80⟩, [],
        "?q#f".toList⟩) method.GET =
      .ok ⟨.absolute, "svn+ssh".toList, ⟨[], [], "host".toList, some 80⟩, [],
        "?q#f".toList⟩ ∧
    ¬ round_trip_form ⟨.absolute, "a".toList, network_location.init, "b".toList, []⟩ :=
  ⟨by decide, by decide,
    (url_round_trip "svn+ssh://host:080?q#f".toList method.GET _ (by decide) (by decide)
      (by decide)).2 (by decide),
    by decide⟩

open proxy.error proxy.connection proxy.util.buffer proxy.tcp.websocket
open proxy.tcp.websocket.protocol

/-- C11 (the code departs from it): for `user:pw@host:80`, `url::parse_netloc`
returns username `user:pw` (the password and its `:` are not cut off), password
`pw`, host `@host` (the `@` is kept) and port 80. -/
theorem parse_netloc_userinfo :
    url.parse_netloc "user:pw@host:80".toList =
      .ok ⟨"user:pw".toList, "pw".toList, "@host".toList, some 80⟩ := by
  decide

theorem switch_return_none (cases : List (Int × String)) (val : Int)
    (h : ∀ x ∈ cases, val ≠ x.1) : error_code.switch_return cases val = none := by
  induction cases with
  | nil => rfl
  | cons x xs ih =>
    obtain ⟨label, msg⟩ := x
    unfold error_code.switch_return
    rw [if_neg (h (label, msg) (List.mem_cons_self _ _))]
    exact ih (fun y hy => h y (List.mem_cons_of_mem _ hy))

theorem message_unknown (val : Int) (h0 : val ≠ 0)
    (h : ∀ c ∈ EXCEPTION_CATEGORIES, ∀ r ∈ c.table,
      val ≠ ((CREATE_ERROR_CODES r.num c.num : Nat) : Int)) :
    error_code.message val = "Unknown error" := by
  unfold error_code.message
  rw [if_neg (by simpa [errc.success] using h0)]
  rw [switch_return_none]
  intro x hx
  unfold error_code.SWITCH_CASES at hx
  rw [List.mem_flatMap] at hx
  obtain ⟨c, hc, hx⟩ := hx
  rw [List.mem_map] at hx
  obtain ⟨r, hr, rfl⟩ := hx
  exact h c hc r hr

/-- C18: `error_code::message()` equals the message table: it returns
`Success` for `success`, the message listed beside the code in its category
table for every listed code, and `Unknown error` for every other value,
including the four category mask codes, which the category exception classes
use as their default code. -/
theorem error_code_message_table :
    error_code.message ((errc.success : Nat) : Int) = "Success" ∧
    (∀ c ∈ EXCEPTION_CATEGORIES, ∀ r ∈ c.table,
      error_code.message ((CREATE_ERROR_CODES r.num c.num : Nat) : Int) = r.msg) ∧
    (∀ val : Int, val ≠ ((errc.success : Nat) : Int) →
      (∀ c ∈ EXCEPTION_CATEGORIES, ∀ r ∈ c.table,
        val ≠ ((CREATE_ERROR_CODES r.num c.num : Nat) : Int)) →
      error_code.message val = "Unknown error") ∧
    (∀ c ∈ EXCEPTION_CATEGORIES,
      (category_exception c none none).code = CREATE_CATEGORY_CODES c.num ∧
      error_code.message ((CREATE_CATEGORY_CODES c.num : Nat) : Int) = "Unknown error") := by
  refine ⟨by decide, by decide, ?_, by decide⟩
  intro val h0 h
  exact message_unknown val h0 h

/-- Witness of C18: the message of `invalid_target_port`, and of the value -1,
which is no listed code. -/
theorem error_code_message_table_witness :
    error_code.message ((errc.invalid_target_port : Nat) : Int) = "Invalid target port" ∧
    error_code.message (-1) = "Unknown error" :=
  ⟨error_code_message_table.2.1 ⟨1, "http", "HTTP error", true, HTTP_EXCEPTIONS⟩ (by decide)
      ⟨5, "invalid_target_port", "Invalid target port"⟩ (by decide),
    error_code_message_table.2.2.1 (-1) (by decide) (by decide)⟩

theorem listed_code_category : ∀ c ∈ EXCEPTION_CATEGORIES, ∀ r ∈ c.table,
    is_proxy_error (CREATE_ERROR_CODES r.num c.num) = decide (c.num = 0) ∧
    is_http_error (CREATE_ERROR_CODES r.num c.num) = decide (c.num = 1) ∧
    is_tls_error (CREATE_ERROR_CODES r.num c.num) = decide (c.num = 2) ∧
    is_websocket_error (CREATE_ERROR_CODES r.num c.num) = decide (c.num = 3) := by
  decide

theorem category_nested : ∀ c ∈ EXCEPTION_CATEGORIES, c.nested = !decide (c.num = 0) := by
  decide

/-- C19: for every generated class `<name>_exception` and every message `str`
(`none` for the default message of the table), the constructed exception's
`error_code()` is the code of the same name, its `what()` text is `<name>: `
followed by the message, and the code satisfies the predicate of the category
of the class, and of no other category.  Classes of the nested categories
(http, tls, websocket) are built through their category class, those of the
proxy category directly on `base_exception`. -/
theorem generated_exception_code : ∀ c ∈ EXCEPTION_CATEGORIES, ∀ r ∈ c.table,
    ∀ str : Option String,
      (GENERATE_EXCEPTION c r str).error_code = CREATE_ERROR_CODES r.num c.num ∧
      (GENERATE_EXCEPTION c r str).what = r.name ++ ": " ++ str.getD r.msg ∧
      (GENERATE_EXCEPTION c r (some r.msg) = GENERATE_EXCEPTION c r none) ∧
      (GENERATE_EXCEPTION c r str =
        if c.num = 0 then ⟨r.name ++ ": " ++ str.getD r.msg, CREATE_ERROR_CODES r.num c.num⟩
        else category_exception c (some (r.name ++ ": " ++ str.getD r.msg))
          (some (CREATE_ERROR_CODES r.num c.num))) ∧
      is_proxy_error (GENERATE_EXCEPTION c r str).error_code = decide (c.num = 0) ∧
      is_http_error (GENERATE_EXCEPTION c r str).error_code = decide (c.num = 1) ∧
      is_tls_error (GENERATE_EXCEPTION c r str).error_code = decide (c.num = 2) ∧
      is_websocket_error (GENERATE_EXCEPTION c r str).error_code = decide (c.num = 3) := by
  intro c hc r hr str
  have hcode : (GENERATE_EXCEPTION c r str).error_code = CREATE_ERROR_CODES r.num c.num := by
    unfold GENERATE_EXCEPTION base_exception.error_code category_exception
    split <;> rfl
  have hnested : c.nested = !decide (c.num = 0) := category_nested c hc
  refine ⟨hcode, ?_, rfl, ?_, ?_⟩
  · unfold GENERATE_EXCEPTION category_exception
    split <;> rfl
  · unfold GENERATE_EXCEPTION
    by_cases h0 : c.num = 0
    · rw [if_pos h0, hnested]; simp [h0]
    · rw [if_neg h0, hnested]; simp [h0]
  · rw [hcode]
    exact listed_code_category c hc r hr

/-- Witness of C19: `invalid_target_port_exception("Missing port")`. -/
theorem generated_exception_code_witness :
    (GENERATE_EXCEPTION ⟨1, "http", "HTTP error", true, HTTP_EXCEPTIONS⟩
      ⟨5, "invalid_target_port", "Invalid target port"⟩ (some "Missing port")).error_code =
        errc.invalid_target_port ∧
    (GENERATE_EXCEPTION ⟨1, "http", "HTTP error", true, HTTP_EXCEPTIONS⟩
      ⟨5, "invalid_target_port", "Invalid target port"⟩ (some "Missing port")).what =
        "invalid_target_port: Missing port" ∧
    is_http_error (GENERATE_EXCEPTION ⟨1, "http", "HTTP error", true, HTTP_EXCEPTIONS⟩
      ⟨5, "invalid_target_port", "Invalid target port"⟩ (some "Missing port")).error_code =
        true :=
  ⟨(generated_exception_code ⟨1, "http", "HTTP error", true, HTTP_EXCEPTIONS⟩ (by decide)
      ⟨5, "invalid_target_port", "Invalid target port"⟩ (by decide) (some "Missing port")).1,
    by decide, by decide⟩

/-- C17: for every flow state, host `h` and port `p`, after
`connection_flow::set_server(h, p)` the target host is `h`, the target port is
`p` and the server connection is not connected; `disconnect()` was called on
it, once, exactly when it was connected before; the client connection is
unchanged. -/
theorem set_server_effect {κ : Type} (flow : connection_flow κ) (h : Str) (p : Nat) :
    (flow.set_server h p).target_host = h ∧
    (flow.set_server h p).target_port = p ∧
    (flow.set_server h p).server.connected = false ∧
    (flow.server.connected = false → (flow.set_server h p).server = flow.server) ∧
    (flow.set_server h p).server.disconnects =
      flow.server.disconnects + (if flow.server.connected then 1 else 0) ∧
    (flow.set_server h p).client = flow.client := by
  unfold connection_flow.set_server server_connection.disconnect server_connection.connected
  cases hc : flow.server.is_connected <;> simp [hc]

/-- Witness of C17: a flow connected to `old:80` is retargeted. -/
theorem set_server_effect_witness :
    ((⟨(), ⟨true, 0⟩, "old".toList, 80⟩ : connection_flow Unit).set_server
      "example.test".toList 443) = ⟨(), ⟨false, 1⟩, "example.test".toList, 443⟩ ∧
    ((⟨(), ⟨true, 0⟩, "old".toList, 80⟩ : connection_flow Unit).set_server
      "example.test".toList 443).server.connected = false :=
  ⟨rfl,
    (set_server_effect (⟨(), ⟨true, 0⟩, "old".toList, 80⟩ : connection_flow Unit)
      "example.test".toList 443).2.2.1⟩

theorem process_close_frame_two (f : frame) (out : close_frame) (b0 b1 : byte)
    (rest : List byte) (h : f.content = b0 :: b1 :: rest) :
    websocket_manager.process_close_frame f out = .ok ⟨256 * b0.val + b1.val, rest⟩ := by
  unfold websocket_manager.process_close_frame
  rw [h]
  simp [buffer_segment.read_up_to_bytes, buffer_segment.init, buffer_segment.export_data,
    util.bytes.parse_network_byte_order]

theorem process_close_frame_empty (f : frame) (out : close_frame) (h : f.content = []) :
    websocket_manager.process_close_frame f out =
      .ok ⟨close_code.no_status_rcvd, out.reason⟩ := by
  unfold websocket_manager.process_close_frame
  rw [h]
  simp [buffer_segment.read_up_to_bytes, buffer_segment.init, buffer_segment.bytes_last_read]

theorem process_close_frame_one (f : frame) (out : close_frame) (b : byte)
    (h : f.content = [b]) :
    websocket_manager.process_close_frame f out =
      .error (.exception errc.invalid_frame "Close frame cannot have 1 byte payload") := by
  unfold websocket_manager.process_close_frame
  rw [h]
  simp [buffer_segment.read_up_to_bytes, buffer_segment.init, buffer_segment.bytes_last_read]

/-- C12: for every close frame whose payload is two bytes `b0`, `b1` followed
by `rest`, `websocket_manager::process_close_frame` produces the close frame
whose code is the big-endian value `256 * b0 + b1` and whose reason is `rest`;
the payload `0x03 0xE8 "bye"` gives code 1000 and reason `bye`. -/
theorem close_frame_code_reason (f : frame) (out : close_frame) (b0 b1 : byte)
    (rest : List byte) (h : f.content = b0 :: b1 :: rest) :
    websocket_manager.process_close_frame f out = .ok ⟨256 * b0.val + b1.val, rest⟩ ∧
    websocket_manager.process_close_frame ⟨true, opcode.close, 0x03 :: 0xE8 :: ascii "bye"⟩ out =
      .ok ⟨1000, ascii "bye"⟩ :=
  ⟨process_close_frame_two f out b0 b1 rest h,
    process_close_frame_two _ out 0x03 0xE8 (ascii "bye") rfl⟩

/-- Witness of C12: the payload `0x03 0xE8 "bye"`. -/
theorem close_frame_code_reason_witness :
    websocket_manager.process_close_frame ⟨true, opcode.close, 0x03 :: 0xE8 :: ascii "bye"⟩
      close_frame.init = .ok ⟨1000, ascii "bye"⟩ ∧
    websocket_manager.parse [yields ⟨true, opcode.close, 0x03 :: 0xE8 :: ascii "bye"⟩] =
      .ok [completed_frame.close ⟨1000, ascii "bye"⟩] :=
  ⟨(close_frame_code_reason ⟨true, opcode.close, 0x03 :: 0xE8 :: ascii "bye"⟩ close_frame.init
      0x03 0xE8 (ascii "bye") rfl).1, by decide⟩

/-- C13: for a close frame with an empty payload,
`websocket_manager::process_close_frame` does not fail; the close frame it
fills in has code `no_status_rcvd`, and its reason is left as it was, so it is
empty in the close frame that `websocket_manager::parse` hands in. -/
theorem close_frame_no_status (f : frame) (out : close_frame) (h : f.content = []) :
    websocket_manager.process_close_frame f out =
      .ok ⟨close_code.no_status_rcvd, out.reason⟩ ∧
    websocket_manager.process_close_frame f close_frame.init =
      .ok ⟨close_code.no_status_rcvd, []⟩ ∧
    (f.type = opcode.close →
      websocket_manager.parse [yields f] =
        .ok [completed_frame.close ⟨close_code.no_status_rcvd, []⟩]) := by
  refine ⟨process_close_frame_empty f out h, process_close_frame_empty f _ h, ?_⟩
  intro ht
  simp [websocket_manager.parse, websocket_manager.parse_loop, yields, ht,
    process_close_frame_empty f _ h, close_frame.init]

/-- Witness of C13: the close frame without payload. -/
theorem close_frame_no_status_witness :
    websocket_manager.process_close_frame ⟨true, opcode.close, []⟩ close_frame.init =
      .ok ⟨close_code.no_status_rcvd, []⟩ :=
  (close_frame_no_status ⟨true, opcode.close, []⟩ close_frame.init rfl).2.1

/-- C14: `websocket_manager::process_close_frame` fails with the websocket
error `invalid_frame` for every close frame whose payload is exactly one byte,
and for a payload of no other length. -/
theorem close_frame_one_byte (f : frame) (out : close_frame) :
    (f.content.length = 1 →
      websocket_manager.process_close_frame f out =
        .error (.exception errc.invalid_frame "Close frame cannot have 1 byte payload")) ∧
    (f.content.length ≠ 1 →
      ∃ r, websocket_manager.process_close_frame f out = .ok r) ∧
    (f.content.length = 1 ↔
      ∃ msg, websocket_manager.process_close_frame f out =
        .error (.exception errc.invalid_frame msg)) ∧
    is_websocket_error errc.invalid_frame = true ∧
    errc.invalid_frame ∈
      category_codes ⟨3, "websocket", "WebSocket error", true, WEBSOCKET_EXCEPTIONS⟩ := by
  have h1 : f.content.length = 1 →
      websocket_manager.process_close_frame f out =
        .error (.exception errc.invalid_frame "Close frame cannot have 1 byte payload") := by
    intro h
    obtain ⟨b, hb⟩ := List.length_eq_one.1 h
    exact process_close_frame_one f out b hb
  have h2 : f.content.length ≠ 1 →
      ∃ r, websocket_manager.process_close_frame f out = .ok r := by
    intro h
    cases hc : f.content with
    | nil => exact ⟨_, process_close_frame_empty f out hc⟩
    | cons b0 t =>
      cases t with
      | nil => rw [hc] at h; exact absurd rfl h
      | cons b1 rest => exact ⟨_, process_close_frame_two f out b0 b1 rest hc⟩
  refine ⟨h1, h2, ⟨fun h => ⟨_, h1 h⟩, ?_⟩, by decide, by decide⟩
  rintro ⟨msg, hm⟩
  by_contra hne
  obtain ⟨r, hr⟩ := h2 hne
  rw [hr] at hm
  cases hm

/-- Witness of C14: a close frame with the one-byte payload `0x03`. -/
theorem close_frame_one_byte_witness :
    websocket_manager.process_close_frame ⟨true, opcode.close, [0x03]⟩ close_frame.init =
      .error (.exception errc.invalid_frame "Close frame cannot have 1 byte payload") :=
  (close_frame_one_byte ⟨true, opcode.close, [0x03]⟩ close_frame.init).1 rfl

theorem process_close_frame_init (f : frame) (h : f.content.length ≠ 1) :
    websocket_manager.process_close_frame f close_frame.init = .ok (close_of f.content) := by
  cases hc : f.content with
  | nil => rw [process_close_frame_empty f _ hc]; rfl
  | cons b0 t =>
    cases t with
    | nil => rw [hc] at h; exact absurd rfl h
    | cons b1 rest => rw [process_close_frame_two f _ b0 b1 rest hc]; rfl

theorem parse_loop_step (f : frame) (rest : List parser_step) (result : List completed_frame)
    (h : f.type = opcode.close → f.content.length ≠ 1) :
    websocket_manager.parse_loop result (yields f :: rest) =
      websocket_manager.parse_loop (result ++ (completed_of f).toList) rest := by
  simp only [yields, websocket_manager.parse_loop, completed_of]
  cases ht : f.type with
  | close => simp only [process_close_frame_init f (h ht), Option.toList]
  | ping => simp only [Option.toList]
  | pong => simp only [Option.toList]
  | text => simp only [Option.toList]
  | binary => simp only [Option.toList]
  | continuation => simp only [Option.toList, List.append_nil]
  | reserved v => simp only [Option.toList, List.append_nil]

theorem filterMap_cons_toList (f : frame) (fs : List frame) :
    (f :: fs).filterMap completed_of = (completed_of f).toList ++ fs.filterMap completed_of := by
  cases h : completed_of f <;> simp [List.filterMap_cons, h, Option.toList]

theorem parse_loop_yields (frames : List frame) (tail : List parser_step) :
    ∀ result : List completed_frame,
      (∀ f ∈ frames, f.type = opcode.close → f.content.length ≠ 1) →
      websocket_manager.parse_loop result (frames.map yields ++ tail) =
        websocket_manager.parse_loop (result ++ frames.filterMap completed_of) tail := by
  induction frames with
  | nil => intro result _; simp
  | cons f fs ih =>
    intro result h
    have hfs : ∀ g ∈ fs, g.type = opcode.close → g.content.length ≠ 1 :=
      fun g hg => h g (List.mem_cons_of_mem _ hg)
    rw [List.map_cons, List.cons_append, parse_loop_step f _ result (h f (List.mem_cons_self _ _)),
      ih _ hfs, filterMap_cons_toList, List.append_assoc]

theorem parse_loop_one_byte_close (pre : List frame) (f : frame) (post : List frame)
    (hpre : ∀ g ∈ pre, g.type = opcode.close → g.content.length ≠ 1)
    (ht : f.type = opcode.close) (hlen : f.content.length = 1) :
    websocket_manager.parse ((pre ++ f :: post).map yields) =
      .error (.exception errc.invalid_frame "Close frame cannot have 1 byte payload") := by
  have key : ∀ result : List completed_frame,
      websocket_manager.parse_loop result ((f :: post).map yields) =
        .error (.exception errc.invalid_frame "Close frame cannot have 1 byte payload") := by
    intro result
    obtain ⟨b, hb⟩ := List.length_eq_one.1 hlen
    simp only [List.map_cons, yields, websocket_manager.parse_loop, ht,
      process_close_frame_one f _ b hb]
  have gen : ∀ (pre : List frame) (result : List completed_frame),
      (∀ g ∈ pre, g.type = opcode.close → g.content.length ≠ 1) →
      websocket_manager.parse_loop result ((pre ++ f :: post).map yields) =
        .error (.exception errc.invalid_frame "Close frame cannot have 1 byte payload") := by
    intro pre
    induction pre with
    | nil => intro result _; exact key result
    | cons g gs ih =>
      intro result h
      have hgs : ∀ x ∈ gs, x.type = opcode.close → x.content.length ≠ 1 :=
        fun x hx => h x (List.mem_cons_of_mem _ hx)
      rw [List.cons_append, List.map_cons, parse_loop_step g _ result (h g (List.mem_cons_self _ _))]
      exact ih _ hgs
  exact gen pre [] hpre

theorem parse_yields (frames : List frame) (more : List parser_step)
    (sc : Option close_code)
    (h : ∀ f ∈ frames, f.type = opcode.close → f.content.length ≠ 1) :
    websocket_manager.parse (frames.map yields) = .ok (frames.filterMap completed_of) ∧
    websocket_manager.parse (frames.map yields ++ ⟨none, sc⟩ :: more) =
      .ok (frames.filterMap completed_of) := by
  constructor
  · have := parse_loop_yields frames [] [] h
    simpa [websocket_manager.parse, websocket_manager.parse_loop] using this
  · have := parse_loop_yields frames (⟨none, sc⟩ :: more) [] h
    unfold websocket_manager.parse
    rw [this]
    cases sc <;> simp [websocket_manager.parse_loop]

/-- Counterexample to C15 as stated: for the parsed frame stream
`(fin=0, text, "foo")`, `(fin=0, continuation, "bar")`,
`(fin=1, continuation, "baz")`, `websocket_manager::parse` returns the single
message frame of type text with payload `foo` and `finished = false`, not one
with payload `foobarbaz` and `finished = true`. -/
theorem fragment_reassembly_counterexample :
    websocket_manager.parse
      [yields ⟨false, opcode.text, ascii "foo"⟩,
       yields ⟨false, opcode.continuation, ascii "bar"⟩,
       yields ⟨true, opcode.continuation, ascii "baz"⟩] =
      .ok [completed_frame.message ⟨opcode.text, ascii "foo", false⟩] ∧
    websocket_manager.parse
      [yields ⟨false, opcode.text, ascii "foo"⟩,
       yields ⟨false, opcode.continuation, ascii "bar"⟩,
       yields ⟨true, opcode.continuation, ascii "baz"⟩] ≠
      .ok [completed_frame.message ⟨opcode.text, ascii "foobarbaz", true⟩] := by
  decide

/-- C15 (amended): fragments are not reassembled.  A text or binary frame with
`fin = 0` followed by continuation frames (up to one with `fin = 1`, or any
others) makes `websocket_manager::parse` return exactly one completed frame: a
message frame of the type of the first frame whose payload is the payload of
the first frame alone and whose `finished` flag is false.  For
`(fin=0, text, "foo")`, `(fin=0, continuation, "bar")`,
`(fin=1, continuation, "baz")` it is the text message frame with payload `foo`
and `finished = false`. -/
theorem fragments_first_frame_only (first : frame) (conts : List frame)
    (hfin : first.fin = false)
    (htype : first.type = opcode.text ∨ first.type = opcode.binary)
    (hconts : ∀ c ∈ conts, c.type = opcode.continuation) :
    websocket_manager.parse ((first :: conts).map yields) =
      .ok [completed_frame.message ⟨first.type, first.content, false⟩] := by
  have hclose : ∀ f ∈ first :: conts, f.type = opcode.close → f.content.length ≠ 1 := by
    intro f hf hc
    rcases List.mem_cons.1 hf with rfl | hf
    · rcases htype with h | h <;> rw [h] at hc <;> cases hc
    · rw [hconts f hf] at hc; cases hc
  rw [(parse_yields (first :: conts) [] none hclose).1]
  have hnone : conts.filterMap completed_of = [] := by
    rw [List.filterMap_eq_nil_iff]
    intro c hc
    simp [completed_of, hconts c hc]
  rw [filterMap_cons_toList, hnone]
  rcases htype with h | h <;> simp [completed_of, h, hfin, Option.toList]

/-- Witness of C15 (amended): the frame stream `foo`, `bar`, `baz`. -/
theorem fragments_first_frame_only_witness :
    websocket_manager.parse
      ([⟨false, opcode.text, ascii "foo"⟩, ⟨false, opcode.continuation, ascii "bar"⟩,
        ⟨true, opcode.continuation, ascii "baz"⟩].map yields) =
      .ok [completed_frame.message ⟨opcode.text, ascii "foo", false⟩] :=
  fragments_first_frame_only ⟨false, opcode.text, ascii "foo"⟩
    [⟨false, opcode.continuation, ascii "bar"⟩, ⟨true, opcode.continuation, ascii "baz"⟩]
    rfl (Or.inl rfl) (by decide)

/-- Counterexample to C16 as stated: when the frame parser yields a close frame
with the one-byte payload `0x03`, `websocket_manager::parse` returns no
completed frames at all: it fails with `invalid_frame`. -/
theorem parse_per_frame_counterexample :
    websocket_manager.parse [yields ⟨true, opcode.close, [0x03]⟩] =
      .error (.exception errc.invalid_frame "Close frame cannot have 1 byte payload") ∧
    ¬ ∃ result, websocket_manager.parse [yields ⟨true, opcode.close, [0x03]⟩] = .ok result := by
  have h : websocket_manager.parse [yields ⟨true, opcode.close, [0x03]⟩] =
      .error (.exception errc.invalid_frame "Close frame cannot have 1 byte payload") := by
    decide
  refine ⟨h, ?_⟩
  rintro ⟨result, hr⟩
  rw [h] at hr
  cases hr

/-- C16 (amended): for every sequence of frames the frame parser yields before
it reports insufficient data, none of which is a close frame with a one-byte
payload, `websocket_manager::parse` returns, in arrival order, exactly one
completed frame per frame whose opcode is ping, pong, close, text or binary and
none for any other opcode: a ping becomes a ping frame and a pong a pong frame
with the payload unchanged, a text or binary frame a message frame of that
type with the frame's payload whose `finished` flag is the `fin` bit.  When one
of the frames is a close frame with a one-byte payload, `parse` fails with
`invalid_frame`. -/
theorem parse_per_frame (frames : List frame) :
    ((∀ f ∈ frames, f.type = opcode.close → f.content.length ≠ 1) →
      websocket_manager.parse (frames.map yields) = .ok (frames.filterMap completed_of) ∧
      ∀ (sc : Option close_code) (more : List parser_step),
        websocket_manager.parse (frames.map yields ++ ⟨none, sc⟩ :: more) =
          .ok (frames.filterMap completed_of)) ∧
    ((∃ f ∈ frames, f.type = opcode.close ∧ f.content.length = 1) →
      websocket_manager.parse (frames.map yields) =
        .error (.exception errc.invalid_frame "Close frame cannot have 1 byte payload")) ∧
    (∀ f : frame,
      (f.type = opcode.ping → completed_of f = some (.ping ⟨f.content⟩)) ∧
      (f.type = opcode.pong → completed_of f = some (.pong ⟨f.content⟩)) ∧
      (f.type = opcode.text ∨ f.type = opcode.binary →
        completed_of f = some (.message ⟨f.type, f.content, f.fin⟩)) ∧
      (f.type = opcode.close → ∃ c, completed_of f = some (.close c)) ∧
      (f.type = opcode.continuation ∨ (∃ v, f.type = opcode.reserved v) →
        completed_of f = none)) := by
  refine ⟨fun h => ⟨(parse_yields frames [] none h).1,
    fun sc more => (parse_yields frames more sc h).2⟩, ?_, ?_⟩
  · rintro ⟨f, hf, ht, hlen⟩
    -- split at the first close frame with a one-byte payload
    have split : ∀ l : List frame, (∃ g ∈ l, g.type = opcode.close ∧ g.content.length = 1) →
        ∃ pre g post, l = pre ++ g :: post ∧
          (∀ x ∈ pre, x.type = opcode.close → x.content.length ≠ 1) ∧
          g.type = opcode.close ∧ g.content.length = 1 := by
      intro l
      induction l with
      | nil => rintro ⟨g, hg, -⟩; cases hg
      | cons x xs ih =>
        rintro ⟨g, hg, hgt, hgl⟩
        by_cases hx : x.type = opcode.close ∧ x.content.length = 1
        · exact ⟨[], x, xs, rfl, by simp, hx.1, hx.2⟩
        · have hin : g ∈ xs := by
            rcases List.mem_cons.1 hg with rfl | h
            · exact absurd ⟨hgt, hgl⟩ hx
            · exact h
          obtain ⟨pre, y, post, rfl, hpre, hy1, hy2⟩ := ih ⟨g, hin, hgt, hgl⟩
          refine ⟨x :: pre, y, post, rfl, ?_, hy1, hy2⟩
          intro z hz hzt
          rcases List.mem_cons.1 hz with rfl | hz
          · intro hl; exact hx ⟨hzt, hl⟩
          · exact hpre z hz hzt
    obtain ⟨pre, g, post, rfl, hpre, hg1, hg2⟩ := split frames ⟨f, hf, ht, hlen⟩
    exact parse_loop_one_byte_close pre g post hpre hg1 hg2
  · intro f
    refine ⟨?_, ?_, ?_, ?_, ?_⟩
    · intro h; simp [completed_of, h]
    · intro h; simp [completed_of, h]
    · rintro (h | h) <;> simp [completed_of, h]
    · intro h; exact ⟨close_of f.content, by simp [completed_of, h]⟩
    · rintro (h | ⟨v, h⟩) <;> simp [completed_of, h]

/-- Witness of C16 (amended): a ping, a continuation frame, a binary frame and a
close frame, followed by the report of insufficient data. -/
theorem parse_per_frame_witness :
    websocket_manager.parse
      ([⟨true, opcode.ping, ascii "p"⟩, ⟨true, opcode.continuation, ascii "c"⟩,
        ⟨false, opcode.binary, ascii "b"⟩, ⟨true, opcode.close, []⟩].map yields) =
      .ok [completed_frame.ping ⟨ascii "p"⟩,
        completed_frame.message ⟨opcode.binary, ascii "b", false⟩,
        completed_frame.close ⟨close_code.no_status_rcvd, []⟩] :=
  ((parse_per_frame [⟨true, opcode.ping, ascii "p"⟩, ⟨true, opcode.continuation, ascii "c"⟩,
      ⟨false, opcode.binary, ascii "b"⟩, ⟨true, opcode.close, []⟩]).1 (by decide)).1

theorem last_index_none (p : Char → Bool) (s : Str) (h : last_index p s = none) :
    ∀ x ∈ s, p x = false := by
  induction s with
  | nil => simp
  | cons c cs ih =>
    unfold last_index at h
    cases hr : last_index p cs with
    | some i => rw [hr] at h; cases h
    | none =>
      rw [hr] at h
      simp only at h
      intro x hx
      rcases List.mem_cons.1 hx with rfl | hx
      · by_cases hp : p x = true
        · rw [if_pos hp] at h; cases h
        · simpa using hp
      · exact ih hr x hx

theorem last_index_some (p : Char → Bool) (s : Str) (e : Nat) (h : last_index p s = some e) :
    ∃ pre c post, s = pre ++ c :: post ∧ pre.length = e ∧ p c = true ∧
      ∀ x ∈ post, p x = false := by
  induction s generalizing e with
  | nil => cases h
  | cons c cs ih =>
    unfold last_index at h
    cases hr : last_index p cs with
    | some i =>
      rw [hr] at h
      cases h
      obtain ⟨pre, d, post, h1, h2, h3, h4⟩ := ih i hr
      exact ⟨c :: pre, d, post, by rw [h1]; rfl, by simp [h2], h3, h4⟩
    | none =>
      rw [hr] at h
      simp only at h
      by_cases hp : p c = true
      · rw [if_pos hp] at h
        cases h
        exact ⟨[], c, cs, rfl, rfl, hp, last_index_none p cs hr⟩
      · rw [if_neg hp] at h; cases h

theorem trim_all_whitespace (src ws : Str) (h : ∀ c ∈ src, ws.contains c = true) :
    util.string.trim src ws = .ok [] := by
  unfold util.string.trim sv_find_first_not_of
  rw [List.drop_zero, first_index_none _ src (by intro x hx; simpa using h x hx)]
  simp

theorem trim_shape (src ws : Str) (hlen : src.length < npos) :
    ∃ l t r, util.string.trim src ws = .ok t ∧ src = l ++ t ++ r ∧
      (∀ c ∈ l, ws.contains c = true) ∧ (∀ c ∈ r, ws.contains c = true) ∧
      (∀ c, t.head? = some c → ws.contains c = false) ∧
      (∀ c, t.getLast? = some c → ws.contains c = false) := by
  cases hf : first_index (fun c => !ws.contains c) src with
  | none =>
    have hall : ∀ c ∈ src, ws.contains c = true := by
      intro c hc
      have := first_index_none_all _ _ hf c hc
      simpa using this
    exact ⟨src, [], [], trim_all_whitespace src ws hall, by simp, hall, by simp, by simp,
      by simp⟩
  | some b =>
    obtain ⟨c0, rest0, hd, hc0, hpre⟩ := first_index_some _ _ _ hf
    have hb : b < src.length := by
      by_contra hcon
      rw [List.drop_of_length_le (by omega)] at hd
      cases hd
    have hc0mem : c0 ∈ src := by
      have : c0 ∈ src.drop b := by rw [hd]; exact List.mem_cons_self _ _
      exact List.mem_of_mem_drop this
    cases hl : last_index (fun c => !ws.contains c) src with
    | none => exact absurd hc0 (by rw [last_index_none _ _ hl c0 hc0mem]; simp)
    | some e =>
      obtain ⟨pre, c1, post, hs, hpl, hc1, hpost⟩ := last_index_some _ _ _ hl
      have hbe : b ≤ e := by
        by_contra hcon
        have hmem : c1 ∈ src.take b := by
          rw [hs, List.take_append_eq_append_take]
          have : b - pre.length = (b - pre.length - 1) + 1 := by omega
          rw [List.take_of_length_le (by omega), this, List.take_succ_cons]
          simp
        rw [hpre c1 hmem] at hc1
        cases hc1
      have hL : src.length = e + 1 + post.length := by rw [hs]; simp; omega
      have hcount : ((e + 2 ^ 64 - b) % 2 ^ 64 + 1) % 2 ^ 64 = e - b + 1 := by
        have h1 : e + 2 ^ 64 - b = (e - b) + 2 ^ 64 := by omega
        unfold npos at hlen
        rw [h1, Nat.add_mod_right, Nat.mod_eq_of_lt (by omega), Nat.mod_eq_of_lt (by omega)]
      have htake : src.take (npos + 1) = src := List.take_of_length_le (by omega)
      have hdrop : src.drop b = pre.drop b ++ c1 :: post := by
        rw [hs, List.drop_append_of_le_length (by omega)]
      have ht : (src.drop b).take (e - b + 1) = pre.drop b ++ [c1] := by
        rw [hdrop]
        have : e - b + 1 = (pre.drop b ++ [c1]).length := by simp; omega
        rw [this]
        have h2 : pre.drop b ++ c1 :: post = (pre.drop b ++ [c1]) ++ post := by simp
        rw [h2, List.take_left]
      refine ⟨src.take b, pre.drop b ++ [c1], post, ?_, ?_, ?_, ?_, ?_, ?_⟩
      · unfold util.string.trim sv_find_first_not_of sv_find_last_not_of
        simp only [List.drop_zero, hf, htake, hl, Nat.zero_add]
        rw [if_neg (by simp; omega), hcount]
        unfold sv_substr
        rw [if_neg (by omega), ht]
      · have : src = src.take b ++ src.drop b := (List.take_append_drop b src).symm
        rw [hdrop] at this
        rw [List.append_assoc, List.append_assoc]
        simpa using this
      · intro c hc
        have := hpre c hc
        simpa using this
      · intro c hc
        have := hpost c hc
        simpa using this
      · intro c hc
        have hh : (pre.drop b ++ [c1]).head? = some c0 := by
          have h3 : pre.drop b ++ [c1] = (src.drop b).take (e - b + 1) := ht.symm
          rw [h3, hd]
          rfl
        rw [hh] at hc
        cases hc
        simpa using hc0
      · intro c hc
        rw [List.getLast?_append] at hc
        simp at hc
        subst hc
        simpa using hc1

theorem trim_piece_unique (src ws l t r : Str) (hs : src = l ++ t ++ r)
    (hl : ∀ c ∈ l, ws.contains c = true) (hr : ∀ c ∈ r, ws.contains c = true)
    (hh : ∀ c, t.head? = some c → ws.contains c = false)
    (hg : ∀ c, t.getLast? = some c → ws.contains c = false) :
    t = (src.dropWhile (fun c => ws.contains c)).rdropWhile (fun c => ws.contains c) := by
  rw [hs, List.append_assoc, List.dropWhile_append_of_pos hl]
  cases t with
  | nil =>
    rw [List.nil_append]
    have : r.dropWhile (fun c => ws.contains c) = [] :=
      List.dropWhile_eq_nil_iff.2 hr
    rw [this]
    rfl
  | cons c t' =>
    have hc : ws.contains c = false := hh c rfl
    rw [List.cons_append, List.dropWhile_cons_of_neg (by simpa using hc)]
    unfold List.rdropWhile
    have hrev : (c :: (t' ++ r)).reverse = r.reverse ++ (c :: t').reverse := by simp
    rw [hrev, List.dropWhile_append_of_pos (by intro x hx; exact hr x (List.mem_reverse.1 hx))]
    have hlast : ∃ d ds, (c :: t').reverse = d :: ds ∧ ws.contains d = false := by
      cases hrv : (c :: t').reverse with
      | nil => simp at hrv
      | cons d ds =>
        refine ⟨d, ds, rfl, hg d ?_⟩
        have : (c :: t').getLast? = (c :: t').reverse.head? := by
          rw [List.head?_reverse]
        rw [this, hrv]
        rfl
    obtain ⟨d, ds, hd1, hd2⟩ := hlast
    rw [hd1, List.dropWhile_cons_of_neg (by simpa using hd2), ← hd1, List.reverse_reverse]

theorem trim_idempotent (src ws t : Str) (hlen : src.length < npos)
    (h : util.string.trim src ws = .ok t) : util.string.trim t ws = .ok t := by
  obtain ⟨l, t0, r, h0, hs, -, -, hh, hg⟩ := trim_shape src ws hlen
  rw [h0] at h
  have ht : t0 = t := Except.ok.inj h
  rw [ht] at hs hh hg
  have hlt : t.length < npos := by
    have : src.length = l.length + t.length + r.length := by
      rw [hs, List.length_append, List.length_append]
    omega
  obtain ⟨l2, t2, r2, h2, hs2, hl2, hr2, hh2, hg2⟩ := trim_shape t ws hlt
  have e1 := trim_piece_unique t ws l2 t2 r2 hs2 hl2 hr2 hh2 hg2
  have e2 := trim_piece_unique t ws [] t [] (by simp) (by simp) (by simp) hh hg
  rw [h2, e1, ← e2]

/-- C20: for every string `src` and whitespace set `ws`, `util::string::trim`
returns the unique contiguous piece `t` of `src` such that `src = l ++ t ++ r`
where every character of `l` and of `r` is in `ws` and `t` is empty or neither
begins nor ends with a character of `ws`; it returns the empty string when
every character of `src` is in `ws`; and trimming the result again returns it
unchanged. -/
theorem trim_unique_piece (src ws : Str) (hlen : src.length < npos) :
    ∃ t, util.string.trim src ws = .ok t ∧
      (∃ l r, src = l ++ t ++ r ∧ (∀ c ∈ l, c ∈ ws) ∧ (∀ c ∈ r, c ∈ ws)) ∧
      (∀ c, t.head? = some c → c ∉ ws) ∧
      (∀ c, t.getLast? = some c → c ∉ ws) ∧
      (∀ l1 t1 r1 : Str, src = l1 ++ t1 ++ r1 → (∀ c ∈ l1, c ∈ ws) → (∀ c ∈ r1, c ∈ ws) →
        (∀ c, t1.head? = some c → c ∉ ws) → (∀ c, t1.getLast? = some c → c ∉ ws) →
        t1 = t) ∧
      ((∀ c ∈ src, c ∈ ws) → t = []) ∧
      util.string.trim t ws = .ok t := by
  obtain ⟨l, t, r, h0, hs, hl, hr, hh, hg⟩ := trim_shape src ws hlen
  refine ⟨t, h0, ⟨l, r, hs, ?_, ?_⟩, ?_, ?_, ?_, ?_, trim_idempotent src ws t hlen h0⟩
  · intro c hc; simpa using hl c hc
  · intro c hc; simpa using hr c hc
  · intro c hc; simpa using hh c hc
  · intro c hc; simpa using hg c hc
  · intro l1 t1 r1 hs1 hl1 hr1 hh1 hg1
    have e1 := trim_piece_unique src ws l1 t1 r1 hs1 (by intro c hc; simpa using hl1 c hc)
      (by intro c hc; simpa using hr1 c hc) (by intro c hc; simpa using hh1 c hc)
      (by intro c hc; simpa using hg1 c hc)
    have e2 := trim_piece_unique src ws l t r hs hl hr hh hg
    rw [e1, ← e2]
  · intro hall
    have := trim_all_whitespace src ws (by intro c hc; simpa using hall c hc)
    rw [h0] at this
    cases this
    rfl

/-- Witness of C20: trimming blanks and tabs off `  a b \t`. -/
theorem trim_unique_piece_witness :
    "  a b \t".toList.length < npos ∧
    util.string.trim "  a b \t".toList " \t".toList = .ok "a b".toList ∧
    ∃ t, util.string.trim "  a b \t".toList " \t".toList = .ok t ∧
      (∃ l r, "  a b \t".toList = l ++ t ++ r ∧ (∀ c ∈ l, c ∈ " \t".toList) ∧
        (∀ c ∈ r, c ∈ " \t".toList)) ∧
      (∀ c, t.head? = some c → c ∉ " \t".toList) ∧
      (∀ c, t.getLast? = some c → c ∉ " \t".toList) ∧
      (∀ l1 t1 r1 : Str, "  a b \t".toList = l1 ++ t1 ++ r1 → (∀ c ∈ l1, c ∈ " \t".toList) →
        (∀ c ∈ r1, c ∈ " \t".toList) →
        (∀ c, t1.head? = some c → c ∉ " \t".toList) →
        (∀ c, t1.getLast? = some c → c ∉ " \t".toList) → t1 = t) ∧
      ((∀ c ∈ "  a b \t".toList, c ∈ " \t".toList) → t = []) ∧
      util.string.trim t " \t".toList = .ok t :=
  ⟨by decide, by decide, trim_unique_piece "  a b \t".toList " \t".toList (by decide)⟩

open proxy.util.string

/-- C30: for every url value, `absolute_string()` is `origin_string()` followed
by `full_path()`; and for every url whose form is absolute or authority,
`to_string()` is `absolute_string()`. -/
theorem absolute_string_parts (u : url) :
    u.absolute_string = u.origin_string ++ u.full_path ∧
    (u.form = target_form.absolute ∨ u.form = target_form.authority →
      u.to_string = u.absolute_string) := by
  constructor
  · unfold url.absolute_string url.origin_string url.full_path
    cases hp : u.path <;> simp
  · intro h
    unfold url.to_string url.absolute_string
    rcases h with h | h <;> simp [h]

/-- Witness of C30: the authority-form url `example.test:443`. -/
theorem absolute_string_parts_witness :
    (url.make_authority_form "example.test".toList 443).to_string =
      (url.make_authority_form "example.test".toList 443).absolute_string ∧
    (url.make_authority_form "example.test".toList 443).absolute_string =
      "example.test:443".toList :=
  ⟨(absolute_string_parts (url.make_authority_form "example.test".toList 443)).2 (Or.inr rfl),
    by decide⟩

/-- C28: when a call of the frame parser inside `websocket_manager::parse` sets
`should_close`, the loop stops at once and the result built so far is returned:
nothing after that call is parsed, and a frame returned by that very call is
not emitted.  So after frames none of which made `parse` fail, the completed
frames of exactly those frames are returned. -/
theorem parse_stops_on_close (frames : List frame) (last : Option frame) (sc : close_code)
    (more : List parser_step)
    (h : ∀ f ∈ frames, f.type = opcode.close → f.content.length ≠ 1) :
    (∀ result : List completed_frame,
      websocket_manager.parse_loop result (⟨last, some sc⟩ :: more) = .ok result) ∧
    websocket_manager.parse (frames.map yields ++ ⟨last, some sc⟩ :: more) =
      .ok (frames.filterMap completed_of) ∧
    websocket_manager.parse (frames.map yields ++ ⟨last, some sc⟩ :: more) =
      websocket_manager.parse (frames.map yields) := by
  have h1 : ∀ result : List completed_frame,
      websocket_manager.parse_loop result (⟨last, some sc⟩ :: more) = .ok result := by
    intro result
    simp [websocket_manager.parse_loop]
  have h2 : websocket_manager.parse (frames.map yields ++ ⟨last, some sc⟩ :: more) =
      .ok (frames.filterMap completed_of) := by
    unfold websocket_manager.parse
    rw [parse_loop_yields frames _ [] h, h1]
    simp
  exact ⟨h1, h2, by rw [h2, (parse_yields frames [] none h).1]⟩

/-- Witness of C28: a ping is parsed, then the parser returns a text frame and
sets `should_close` to 1002; only the ping is returned. -/
theorem parse_stops_on_close_witness :
    websocket_manager.parse
      ([⟨true, opcode.ping, ascii "p"⟩].map yields ++
        ⟨some ⟨true, opcode.text, ascii "late"⟩, some 1002⟩ ::
          [yields ⟨true, opcode.text, ascii "never"⟩]) =
      .ok [completed_frame.ping ⟨ascii "p"⟩] :=
  (parse_stops_on_close [⟨true, opcode.ping, ascii "p"⟩]
    (some ⟨true, opcode.text, ascii "late"⟩) 1002 [yields ⟨true, opcode.text, ascii "never"⟩]
    (by decide)).2.1

/-- C23 (the code departs from it): in `a://` the first `:` is followed by two
characters, yet `url::parse_absolute_form` reads out of bounds: the netloc
between `//` and the end is empty, and `url::parse_netloc` evaluates `str[0]` on
it.  The same happens for `http:///x`. -/
theorem parse_absolute_form_empty_netloc :
    url.parse_absolute_form "a://".toList = .error fault.undefined_read ∧
    url.parse_netloc [] = .error fault.undefined_read ∧
    url.parse_absolute_form "http:///x".toList = .error fault.undefined_read := by
  decide

/-- C24 (the code departs from it): for `http://host?x/y`, whose search `?x/y`
contains a `/`, `url::parse_absolute_form` returns the host `host` with path
`/y` and an empty search: the `?x` is lost. -/
theorem parse_absolute_form_search_slash :
    url.parse_absolute_form "http://host?x/y".toList =
      .ok ⟨.absolute, "http".toList, ⟨[], [], "host".toList, none⟩, "/y".toList, []⟩ := by
  decide

/-- C26 (the code departs from it): `util::string::split("a,b,c", ',')` returns
`a`, `a`, `c`, and `split("ab,cde,f", ',')` returns `ab`, `ab,`, `f`: each
token but the last is cut from index 0 of `src`, not from `prev`. -/
theorem split_char_tokens :
    split "a,b,c".toList ',' = .ok ["a".toList, "a".toList, "c".toList] ∧
    split "ab,cde,f".toList ',' = .ok ["ab".toList, "ab,".toList, "f".toList] := by
  decide

theorem parse_absolute_form_host_port (host port : Str) (hne : host ≠ [])
    (hcolon : ∀ c ∈ host, c ≠ ':') (hslash : host.head? ≠ some '/')
    (hport : is_decimal_number port) (hlen : (host ++ ':' :: port).length < npos) :
    url.parse_absolute_form (host ++ ':' :: port) =
      .ok ⟨.absolute, host, network_location.init, [], port⟩ := by
  obtain ⟨p0, prest, hp⟩ : ∃ p0 prest, port = p0 :: prest := by
    cases port with
    | nil => exact absurd rfl hport.1
    | cons a b => exact ⟨a, b, rfl⟩
  have hp0 : p0 ≠ '/' := by
    have := is_digit_host_char p0 (hport.2 p0 (by rw [hp]; exact List.mem_cons_self _ _))
    exact this.2.2.1
  obtain ⟨s, hs⟩ : ∃ s, s = host ++ ':' :: port := ⟨_, rfl⟩
  rw [← hs] at hlen ⊢
  have hL : s.length = host.length + 1 + port.length := by rw [hs]; simp; omega
  have F1 : sv_find s ':' 0 = host.length := by rw [hs]; exact sv_find_found0 host port ':' hcolon
  have F2 : (host.length == npos) = false := by simp; omega
  have F3 : url.both_slash s 0 1 = .ok false := by
    rw [hs]
    cases host with
    | nil => exact absurd rfl hne
    | cons c rest =>
      exact both_slash_not_slash c _ 1 (by intro hc; apply hslash; simp [hc])
  have F4 : util.string.substring s 0 host.length = .ok host := by
    have := substring_mid [] host (':' :: port) 0 host.length rfl (by simp)
      (by simp; unfold npos at hlen; omega)
    rw [hs]; simpa using this
  have A1 : sv_at s (host.length + 1) = .ok p0 := by
    have := sv_at_append (host ++ [':']) p0 prest (host.length + 1) (by simp)
    rw [hs, hp]; simpa using this
  have F5 : url.both_slash s (host.length + 1) (host.length + 2) = .ok false := by
    unfold url.both_slash
    simp [A1, bind, Except.bind, pure, Except.pure, hp0]
  have F6 : util.string.substring s (host.length + 1) npos = .ok port := by
    have := substring_rest (host ++ [':']) port (host.length + 1) (by simp) (by simp; omega)
    rw [hs]; simpa using this
  have F7 : (p0 == '/') = false := by simpa using hp0
  unfold url.parse_absolute_form
  simp only [F1, F2, F3, F4, F5, F6, A1, F7, bind, Except.bind, pure, Except.pure,
    Bool.false_eq_true, ↓reduceIte]

theorem parse_dispatch (c : Char) (rest : Str) :
    url.parse (c :: rest) =
      if c :: rest = ['*'] then .ok url.asterisk_form
      else if c = '/' then url.parse_origin_form (c :: rest)
      else url.parse_absolute_form (c :: rest) := by
  unfold url.parse
  by_cases h1 : c :: rest = ['*']
  · rw [if_pos h1, if_pos h1]; rfl
  · rw [if_neg h1, if_neg h1]
    by_cases h2 : c = '/'
    · simp [sv_at_cons_zero, bind, Except.bind, h2]
    · simp [sv_at_cons_zero, bind, Except.bind, h2]

/-- C22: an authority-form target outside CONNECT is not rejected.  For every
non-CONNECT method and every target `host ++ ":" ++ port` whose host is
non-empty, has no `:` and does not begin with `/`, and whose port is a
non-empty digit string, `url::parse_target` and `url::parse` succeed and return
the absolute-form url whose scheme is `host`, whose network location is empty
(no username, password, host or port), whose path is empty and whose search is
the port text. -/
theorem authority_target_outside_connect (host port : Str) (m : method)
    (hm : m ≠ method.CONNECT) (hne : host ≠ [])
    (hcolon : ∀ c ∈ host, c ≠ ':') (hslash : host.head? ≠ some '/')
    (hport : is_decimal_number port) (hlen : (host ++ ':' :: port).length < npos) :
    url.parse_target (host ++ ':' :: port) m =
      .ok ⟨.absolute, host, ⟨[], [], [], none⟩, [], port⟩ ∧
    url.parse (host ++ ':' :: port) =
      .ok ⟨.absolute, host, ⟨[], [], [], none⟩, [], port⟩ ∧
    (⟨[], [], [], none⟩ : network_location).empty = true := by
  have key := parse_absolute_form_host_port host port hne hcolon hslash hport hlen
  have hstar := host_port_ne_star host port
  cases host with
  | nil => exact absurd rfl hne
  | cons c rest =>
    rw [List.cons_append] at hstar key ⊢
    have hc : c ≠ '/' := by
      intro hc; apply hslash; simp [hc]
    refine ⟨?_, ?_, rfl⟩
    · rw [parse_target_dispatch, if_neg hstar, if_neg hc, if_neg hm, key]; rfl
    · rw [parse_dispatch, if_neg hstar, if_neg hc, key]; rfl

/-- Witness of C22: `GET example.test:443`. -/
theorem authority_target_outside_connect_witness :
    url.parse_target ("example.test".toList ++ ':' :: "443".toList) method.GET =
      .ok ⟨.absolute, "example.test".toList, ⟨[], [], [], none⟩, [], "443".toList⟩ :=
  (authority_target_outside_connect "example.test".toList "443".toList method.GET (by decide)
    (by decide) (by decide) (by decide) (by decide) (by decide)).1

theorem iequals_fn_iff (a : Str) : ∀ b : Str, iequals_fn a b = true ↔ lowercase a = lowercase b := by
  induction a with
  | nil =>
    intro b
    cases b with
    | nil => simp [iequals_fn, std_equal, lowercase]
    | cons y ys => simp [iequals_fn, std_equal, lowercase]
  | cons x xs ih =>
    intro b
    cases b with
    | nil => simp [iequals_fn, std_equal, lowercase]
    | cons y ys =>
      have := ih ys
      unfold iequals_fn at this ⊢
      unfold lowercase at this ⊢
      simp only [std_equal, Bool.and_eq_true, beq_iff_eq, List.map_cons, List.cons.injEq, this]

theorem lowercase_length (a : Str) : (lowercase a).length = a.length := by
  unfold lowercase; simp

/-- C21: for all strings `a` and `b`, `util::string::iequals_fn(a, b)`, and the
`iequals` functor, return true if and only if `lowercase(a) = lowercase(b)`; in
particular strings of different length are never equal, and whenever
`iequals(a, b)` holds, `ihash(a) = ihash(b)`, whatever the underlying hash
function. -/
theorem iequals_lowercase (a b : Str) :
    (iequals_fn a b = true ↔ lowercase a = lowercase b) ∧
    (iequals a b = true ↔ lowercase a = lowercase b) ∧
    (a.length ≠ b.length → iequals_fn a b = false ∧ iequals a b = false) ∧
    (∀ hasher : Str → Nat, iequals a b = true → ihash hasher a = ihash hasher b) := by
  refine ⟨iequals_fn_iff a b, iequals_fn_iff a b, ?_, ?_⟩
  · intro hlen
    have : ¬ iequals_fn a b = true := by
      intro h
      have := congrArg List.length ((iequals_fn_iff a b).1 h)
      rw [lowercase_length, lowercase_length] at this
      exact hlen this
    have h2 : iequals_fn a b = false := by simpa using this
    exact ⟨h2, h2⟩
  · intro hasher h
    unfold ihash
    rw [(iequals_fn_iff a b).1 h]

/-- Witness of C21: `Host` and `hOST`, and `Host` and `Hosts`. -/
theorem iequals_lowercase_witness :
    iequals_fn "Host".toList "hOST".toList = true ∧
    lowercase "Host".toList = lowercase "hOST".toList ∧
    iequals_fn "Host".toList "Hosts".toList = false ∧
    (∀ hasher : Str → Nat, ihash hasher "Host".toList = ihash hasher "hOST".toList) :=
  ⟨by decide, (iequals_lowercase "Host".toList "hOST".toList).1.1 (by decide),
    ((iequals_lowercase "Host".toList "Hosts".toList).2.2.1 (by decide)).1,
    fun hasher => (iequals_lowercase "Host".toList "hOST".toList).2.2.2 hasher (by decide)⟩

theorem iless_irrefl (a : Str) : iless a a = false := by
  unfold iless
  induction a with
  | nil => rfl
  | cons x xs ih => simp [std_lexicographical_compare, ih]

theorem iless_cons (x y : Char) (xs ys : Str) :
    iless (x :: xs) (y :: ys) = true ↔
      tolower x < tolower y ∨ (tolower x = tolower y ∧ iless xs ys = true) := by
  unfold iless
  simp only [std_lexicographical_compare]
  rcases lt_trichotomy (tolower x) (tolower y) with h | h | h
  · simp [h]
  · simp [h]
  · have h1 : ¬ tolower x < tolower y := not_lt.2 (le_of_lt h)
    have h2 : tolower x ≠ tolower y := ne_of_gt h
    simp [h, h1, h2]

theorem iless_nil_left (b : Str) : iless [] b = true ↔ b ≠ [] := by
  unfold iless
  cases b <;> simp [std_lexicographical_compare]

theorem iless_nil_right (a : Str) : iless a [] = false := by
  unfold iless
  cases a <;> simp [std_lexicographical_compare]

theorem iless_trans (a : Str) : ∀ b c : Str, iless a b = true → iless b c = true →
    iless a c = true := by
  induction a with
  | nil =>
    intro b c hab hbc
    cases c with
    | nil => rw [iless_nil_right] at hbc; cases hbc
    | cons z zs => exact (iless_nil_left _).2 (by simp)
  | cons x xs ih =>
    intro b c hab hbc
    cases b with
    | nil => rw [iless_nil_right] at hab; cases hab
    | cons y ys =>
      cases c with
      | nil => rw [iless_nil_right] at hbc; cases hbc
      | cons z zs =>
        rw [iless_cons] at hab hbc ⊢
        rcases hab with h1 | ⟨h1, h1'⟩
        · rcases hbc with h2 | ⟨h2, _⟩
          · exact Or.inl (lt_trans h1 h2)
          · exact Or.inl (h2 ▸ h1)
        · rcases hbc with h2 | ⟨h2, h2'⟩
          · exact Or.inl (h1 ▸ h2)
          · exact Or.inr ⟨h1.trans h2, ih ys zs h1' h2'⟩

theorem iless_incomparable (a : Str) : ∀ b : Str,
    (iless a b = false ∧ iless b a = false) ↔ iequals_fn a b = true := by
  induction a with
  | nil =>
    intro b
    cases b with
    | nil => simp [iless_nil_right, iequals_fn, std_equal]
    | cons y ys =>
      have : iless [] (y :: ys) = true := (iless_nil_left _).2 (by simp)
      simp [this, iequals_fn, std_equal]
  | cons x xs ih =>
    intro b
    cases b with
    | nil =>
      have : iless [] (x :: xs) = true := (iless_nil_left _).2 (by simp)
      simp [this, iequals_fn, std_equal]
    | cons y ys =>
      have hih := ih ys
      have e1 : iequals_fn (x :: xs) (y :: ys) = true ↔
          tolower x = tolower y ∧ iequals_fn xs ys = true := by
        unfold iequals_fn
        simp [std_equal]
      rw [e1, ← hih]
      have n1 : iless (x :: xs) (y :: ys) = false ↔ ¬ iless (x :: xs) (y :: ys) = true := by
        simp
      have n2 : iless (y :: ys) (x :: xs) = false ↔ ¬ iless (y :: ys) (x :: xs) = true := by
        simp
      have n3 : iless xs ys = false ↔ ¬ iless xs ys = true := by simp
      have n4 : iless ys xs = false ↔ ¬ iless ys xs = true := by simp
      rw [n1, n2, n3, n4, iless_cons, iless_cons]
      constructor
      · rintro ⟨h1, h2⟩
        have hxy : tolower x = tolower y := by
          rcases lt_trichotomy (tolower x) (tolower y) with h | h | h
          · exact absurd (Or.inl h) h1
          · exact h
          · exact absurd (Or.inl h) h2
        exact ⟨hxy, fun h => h1 (Or.inr ⟨hxy, h⟩), fun h => h2 (Or.inr ⟨hxy.symm, h⟩)⟩
      · rintro ⟨hxy, h1, h2⟩
        constructor
        · rintro (h | ⟨_, h⟩)
          · rw [hxy] at h; exact lt_irrefl _ h
          · exact h1 h
        · rintro (h | ⟨_, h⟩)
          · rw [hxy] at h; exact lt_irrefl _ h
          · exact h2 h

/-- C29: `util::string::iless` is a strict weak ordering on strings: it is
irreflexive and transitive, and incomparability (neither `iless(a, b)` nor
`iless(b, a)`) is transitive; two strings are incomparable under it if and
only if `iequals_fn(a, b)` holds. -/
theorem iless_strict_weak_ordering :
    (∀ a : Str, iless a a = false) ∧
    (∀ a b c : Str, iless a b = true → iless b c = true → iless a c = true) ∧
    (∀ a b c : Str, (iless a b = false ∧ iless b a = false) →
      (iless b c = false ∧ iless c b = false) → (iless a c = false ∧ iless c a = false)) ∧
    (∀ a b : Str, (iless a b = false ∧ iless b a = false) ↔ iequals_fn a b = true) := by
  refine ⟨iless_irrefl, fun a b c => iless_trans a b c, ?_, fun a b => iless_incomparable a b⟩
  intro a b c hab hbc
  rw [iless_incomparable, iequals_fn_iff] at hab hbc ⊢
  exact hab.trans hbc

/-- Witness of C29: `a` before `B` before `c`, and `ab` incomparable with
`AB`. -/
theorem iless_strict_weak_ordering_witness :
    iless "a".toList "c".toList = true ∧
    (iless "ab".toList "AB".toList = false ∧ iless "AB".toList "ab".toList = false) :=
  ⟨iless_strict_weak_ordering.2.1 "a".toList "B".toList "c".toList (by decide) (by decide),
    (iless_strict_weak_ordering.2.2.2 "ab".toList "AB".toList).2 (by decide)⟩

theorem hex_digit_value_of_hex (c : Char) (h : is_hex_digit c) :
    hex_digit_value c = some (hex_digit c) := by
  unfold hex_digit_value hex_digit
  rcases h with h | h | h
  · rw [if_pos h, if_pos h]
  · by_cases h0 : '0' ≤ c ∧ c ≤ '9'
    · rw [if_pos h0, if_pos h0]
    · rw [if_neg h0, if_neg h0, if_pos h, if_pos h]
  · by_cases h0 : '0' ≤ c ∧ c ≤ '9'
    · rw [if_pos h0, if_pos h0]
    · rw [if_neg h0, if_neg h0]
      by_cases h1 : 'a' ≤ c ∧ c ≤ 'f'
      · rw [if_pos h1, if_pos h1]
      · rw [if_neg h1, if_neg h1, if_pos h]

theorem hex_digit_value_of_not_hex (c : Char) (h : ¬ is_hex_digit c) :
    hex_digit_value c = none := by
  unfold hex_digit_value
  unfold is_hex_digit at h
  rw [if_neg (fun h0 => h (Or.inl h0)), if_neg (fun h0 => h (Or.inr (Or.inl h0))),
    if_neg (fun h0 => h (Or.inr (Or.inr h0)))]

theorem hex_run_digits (h : Str) (tail : Str) (hh : ∀ c ∈ h, is_hex_digit c)
    (ht : ∀ c, tail.head? = some c → ¬ is_hex_digit c) :
    ∀ acc : Nat, hex_run acc (h ++ tail) =
      (h.foldl (fun acc c => 16 * acc + hex_digit c) acc, tail) := by
  induction h with
  | nil =>
    intro acc
    cases tail with
    | nil => rfl
    | cons c cs =>
      simp only [List.nil_append, hex_run, hex_digit_value_of_not_hex c (ht c rfl), List.foldl_nil]
  | cons x xs ih =>
    intro acc
    simp only [List.cons_append, hex_run, hex_digit_value_of_hex x (hh x (List.mem_cons_self _ _)),
      List.foldl_cons]
    exact ih (fun c hc => hh c (List.mem_cons_of_mem _ hc)) _

theorem is_hex_digit_plain (c : Char) (h : is_hex_digit c) :
    c ≠ '-' ∧ c ≠ '+' ∧ c ≠ 'x' ∧ c ≠ 'X' ∧ isspace c = false := by
  refine ⟨?_, ?_, ?_, ?_, ?_⟩
  · rintro rfl; revert h; decide
  · rintro rfl; revert h; decide
  · rintro rfl; revert h; decide
  · rintro rfl; revert h; decide
  · by_contra hs
    have hs : isspace c = true := by simpa using hs
    unfold isspace at hs
    simp only [Bool.or_eq_true, beq_iff_eq] at hs
    rcases hs with ((((rfl | rfl) | rfl) | rfl) | rfl) | rfl <;> revert h <;> decide

/-- What `extract_hex` does on hexadecimal digits `d :: ds` followed by `tail`,
when the digits are not the `0` of a prefix `0x` or `0X`. -/
theorem extract_hex_run (d : Char) (ds tail : Str) (hd : is_hex_digit d)
    (hds : ∀ c ∈ ds, is_hex_digit c)
    (ht : ∀ c, tail.head? = some c → ¬ is_hex_digit c)
    (hx : ds = [] → d = '0' → ∀ c, tail.head? = some c → c ≠ 'x' ∧ c ≠ 'X') :
    extract_hex (d :: ds ++ tail) =
      if hex_value (d :: ds) ≤ npos then some (hex_value (d :: ds), tail) else none := by
  obtain ⟨n1, n2, n3, n4, n5⟩ := is_hex_digit_plain d hd
  have hrun := hex_run_digits (d :: ds) tail
    (by intro c hc; rcases List.mem_cons.1 hc with rfl | hc; exact hd; exact hds c hc) ht 0
  have hdw : (d :: ds ++ tail).dropWhile isspace = d :: (ds ++ tail) := by
    rw [List.cons_append, List.dropWhile_cons_of_neg (by simp [n5])]
  unfold extract_hex
  rw [hdw]
  simp only
  split
  · rename_i heq; simp only [List.cons.injEq] at heq; exact absurd heq.1 n1
  · rename_i heq; simp only [List.cons.injEq] at heq; exact absurd heq.1 n2
  · split
    · rename_i heq2
      exfalso
      simp only [List.cons.injEq] at heq2
      obtain ⟨h0, h1⟩ := heq2
      cases ds with
      | nil =>
        rw [List.nil_append] at h1
        exact (hx rfl h0 'x' (by rw [h1]; rfl)).1 rfl
      | cons e es =>
        simp only [List.cons_append, List.cons.injEq] at h1
        exact (is_hex_digit_plain e (hds e (List.mem_cons_self _ _))).2.2.1 h1.1
    · rename_i heq2
      exfalso
      simp only [List.cons.injEq] at heq2
      obtain ⟨h0, h1⟩ := heq2
      cases ds with
      | nil =>
        rw [List.nil_append] at h1
        exact (hx rfl h0 'X' (by rw [h1]; rfl)).2 rfl
      | cons e es =>
        simp only [List.cons_append, List.cons.injEq] at h1
        exact (is_hex_digit_plain e (hds e (List.mem_cons_self _ _))).2.2.2.1 h1.1
    · simp only [hex_digit_value_of_hex d hd]
      rw [← List.cons_append, hrun]
      simp only [Bool.false_eq_true, ↓reduceIte]
      rfl

theorem parse_hexadecimal_digits (s : Str) (hne : s ≠ []) (hs : ∀ c ∈ s, is_hex_digit c)
    (hv : hex_value s < 2 ^ 64) : parse_hexadecimal s = .ok (hex_value s) := by
  cases s with
  | nil => exact absurd rfl hne
  | cons d ds =>
    have h := extract_hex_run d ds [] (hs d (List.mem_cons_self _ _))
      (fun c hc => hs c (List.mem_cons_of_mem _ hc)) (by simp) (by simp)
    rw [List.append_nil, if_pos (by unfold npos; omega)] at h
    unfold parse_hexadecimal
    rw [h]
    rfl

theorem parse_hexadecimal_trailing (d : Char) (ds : Str) (c : Char) (rest : Str)
    (hd : is_hex_digit d) (hds : ∀ x ∈ ds, is_hex_digit x)
    (hc : ¬ is_hex_digit c) (hsp : isspace c = false)
    (hx : ¬ (d :: ds = ['0'] ∧ (c = 'x' ∨ c = 'X'))) :
    parse_hexadecimal (d :: ds ++ c :: rest) = .error fault.bad_cast := by
  have h := extract_hex_run d ds (c :: rest) hd hds
    (by intro x hx'; simp only [List.head?_cons, Option.some.injEq] at hx'; rw [← hx']; exact hc)
    (by
      intro h1 h2 x hx'
      simp only [List.head?_cons, Option.some.injEq] at hx'
      subst hx'
      constructor
      · intro h3; exact hx ⟨by rw [h1, h2], Or.inl h3⟩
      · intro h3; exact hx ⟨by rw [h1, h2], Or.inr h3⟩)
  unfold parse_hexadecimal
  rw [h]
  by_cases hv : hex_value (d :: ds) ≤ npos
  · rw [if_pos hv]
    simp only
    rw [List.dropWhile_cons_of_neg (by simp [hsp])]
    rfl
  · rw [if_neg hv]

theorem cut_no_delim (d : Char) (s : Str) (h : ∀ c ∈ s, c ≠ d) : cut d s = [s] := by
  induction s with
  | nil => rfl
  | cons c cs ih =>
    unfold cut
    rw [if_neg (h c (List.mem_cons_self _ _)), ih (fun x hx => h x (List.mem_cons_of_mem _ hx))]

theorem cut_piece (d : Char) (piece rest : Str) (h : ∀ c ∈ piece, c ≠ d) :
    cut d (piece ++ d :: rest) = piece :: cut d rest := by
  induction piece with
  | nil => simp [cut]
  | cons c cs ih =>
    have hc : c ≠ d := h c (List.mem_cons_self _ _)
    have ih2 := ih (fun x hx => h x (List.mem_cons_of_mem _ hx))
    rw [List.cons_append, cut, if_neg hc, ih2]

theorem trim_eq_strip (s ws : Str) (hlen : s.length < npos) :
    util.string.trim s ws = .ok (strip ws s) := by
  obtain ⟨l, t, r, h0, hs, hl, hr, hh, hg⟩ := trim_shape s ws hlen
  rw [h0, trim_piece_unique s ws l t r hs hl hr hh hg]
  rfl

theorem last_index_append (p : Char → Bool) (pre s : Str) (j : Nat)
    (h : last_index p s = some j) : last_index p (pre ++ s) = some (pre.length + j) := by
  induction pre with
  | nil => simpa using h
  | cons c cs ih =>
    rw [List.cons_append]
    unfold last_index
    rw [ih]
    simp only [List.length_cons]
    congr 1
    omega

theorem first_index_append_left (p : Char → Bool) (a b : Str) (i : Nat)
    (h : first_index p a = some i) : first_index p (a ++ b) = some i := by
  induction a generalizing i with
  | nil => cases h
  | cons c cs ih =>
    rw [List.cons_append]
    unfold first_index at h ⊢
    by_cases hp : p c = true
    · rw [if_pos hp] at h ⊢; exact h
    · rw [if_neg hp] at h ⊢
      cases hr : first_index p cs with
      | none => rw [hr] at h; cases h
      | some k => rw [ih k hr]; rw [hr] at h; exact h

theorem first_index_lt (p : Char → Bool) (s : Str) (i : Nat) (h : first_index p s = some i) :
    i < s.length := by
  obtain ⟨c, rest, hd, -, -⟩ := first_index_some p s i h
  by_contra hcon
  rw [List.drop_of_length_le (by omega)] at hd
  cases hd

theorem nonws_span (p : Char → Bool) (s : Str) (i : Nat) (h : first_index p s = some i) :
    ∃ j, last_index p s = some j ∧ i ≤ j ∧ j < s.length := by
  obtain ⟨c0, rest0, hd, hc0, hpre⟩ := first_index_some p s i h
  have hc0mem : c0 ∈ s := by
    have : c0 ∈ s.drop i := by rw [hd]; exact List.mem_cons_self _ _
    exact List.mem_of_mem_drop this
  cases hl : last_index p s with
  | none => rw [last_index_none p s hl c0 hc0mem] at hc0; cases hc0
  | some e =>
    obtain ⟨pre, c1, post, hs, hpl, hc1, -⟩ := last_index_some p s e hl
    refine ⟨e, rfl, ?_, by rw [hs]; simp; omega⟩
    by_contra hcon
    have hmem : c1 ∈ s.take i := by
      rw [hs, List.take_append_eq_append_take]
      have : i - pre.length = (i - pre.length - 1) + 1 := by omega
      rw [List.take_of_length_le (by omega), this, List.take_succ_cons]
      simp
    rw [hpre c1 hmem] at hc1
    cases hc1

theorem trim_count (i j : Nat) (hij : i ≤ j) (hj : j < npos) :
    ((j + 2 ^ 64 - i) % 2 ^ 64 + 1) % 2 ^ 64 = j - i + 1 := by
  have h1 : j + 2 ^ 64 - i = (j - i) + 2 ^ 64 := by omega
  unfold npos at hj
  rw [h1, Nat.add_mod_right, Nat.mod_eq_of_lt (by omega), Nat.mod_eq_of_lt (by omega)]

theorem strip_index_form (ws s : Str) (i j : Nat) (hlen : s.length < npos)
    (hi : first_index (fun c => !ws.contains c) s = some i)
    (hj : last_index (fun c => !ws.contains c) s = some j) :
    i ≤ j ∧ j < s.length ∧ strip ws s = (s.drop i).take (j - i + 1) ∧ strip ws s ≠ [] := by
  obtain ⟨j', hj', hij, hjl⟩ := nonws_span _ s i hi
  rw [hj] at hj'
  cases hj'
  have ht := trim_eq_strip s ws hlen
  unfold util.string.trim sv_find_first_not_of sv_find_last_not_of at ht
  simp only [List.drop_zero, hi, Nat.zero_add] at ht
  rw [List.take_of_length_le (by omega), hj] at ht
  simp only at ht
  rw [if_neg (by simp; omega), trim_count i j hij (by omega)] at ht
  unfold sv_substr at ht
  rw [if_neg (by have := first_index_lt _ s i hi; omega)] at ht
  have heq : strip ws s = (s.drop i).take (j - i + 1) := (Except.ok.inj ht).symm
  refine ⟨hij, hjl, heq, ?_⟩
  rw [heq]
  intro hnil
  have := congrArg List.length hnil
  simp at this
  have := first_index_lt _ s i hi
  omega

theorem strip_all_whitespace (ws s : Str)
    (h : first_index (fun c => !ws.contains c) s = none) : strip ws s = [] := by
  unfold strip
  have : s.dropWhile (fun c => ws.contains c) = [] := by
    rw [List.dropWhile_eq_nil_iff]
    intro c hc
    have := first_index_none_all _ s h c hc
    simpa using this
  rw [this]
  rfl

theorem trimmed_pieces_no_delim (R : Str) (d : Char) (ws : Str) (hR : ∀ c ∈ R, c ≠ d) :
    trimmed_pieces R d ws = [strip ws R].filter (fun t => !t.isEmpty) := by
  unfold trimmed_pieces
  rw [cut_no_delim d R hR]
  rfl

theorem trimmed_pieces_piece (piece rest : Str) (d : Char) (ws : Str)
    (hp : ∀ c ∈ piece, c ≠ d) :
    trimmed_pieces (piece ++ d :: rest) d ws =
      [strip ws piece].filter (fun t => !t.isEmpty) ++ trimmed_pieces rest d ws := by
  unfold trimmed_pieces
  rw [cut_piece d piece rest hp, List.map_cons, ← List.singleton_append, List.filter_append]

theorem filter_nonempty_nil :
    ([([] : Str)].filter (fun t => !t.isEmpty)) = [] := rfl

theorem filter_nonempty_single (t : Str) (h : t ≠ []) :
    ([t].filter (fun t => !t.isEmpty)) = [t] := by
  cases t with
  | nil => exact absurd rfl h
  | cons c cs => rfl

theorem split_trim_loop_last (P R ws : Str) (d : Char) (fuel : Nat) (tokens : List Str)
    (hlen : (P ++ R).length < npos) (hR : ∀ c ∈ R, c ≠ d) :
    split_trim_loop (P ++ R) d ws (fuel + 1) P.length tokens =
      .ok (tokens ++ trimmed_pieces R d ws) := by
  have hRlen : R.length < npos := by
    rw [List.length_append] at hlen; omega
  rw [split_trim_loop, sv_find_missing P R d hR, trimmed_pieces_no_delim R d ws hR]
  simp only [bne_self_eq_false, Bool.false_eq_true, ↓reduceIte]
  unfold sv_find_first_not_of
  rw [List.drop_left]
  cases hi : first_index (fun c => !ws.contains c) R with
  | none =>
    simp only [bne_self_eq_false, Bool.false_eq_true, ↓reduceIte]
    rw [strip_all_whitespace ws R hi, filter_nonempty_nil, List.append_nil]
  | some i =>
    obtain ⟨j, hj, -, -⟩ := nonws_span _ R i hi
    obtain ⟨hij, hjl, hstrip, hne⟩ := strip_index_form ws R i j hRlen hi hj
    have hil := first_index_lt _ R i hi
    rw [List.length_append] at hlen
    have hb : (P.length + i != npos) = true := by
      simp only [bne_iff_ne, ne_eq]; omega
    simp only [hb, ↓reduceIte]
    unfold sv_find_last_not_of
    rw [List.take_of_length_le (by rw [List.length_append]; omega),
      last_index_append _ P R j hj]
    simp only
    rw [trim_count (P.length + i) (P.length + j) (by omega) (by omega)]
    unfold sv_substr
    rw [if_neg (by rw [List.length_append]; omega), List.drop_append]
    have hc : P.length + j - (P.length + i) + 1 = j - i + 1 := by omega
    rw [hc, ← hstrip, filter_nonempty_single _ hne]

theorem split_trim_loop_piece (P piece rest ws : Str) (d : Char) (fuel : Nat)
    (tokens : List Str) (hlen : (P ++ (piece ++ d :: rest)).length < npos)
    (hd : ws.contains d = false) (hp : ∀ c ∈ piece, c ≠ d) :
    split_trim_loop (P ++ (piece ++ d :: rest)) d ws (fuel + 1) P.length tokens =
      split_trim_loop (P ++ (piece ++ d :: rest)) d ws fuel (P.length + piece.length + 1)
        (tokens ++ [strip ws piece].filter (fun t => !t.isEmpty)) := by
  have hlen2 : P.length + (piece.length + (rest.length + 1)) < npos := by
    simpa [List.length_append] using hlen
  have hplen : piece.length < npos := by omega
  rw [split_trim_loop, sv_find_found P piece rest d hp]
  have hb : (P.length + piece.length != npos) = true := by
    simp only [bne_iff_ne, ne_eq]; omega
  simp only [hb, ↓reduceIte]
  unfold sv_find_first_not_of
  rw [List.drop_left]
  cases hi : first_index (fun c => !ws.contains c) piece with
  | none =>
    rw [first_index_append_cons _ piece d rest (first_index_none_all _ piece hi)
      (by rw [hd]; rfl)]
    simp only [ge_iff_le, le_refl, ↓reduceIte]
    have hb2 : (P.length + piece.length == npos) = false := by
      simp only [beq_eq_false_iff_ne, ne_eq]; omega
    rw [hb2, strip_all_whitespace ws piece hi, filter_nonempty_nil, List.append_nil]
    rfl
  | some i =>
    obtain ⟨j, hj, -, -⟩ := nonws_span _ piece i hi
    obtain ⟨hij, hjl, hstrip, hne⟩ := strip_index_form ws piece i j hplen hi hj
    have hil := first_index_lt _ piece i hi
    rw [first_index_append_left _ piece (d :: rest) i hi]
    simp only
    rw [if_neg (by omega)]
    unfold sv_find_last_not_of
    have hpos : P.length + piece.length - 1 + 1 = P.length + piece.length := by omega
    rw [hpos, List.take_append, List.take_left, last_index_append _ P piece j hj]
    simp only
    rw [trim_count (P.length + i) (P.length + j) (by omega) (by omega)]
    unfold sv_substr
    rw [if_neg (by simp only [List.length_append, List.length_cons]; omega), List.drop_append]
    have hc : P.length + j - (P.length + i) + 1 = j - i + 1 := by omega
    rw [hc, List.drop_append_of_le_length (by omega),
      List.take_append_of_le_length (by rw [List.length_drop]; omega), ← hstrip,
      filter_nonempty_single _ hne]

theorem split_trim_loop_spec (d : Char) (ws : Str) (hd : ws.contains d = false) :
    ∀ (fuel : Nat) (P R : Str) (tokens : List Str), (P ++ R).length < npos →
      R.length < fuel →
      split_trim_loop (P ++ R) d ws fuel P.length tokens =
        .ok (tokens ++ trimmed_pieces R d ws) := by
  intro fuel
  induction fuel with
  | zero => intro P R tokens _ h; omega
  | succ fuel ih =>
    intro P R tokens hlen hfuel
    cases hk : first_index (fun x => x == d) R with
    | none =>
      have hR : ∀ c ∈ R, c ≠ d := by
        intro c hc
        have := first_index_none_all _ R hk c hc
        simpa using this
      exact split_trim_loop_last P R ws d fuel tokens hlen hR
    | some k =>
      obtain ⟨c, rest, hdrop, hc, hpre⟩ := first_index_some _ R k hk
      have hcd : c = d := by simpa using hc
      subst hcd
      have hp : ∀ x ∈ R.take k, x ≠ c := by
        intro x hx
        have := hpre x hx
        simpa using this
      have hR : R = R.take k ++ c :: rest := by
        rw [← hdrop, List.take_append_drop]
      have hrest : rest.length < fuel := by
        have := congrArg List.length hR
        simp only [List.length_append, List.length_cons] at this
        omega
      rw [hR] at hlen ⊢
      rw [split_trim_loop_piece P (R.take k) rest ws c fuel tokens hlen hd hp,
        trimmed_pieces_piece (R.take k) rest c ws hp]
      have hsrc : P ++ (R.take k ++ c :: rest) = (P ++ R.take k ++ [c]) ++ rest := by
        simp
      have hl : P.length + (R.take k).length + 1 = (P ++ R.take k ++ [c]).length := by
        simp only [List.length_append, List.length_cons, List.length_nil]
      rw [hsrc, hl, ih (P ++ R.take k ++ [c]) rest _ (by rw [← hsrc]; exact hlen) hrest,
        List.append_assoc]

theorem cut_ne_nil (d : Char) (s : Str) : cut d s ≠ [] := by
  induction s with
  | nil => simp [cut]
  | cons c cs ih =>
    rw [cut]
    by_cases hc : c = d
    · rw [if_pos hc]; simp
    · rw [if_neg hc]
      cases hq : cut d cs with
      | nil => simp
      | cons q qs => simp

theorem cut_join (d : Char) (s : Str) : join_with d (cut d s) = s := by
  induction s with
  | nil => rfl
  | cons c cs ih =>
    rw [cut]
    cases hq : cut d cs with
    | nil => exact absurd hq (cut_ne_nil d cs)
    | cons q qs =>
      rw [hq] at ih
      by_cases hc : c = d
      · rw [if_pos hc, join_with, ih, hc]; rfl
      · rw [if_neg hc]
        cases qs with
        | nil =>
          simp only [join_with] at ih ⊢
          rw [ih]
        | cons r rs =>
          simp only [join_with] at ih ⊢
          rw [← ih]; rfl

theorem cut_mem_no_delim (d : Char) (s : Str) : ∀ p ∈ cut d s, d ∉ p := by
  induction s with
  | nil => simp [cut]
  | cons c cs ih =>
    rw [cut]
    by_cases hc : c = d
    · rw [if_pos hc]
      intro p hp
      rcases List.mem_cons.mp hp with rfl | hp
      · simp
      · exact ih p hp
    · rw [if_neg hc]
      cases hq : cut d cs with
      | nil => exact absurd hq (cut_ne_nil d cs)
      | cons q qs =>
        rw [hq] at ih
        intro p hp
        rcases List.mem_cons.mp hp with rfl | hp
        · intro hmem
          rcases List.mem_cons.mp hmem with h | h
          · exact hc h.symm
          · exact ih q (List.mem_cons_self _ _) h
        · exact ih p (List.mem_cons_of_mem _ hp)

theorem cut_mem_length (d : Char) (s : Str) : ∀ p ∈ cut d s, p.length ≤ s.length := by
  induction s with
  | nil => simp [cut]
  | cons c cs ih =>
    rw [cut]
    by_cases hc : c = d
    · rw [if_pos hc]
      intro p hp
      rcases List.mem_cons.mp hp with rfl | hp
      · simp
      · have := ih p hp
        simp only [List.length_cons]; omega
    · rw [if_neg hc]
      cases hq : cut d cs with
      | nil => exact absurd hq (cut_ne_nil d cs)
      | cons q qs =>
        rw [hq] at ih
        intro p hp
        rcases List.mem_cons.mp hp with rfl | hp
        · have := ih q (List.mem_cons_self _ _)
          simp only [List.length_cons]; omega
        · have := ih p (List.mem_cons_of_mem _ hp)
          simp only [List.length_cons]; omega

theorem strip_shape (ws s : Str) (hlen : s.length < npos) :
    ∃ l r, s = l ++ strip ws s ++ r ∧
      (∀ c, (strip ws s).head? = some c → ws.contains c = false) ∧
      (∀ c, (strip ws s).getLast? = some c → ws.contains c = false) := by
  obtain ⟨l, t, r, h0, hs, -, -, hh, hg⟩ := trim_shape s ws hlen
  rw [trim_eq_strip s ws hlen] at h0
  cases h0
  exact ⟨l, r, hs, hh, hg⟩

/-- C25: for a delimiter `d` outside the whitespace set `ws`,
`util::string::split_trim(src, d, ws)` returns, in order, the pieces of `src`
between the occurrences of `d` (the pieces joined with `d` give `src` back and
none contains `d`), each trimmed by `trim(., ws)`, without the pieces that are
then empty; every returned token is non-empty, contains no `d`, and neither
begins nor ends with a character of `ws`. -/
theorem split_trim_tokens (src : Str) (d : Char) (ws : Str) (hd : d ∉ ws)
    (hlen : src.length < npos) :
    split_trim src d ws = .ok (trimmed_pieces src d ws) ∧
    trimmed_pieces src d ws = ((cut d src).map (strip ws)).filter (fun t => !t.isEmpty) ∧
    join_with d (cut d src) = src ∧ (∀ p ∈ cut d src, d ∉ p) ∧
    (∀ p ∈ cut d src, trim p ws = .ok (strip ws p)) ∧
    (∀ t ∈ trimmed_pieces src d ws, t ≠ [] ∧ d ∉ t ∧
      (∀ c, t.head? = some c → c ∉ ws) ∧ (∀ c, t.getLast? = some c → c ∉ ws)) := by
  have hd2 : ws.contains d = false := by simpa using hd
  have hpl : ∀ p ∈ cut d src, p.length < npos := fun p hp =>
    Nat.lt_of_le_of_lt (cut_mem_length d src p hp) hlen
  refine ⟨?_, rfl, cut_join d src, cut_mem_no_delim d src,
    fun p hp => trim_eq_strip p ws (hpl p hp), ?_⟩
  · have := split_trim_loop_spec d ws hd2 (src.length + 1) [] src [] (by simpa using hlen)
      (Nat.lt_succ_self _)
    simpa [split_trim] using this
  · intro t ht
    unfold trimmed_pieces at ht
    rw [List.mem_filter, List.mem_map] at ht
    obtain ⟨⟨p, hp, rfl⟩, hne⟩ := ht
    obtain ⟨l, r, hs, hh, hg⟩ := strip_shape ws p (hpl p hp)
    refine ⟨?_, ?_, ?_, ?_⟩
    · intro hnil
      rw [hnil] at hne
      cases hne
    · intro hmem
      apply cut_mem_no_delim d src p hp
      rw [hs]
      simp [hmem]
    · intro c hc
      have := hh c hc
      simpa using this
    · intro c hc
      have := hg c hc
      simpa using this

theorem split_trim_tokens_witness :
    split_trim " a , b,, c  ".toList ',' " \t".toList =
      .ok ["a".toList, "b".toList, "c".toList] ∧
    cut ',' " a , b,, c  ".toList =
      [" a ".toList, " b".toList, [], " c  ".toList] :=
  ⟨(split_trim_tokens " a , b,, c  ".toList ',' " \t".toList (by decide) (by decide)).1.trans
    (by decide), by decide⟩

theorem first_match_nil_pat (s : Str) : first_match [] s = some 0 := by
  cases s <;> simp [first_match]

theorem occurrences_from_skip (delim cover rest : Str) :
    occurrences_from delim cover.length (cover ++ rest) = occurrences_from delim 0 rest := by
  induction cover with
  | nil => rfl
  | cons x xs ih =>
    rw [List.cons_append, List.length_cons, occurrences_from, ih]

theorem occurrences_from_no_match (delim s : Str) (h : first_match delim s = none) :
    occurrences_from delim 0 s = 0 := by
  induction s with
  | nil => rfl
  | cons c cs ih =>
    rw [first_match] at h
    by_cases hp : delim.isPrefixOf (c :: cs) = true
    · rw [if_pos hp] at h; cases h
    · rw [if_neg hp] at h
      rw [occurrences_from, if_neg hp]
      cases hc : first_match delim cs with
      | none => exact ih hc
      | some k => rw [hc] at h; cases h

theorem first_match_found (delim s : Str) (k : Nat) (hne : delim ≠ [])
    (h : first_match delim s = some k) :
    ∃ rest, s.drop k = delim ++ rest ∧
      occurrences_from delim 0 s = 1 + occurrences_from delim 0 rest := by
  induction s generalizing k with
  | nil =>
    rw [first_match] at h
    cases delim with
    | nil => exact absurd rfl hne
    | cons d ds => simp at h
  | cons c cs ih =>
    rw [first_match] at h
    by_cases hp : delim.isPrefixOf (c :: cs) = true
    · rw [if_pos hp] at h
      cases h
      obtain ⟨rest, hrest⟩ := List.isPrefixOf_iff_prefix.mp hp
      refine ⟨rest, hrest.symm, ?_⟩
      rw [occurrences_from, if_pos hp]
      cases delim with
      | nil => exact absurd rfl hne
      | cons d ds =>
        rw [List.cons_append] at hrest
        obtain ⟨-, hcs⟩ := List.cons.inj hrest
        rw [← hcs, List.length_cons, Nat.add_sub_cancel, occurrences_from_skip]
    · rw [if_neg hp] at h
      cases hc : first_match delim cs with
      | none => rw [hc] at h; cases h
      | some k0 =>
        rw [hc] at h
        cases h
        obtain ⟨rest, hrest, hocc⟩ := ih k0 hc
        refine ⟨rest, hrest, ?_⟩
        rw [occurrences_from, if_neg hp, hocc]

theorem split_str_loop_empty_delim (src : Str) :
    ∀ (fuel : Nat) (tokens : List Str),
      split_str_loop src [] fuel 0 tokens = .error fault.loop_bound := by
  intro fuel
  induction fuel with
  | zero => intro tokens; rfl
  | succ fuel ih =>
    intro tokens
    have hfind : sv_find_str src [] 0 = 0 := by
      unfold sv_find_str
      rw [if_neg (by omega), first_match_nil_pat]
    have hsub : sv_substr src 0 0 = .ok [] := by
      unfold sv_substr
      rw [if_neg (by omega)]
      rfl
    rw [split_str_loop, hfind]
    have hb : ((0 : Nat) != npos) = true := by decide
    simp only [hb, ↓reduceIte, List.length_nil]
    have h0 : (0 + 2 ^ 64 - 0) % 2 ^ 64 = 0 := by decide
    have h1 : (0 + 0) % 2 ^ 64 = 0 := by decide
    rw [h0, hsub, h1]
    exact ih _

theorem split_str_loop_count (src delim : Str) (hne : delim ≠ [])
    (hlen : src.length < npos) :
    ∀ (fuel prev : Nat) (tokens : List Str), prev ≤ src.length → src.length - prev < fuel →
      ∃ out, split_str_loop src delim fuel prev tokens = .ok out ∧
        out.length = tokens.length + occurrences_from delim 0 (src.drop prev) + 1 := by
  intro fuel
  induction fuel with
  | zero => intro prev tokens _ h; omega
  | succ fuel ih =>
    intro prev tokens hprev hfuel
    rw [split_str_loop]
    unfold sv_find_str
    rw [if_neg (show ¬ prev > src.length by omega)]
    cases hm : first_match delim (src.drop prev) with
    | none =>
      simp only [bne_self_eq_false, Bool.false_eq_true, ↓reduceIte]
      unfold sv_substr
      rw [if_neg (by omega)]
      refine ⟨_, rfl, ?_⟩
      rw [occurrences_from_no_match delim _ hm]
      simp
    | some k =>
      obtain ⟨rest, hrest, hocc⟩ := first_match_found delim _ k hne hm
      rw [List.drop_drop] at hrest
      have hl := congrArg List.length hrest
      rw [List.length_drop, List.length_append] at hl
      have hdl : 0 < delim.length := List.length_pos.mpr hne
      have hb : (prev + k != npos) = true := by
        simp only [bne_iff_ne, ne_eq]; omega
      simp only [hb, ↓reduceIte]
      unfold sv_substr
      rw [if_neg (by omega)]
      simp only
      unfold npos at hlen
      rw [Nat.mod_eq_of_lt (by omega : prev + k + delim.length < 2 ^ 64)]
      obtain ⟨out, hout, hcount⟩ := ih (prev + k + delim.length) (tokens ++
        [List.take ((prev + k + 2 ^ 64 - prev) % 2 ^ 64) (List.drop 0 src)]) (by omega) (by omega)
      refine ⟨out, hout, ?_⟩
      have hd : src.drop (prev + k + delim.length) = rest := by
        rw [← List.drop_drop, hrest, List.drop_left]
      rw [hcount, hd, hocc, List.length_append]
      simp only [List.length_cons, List.length_nil]
      omega

theorem split_str_loop_mono (src delim : Str) :
    ∀ (fuel prev : Nat) (tokens out : List Str),
      split_str_loop src delim fuel prev tokens = .ok out →
      ∀ extra, split_str_loop src delim (fuel + extra) prev tokens = .ok out := by
  intro fuel
  induction fuel with
  | zero => intro prev tokens out h; cases h
  | succ fuel ih =>
    intro prev tokens out h extra
    rw [Nat.add_right_comm, split_str_loop]
    rw [split_str_loop] at h
    by_cases hb : (sv_find_str src delim prev != npos) = true
    · simp only [hb, ↓reduceIte] at h ⊢
      cases hs : sv_substr src 0 ((sv_find_str src delim prev + 2 ^ 64 - prev) % 2 ^ 64) with
      | error e => rw [hs] at h; cases h
      | ok token =>
        rw [hs] at h
        exact ih _ _ _ h extra
    · simp only [hb, ↓reduceIte] at h ⊢
      exact h

/-- C31: `util::string::split(src, delim)` with a string delimiter terminates
if and only if `delim` is non-empty.  With the empty delimiter no number of
iterations ends the loop; with a non-empty one every bound above `src.size()`
gives the same returned list, which holds exactly one more token than the
number of occurrences of `delim` found by scanning `src` from left to right
without overlap. -/
theorem split_str_terminates (src delim : Str) (hlen : src.length < npos) :
    ((∃ fuel, split_str fuel src delim ≠ .error fault.loop_bound) ↔ delim ≠ []) ∧
    (delim = [] → ∀ fuel, split_str fuel src delim = .error fault.loop_bound) ∧
    (delim ≠ [] → ∃ tokens,
      (∀ fuel, src.length < fuel → split_str fuel src delim = .ok tokens) ∧
      tokens.length = occurrences delim src + 1) := by
  have hempty : delim = [] → ∀ fuel, split_str fuel src delim = .error fault.loop_bound := by
    intro hd fuel
    subst hd
    exact split_str_loop_empty_delim src fuel []
  have hfull : delim ≠ [] → ∃ tokens,
      (∀ fuel, src.length < fuel → split_str fuel src delim = .ok tokens) ∧
      tokens.length = occurrences delim src + 1 := by
    intro hne
    obtain ⟨out, hout, hcount⟩ :=
      split_str_loop_count src delim hne hlen (src.length + 1) 0 [] (Nat.zero_le _) (by omega)
    refine ⟨out, ?_, ?_⟩
    · intro fuel hfuel
      have := split_str_loop_mono src delim (src.length + 1) 0 [] out hout
        (fuel - (src.length + 1))
      rw [Nat.add_sub_cancel' (by omega)] at this
      exact this
    · rw [hcount]
      simp [occurrences]
  refine ⟨⟨?_, ?_⟩, hempty, hfull⟩
  · rintro ⟨fuel, hfuel⟩ hd
    exact hfuel (hempty hd fuel)
  · intro hne
    obtain ⟨tokens, hrun, -⟩ := hfull hne
    refine ⟨src.length + 1, ?_⟩
    rw [hrun (src.length + 1) (Nat.lt_succ_self _)]
    intro h
    cases h

theorem split_str_terminates_witness :
    (∃ tokens, (∀ fuel, "a, b, c".toList.length < fuel →
        split_str fuel "a, b, c".toList ", ".toList = .ok tokens) ∧
      tokens.length = occurrences ", ".toList "a, b, c".toList + 1) ∧
    occurrences ", ".toList "a, b, c".toList = 2 ∧
    split_str 8 "a, b, c".toList ", ".toList = .ok ["a".toList, "a".toList, "c".toList] ∧
    (∀ fuel, split_str fuel "ab".toList [] = .error fault.loop_bound) ∧
    occurrences "aa".toList "aaa".toList = 1 ∧
    split_str 4 "aaa".toList "aa".toList = .ok [[], "a".toList] :=
  ⟨(split_str_terminates "a, b, c".toList ", ".toList (by decide)).2.2 (by decide),
    by decide, by decide,
    (split_str_terminates "ab".toList [] (by decide)).2.1 rfl, by decide, by decide⟩
